import Mathlib

/-!
Verification development for `arch/mk_syscalls_linux.go`, the build-time
generator that downloads Linux kernel syscall tables and headers, parses them
into per-architecture lists of (number, name) pairs, sorts each list by
number, and renders a Go source file from a fixed template.

The Go code is shallowly embedded here:
* input files are modelled by their list of scanned lines (`bufio.Scanner`
  with `ScanLines`); scanner I/O errors and the 64 KiB maximum token size are
  outside the model;
* `int` is Go's 64-bit `int` (the generator targets 64-bit build hosts),
  modelled as `Int` with explicit wrap-around (`wrap64`) where Go arithmetic
  can overflow;
* the two regular expressions are embedded as deterministic maximal-munch
  parsers, which is justified because every adjacent pair of sub-patterns in
  them draws from disjoint character sets (see the doc comments there);
* `sort.Slice` is embedded as the pdqsort implementation used by Go ≥ 1.19
  (`sort/zsortfunc.go`), transcribed loop by loop;
* effects (HTTP, scratch files, `defer`/`log.Fatal`) are modelled by explicit
  state/result records.
-/

set_option linter.unusedVariables false

open scoped List

deriving instance DecidableEq for Except

/-- Go struct `Syscall` (`Num int`, `Name string`): a single system call. -/
structure Syscall where
  num : Int
  name : String
deriving Repr, DecidableEq, Inhabited

/-- The error values the generator can produce, one constructor per
`fmt.Errorf`/failure site in the source. -/
inductive GoErr where
  /-- `http get failed: ...` in `downloadFile`. -/
  | httpGetFailed
  /-- `download failed with http status ...` in `downloadFile`. -/
  | httpStatus (status : Int)
  /-- `failed to create output file: ...` in `downloadFile`. -/
  | createFailed
  /-- `failed to write file to disk: ...` in `downloadFile`. -/
  | writeFailed
  /-- `unexpected line format: ...` in the table-format line parsers. -/
  | badLineFormat (line : String)
  /-- `failed to parse syscall number: ...` in the line parsers. -/
  | atoiFailed (line : String)
deriving Repr, DecidableEq

/-- `unicode.IsSpace`: the White_Space code points, used by `strings.Fields`
and `strings.TrimSpace`. -/
def goIsSpace (c : Char) : Bool :=
  c = ' ' || c = '\t' || c = '\n' || c.toNat = 11 || c.toNat = 12 || c = '\r' ||
  c.toNat = 0x85 || c.toNat = 0xA0 || c.toNat = 0x1680 ||
  (0x2000 ≤ c.toNat && c.toNat ≤ 0x200A) || c.toNat = 0x2028 || c.toNat = 0x2029 ||
  c.toNat = 0x202F || c.toNat = 0x205F || c.toNat = 0x3000

/-- Go `regexp` Perl class `\s`, which is exactly `[\t\n\f\r ]`. -/
def goRegexSpace (c : Char) : Bool :=
  c = '\t' || c = '\n' || c.toNat = 12 || c = '\r' || c = ' '

/-- The character class `[a-z0-9_]` of the two syscall-header regexes. -/
def isWordChar (c : Char) : Bool :=
  ('a' ≤ c && c ≤ 'z') || ('0' ≤ c && c ≤ '9') || c = '_'

/-- The character class `[0-9]` (Go `regexp` `\d`). -/
def isDigitChar (c : Char) : Bool := '0' ≤ c && c ≤ '9'

/-- `strings.TrimSpace`: drop leading and trailing `unicode.IsSpace` runes. -/
def goTrimSpace (s : String) : String :=
  String.mk (((s.data.dropWhile goIsSpace).reverse.dropWhile goIsSpace).reverse)

/-- Helper for `goFields`: split the remaining characters around runs of
space characters, accumulating the current (reversed) field in `acc`. -/
def goFieldsAux : List Char → List Char → List String
  | [], acc => if acc.isEmpty then [] else [String.mk acc.reverse]
  | c :: cs, acc =>
    if goIsSpace c then
      if acc.isEmpty then goFieldsAux cs []
      else String.mk acc.reverse :: goFieldsAux cs []
    else goFieldsAux cs (c :: acc)

/-- `strings.Fields`: the maximal runs of non-space characters of `s`. -/
def goFields (s : String) : List String := goFieldsAux s.data []

/-- The two error classes of `strconv.Atoi` (`strconv.ErrSyntax` and
`strconv.ErrRange`); the generator only tests the error for non-nilness. -/
inductive AtoiErr where
  | syntaxErr
  | rangeErr
deriving Repr, DecidableEq

/-- Value of a string of decimal digits. -/
def digitsVal (l : List Char) : Nat :=
  l.foldl (fun acc c => acc * 10 + (c.toNat - '0'.toNat)) 0

/-- `strconv.Atoi` = `strconv.ParseInt(s, 10, 0)` with 64-bit `int`:
an optional sign followed by at least one decimal digit, rejected with a
range error when the value does not fit in a signed 64-bit integer. -/
def goAtoi (s : String) : Except AtoiErr Int :=
  let neg : Bool := s.data.head? = some '-'
  let ds :=
    if (s.data.head? = some '+' : Bool) || neg then s.data.tail
    else s.data
  if ds.isEmpty then .error .syntaxErr
  else if !(ds.all isDigitChar) then .error .syntaxErr
  else
    let n := digitsVal ds
    if neg then
      if n > 2 ^ 63 then .error .rangeErr else .ok (-(n : Int))
    else
      if n ≥ 2 ^ 63 then .error .rangeErr else .ok (n : Int)

/-- Two's-complement wrap-around of Go 64-bit `int` arithmetic. -/
def wrap64 (x : Int) : Int := (x + 2 ^ 63) % 2 ^ 64 - 2 ^ 63

/-- Strip a literal character sequence from the front of `l`, or fail. -/
def stripLit : List Char → List Char → Option (List Char)
  | [], l => some l
  | _ :: _, [] => none
  | p :: ps, c :: cs => if c = p then stripLit ps cs else none

/-- Matcher for the anchored regex
`^#define __ARM_NR_([a-z0-9_]+)\s+\(__ARM_NR_BASE\+([0-9]+)\)` of `buildARM`.
Each boundary of the pattern is forced (`[a-z0-9_]`, `\s`, literal `(`,
`[0-9]`, literal `)` are pairwise disjoint at each junction), so greedy
leftmost matching coincides with this maximal-munch parser. Returns the two
capture groups: the name and the digit string. -/
def armHeaderMatch (line : String) : Option (String × String) :=
  match stripLit "#define __ARM_NR_".data line.data with
  | none => none
  | some r1 =>
    let nm := r1.takeWhile isWordChar
    if nm.isEmpty then none
    else
      let r2 := r1.dropWhile isWordChar
      if (r2.takeWhile goRegexSpace).isEmpty then none
      else
        match stripLit "(__ARM_NR_BASE+".data (r2.dropWhile goRegexSpace) with
        | none => none
        | some r3 =>
          let digs := r3.takeWhile isDigitChar
          if digs.isEmpty then none
          else
            match r3.dropWhile isDigitChar with
            | ')' :: _ => some (String.mk nm, String.mk digs)
            | _ => none

/-- Matcher for the anchored regex
`^#define __NR(?:3264)?_([a-z0-9_]+)\s+([0-9]+)` of `buildAARCH64`.
After the literal `__NR`, the optional `3264` branch and the mandatory `_`
start with distinct characters, so at most one alternative can proceed; all
remaining boundaries are forced as in `armHeaderMatch`. -/
def nrHeaderMatch (line : String) : Option (String × String) :=
  match stripLit "#define __NR".data line.data with
  | none => none
  | some r1 =>
    let r2opt :=
      match stripLit "3264_".data r1 with
      | some r => some r
      | none => stripLit "_".data r1
    match r2opt with
    | none => none
    | some r2 =>
      let nm := r2.takeWhile isWordChar
      if nm.isEmpty then none
      else
        let r3 := r2.dropWhile isWordChar
        if (r3.takeWhile goRegexSpace).isEmpty then none
        else
          let digs := (r3.dropWhile goRegexSpace).takeWhile isDigitChar
          if digs.isEmpty then none
          else some (String.mk nm, String.mk digs)

/-- `strings.HasPrefix(line, "#")`: the line starts with a `#` byte,
written via the character list so that it reduces in the kernel. -/
def goStartsWithHash (s : String) : Bool := s.data.head? = some '#'

/-- `armNrBase`: base value for ARM private syscalls (`0x0f0000`). -/
def armNrBase : Int := 0x0f0000

/-- The line parser `buildARM` passes to `readSyscalls` for
`/arch/arm/tools/syscall.tbl`: skip empty and `#` lines, require at least
three whitespace-separated fields, skip OABI lines, parse field 0 as the
number and take field 2 as the name. -/
def parseARMTable (line : String) : Except GoErr (Option Syscall) :=
  if line.data.isEmpty || goStartsWithHash line then .ok none
  else
    match goFields line with
    | f0 :: f1 :: f2 :: _ =>
      if f1 = "oabi" then .ok none
      else
        match goAtoi f0 with
        | .error _ => .error (.atoiFailed line)
        | .ok n => .ok (some ⟨n, f2⟩)
    | _ => .error (.badLineFormat line)

/-- The line parser `buildARM` passes to `readSyscalls` for
`/arch/arm/include/uapi/asm/unistd.h`: match the private-syscall macro regex
and add `armNrBase` to the captured number (64-bit wrap-around as in Go). -/
def parseARMHeader (line : String) : Except GoErr (Option Syscall) :=
  match armHeaderMatch line with
  | none => .ok none
  | some (nm, digs) =>
    match goAtoi digs with
    | .error _ => .error (.atoiFailed line)
    | .ok n => .ok (some ⟨wrap64 (n + armNrBase), nm⟩)

/-- The line parser `buildAARCH64` passes to `readSyscalls` for
`/include/uapi/asm-generic/unistd.h`: match the `__NR`/`__NR3264` macro
regex, skipping the sentinel name `syscalls` and the omitted
`sync_file_range2` (whose number collides with `sync_file_range`). -/
def parseAARCH64 (line : String) : Except GoErr (Option Syscall) :=
  match nrHeaderMatch line with
  | none => .ok none
  | some (nm, digs) =>
    if nm = "syscalls" || nm = "sync_file_range2" then .ok none
    else
      match goAtoi digs with
      | .error _ => .error (.atoiFailed line)
      | .ok n => .ok (some ⟨n, nm⟩)

/-- The line parser `build386` passes to `readSyscalls` for
`/arch/x86/entry/syscalls/syscall_32.tbl`; no ABI exclusion. -/
def parse386 (line : String) : Except GoErr (Option Syscall) :=
  if line.data.isEmpty || goStartsWithHash line then .ok none
  else
    match goFields line with
    | f0 :: _ :: f2 :: _ =>
      match goAtoi f0 with
      | .error _ => .error (.atoiFailed line)
      | .ok n => .ok (some ⟨n, f2⟩)
    | _ => .error (.badLineFormat line)

/-- The line parser `buildX32` passes to `readSyscalls` for
`/arch/x86/entry/syscalls/syscall_64.tbl`: lines whose ABI field is `x64`
are skipped. -/
def parseX32 (line : String) : Except GoErr (Option Syscall) :=
  if line.data.isEmpty || goStartsWithHash line then .ok none
  else
    match goFields line with
    | f0 :: f1 :: f2 :: _ =>
      if f1 = "x64" then .ok none
      else
        match goAtoi f0 with
        | .error _ => .error (.atoiFailed line)
        | .ok n => .ok (some ⟨n, f2⟩)
    | _ => .error (.badLineFormat line)

/-- The line parser `buildX86_64` passes to `readSyscalls` for
`/arch/x86/entry/syscalls/syscall_64.tbl`: lines whose ABI field is `x32`
are skipped. -/
def parseX8664 (line : String) : Except GoErr (Option Syscall) :=
  if line.data.isEmpty || goStartsWithHash line then .ok none
  else
    match goFields line with
    | f0 :: f1 :: f2 :: _ =>
      if f1 = "x32" then .ok none
      else
        match goAtoi f0 with
        | .error _ => .error (.atoiFailed line)
        | .ok n => .ok (some ⟨n, f2⟩)
    | _ => .error (.badLineFormat line)

/-- The scanning loop of `readSyscalls`: trim each line, run the parser,
abort on the first error (returning no partial list, as the Go function
returns `nil, err`), and collect the non-nil syscalls in line order. -/
def readSyscallsLines (lines : List String)
    (parse : String → Except GoErr (Option Syscall)) :
    Except GoErr (List Syscall) :=
  match lines with
  | [] => .ok []
  | l :: ls =>
    match parse (goTrimSpace l) with
    | .error e => .error e
    | .ok r =>
      match readSyscallsLines ls parse with
      | .error e => .error e
      | .ok rest => .ok (match r with | none => rest | some s => s :: rest)

/-! ### sort.Slice

`sort.Slice(syscalls, func(i, j int) bool { return syscalls[i].Num < syscalls[j].Num })`
is the pdqsort of Go ≥ 1.19 (`sort/zsortfunc.go`), an unstable in-place sort.
It is transcribed below loop by loop, specialised to the one comparison
function the generator uses. Go `for` loops become structurally recursive
functions over an explicit fuel argument; every fuel value passed in is large
enough that the fuel never runs out (proved where the theorems need it), so
the fuel-exhausted branches are dead code. -/

/-- Read a slice element (`data[i]`); total via a default. -/
def lGet (l : List Syscall) (i : Nat) : Syscall := l.getD i default

/-- `data.Swap(i, j)`; total, the identity out of bounds (Go would panic,
which never happens in the calls modelled here). -/
def lSwap (l : List Syscall) (i j : Nat) : List Syscall :=
  if i < l.length ∧ j < l.length then (l.set i (lGet l j)).set j (lGet l i) else l

/-- `data.Less(i, j)`, i.e. `syscalls[i].Num < syscalls[j].Num`. -/
def numLess (l : List Syscall) (i j : Nat) : Bool :=
  decide ((lGet l i).num < (lGet l j).num)

/-- Inner loop of `insertionSort_func`:
`for j := i; j > a && data.Less(j, j-1); j-- { data.Swap(j, j-1) }`. -/
def insertInner : Nat → List Syscall → Nat → Nat → List Syscall
  | 0, l, _, _ => l
  | fuel+1, l, a, j =>
    if a < j && numLess l j (j-1) then insertInner fuel (lSwap l (j-1) j) a (j-1)
    else l

/-- Outer loop of `insertionSort_func`: `for i := a + 1; i < b; i++`. -/
def insertionSortLoop : Nat → List Syscall → Nat → Nat → List Syscall
  | 0, l, _, _ => l
  | fuel+1, l, a, i => insertionSortLoop fuel (insertInner (i - a) l a i) a (i+1)

/-- `insertionSort_func(data, a, b)`: insertion sort of `data[a:b]`. -/
def insertionSortGo (l : List Syscall) (a b : Nat) : List Syscall :=
  insertionSortLoop (b - (a+1)) l a (a+1)

/-- Loop of `siftDown_func(data, lo, hi, first)` with `root` as the moving
index; implements the max-heap sift-down on `data[first : first+hi]`. -/
def siftDownLoop : Nat → List Syscall → Nat → Nat → Nat → List Syscall
  | 0, l, _, _, _ => l
  | fuel+1, l, root, hi, first =>
    let child := 2*root + 1
    if hi ≤ child then l
    else
      let child :=
        if child + 1 < hi && numLess l (first+child) (first+child+1) then child + 1
        else child
      if !numLess l (first+root) (first+child) then l
      else siftDownLoop fuel (lSwap l (first+root) (first+child)) child hi first

/-- `siftDown_func(data, lo, hi, first)`. -/
def siftDownGo (l : List Syscall) (lo hi first : Nat) : List Syscall :=
  siftDownLoop hi l lo hi first

/-- Heap-construction loop of `heapSort_func`:
`for i := (hi - 1) / 2; i >= 0; i--`. -/
def heapBuildLoop : Nat → List Syscall → Nat → Nat → Nat → List Syscall
  | 0, l, _, _, _ => l
  | fuel+1, l, i, hi, first => heapBuildLoop fuel (siftDownGo l i hi first) (i-1) hi first

/-- Pop loop of `heapSort_func`: `for i := hi - 1; i >= 0; i--`. -/
def heapPopLoop : Nat → List Syscall → Nat → Nat → List Syscall
  | 0, l, _, _ => l
  | fuel+1, l, i, first =>
    heapPopLoop fuel (siftDownGo (lSwap l first (first+i)) 0 i first) (i-1) first

/-- `heapSort_func(data, a, b)` (`first = a`, `lo = 0`, `hi = b - a`). -/
def heapSortGo (l : List Syscall) (a b : Nat) : List Syscall :=
  let hi := b - a
  heapPopLoop hi (heapBuildLoop ((hi-1)/2 + 1) l ((hi-1)/2) hi a) (hi-1) a

/-- `reverseRange_func(data, a, b)`: reverse `data[a:b]`. -/
def reverseRangeLoop : Nat → List Syscall → Nat → Nat → List Syscall
  | 0, l, _, _ => l
  | fuel+1, l, i, j => if i < j then reverseRangeLoop fuel (lSwap l i j) (i+1) (j-1) else l

/-- `reverseRange_func(data, a, b)`. -/
def reverseRangeGo (l : List Syscall) (a b : Nat) : List Syscall :=
  reverseRangeLoop (b - a) l a (b-1)

/-- `xorshift.Next`: the xorshift64 step on a `uint64` state, returning the
new state (which is also the returned pseudo-random value). -/
def xorshiftNext (r : Nat) : Nat :=
  let r1 := r ^^^ ((r <<< 13) % 2 ^ 64)
  let r2 := r1 ^^^ (r1 >>> 7)
  r2 ^^^ ((r2 <<< 17) % 2 ^ 64)

/-- `bits.Len(uint(n))`: number of bits needed to represent `n`. -/
def bitsLen (n : Nat) : Nat := if n = 0 then 0 else n.log2 + 1

/-- `breakPatterns_func(data, a, b)`: swap three middle elements to random
positions (xorshift seeded with the segment length, as in Go). -/
def breakPatternsGo (l : List Syscall) (a b : Nat) : List Syscall :=
  let length := b - a
  if length ≥ 8 then
    let modulus := 1 <<< bitsLen length
    let idx := a + (length / 4) * 2 - 1
    let step := fun (st : List Syscall × Nat) (i : Nat) =>
      let r := xorshiftNext st.2
      let other := r % modulus
      let other := if other ≥ length then other - length else other
      (lSwap st.1 (idx - 1 + i) (a + other), r)
    (([0, 1, 2] : List Nat).foldl step (l, length)).1
  else l

/-- `order2_func`: order two indices by their elements, counting swaps. -/
def order2Go (l : List Syscall) (a b swaps : Nat) : Nat × Nat × Nat :=
  if numLess l b a then (b, a, swaps + 1) else (a, b, swaps)

/-- `median_func`: index of the median of three elements, counting swaps. -/
def medianGo (l : List Syscall) (a b c swaps : Nat) : Nat × Nat :=
  let o1 := order2Go l a b swaps
  let o2 := order2Go l o1.2.1 c o1.2.2
  let o3 := order2Go l o1.1 o2.1 o2.2.2
  (o3.2.1, o3.2.2)

/-- `medianAdjacent_func`: median of `i-1, i, i+1`. -/
def medianAdjacentGo (l : List Syscall) (i swaps : Nat) : Nat × Nat :=
  medianGo l (i-1) i (i+1) swaps

/-- The `sortedHint` values of `sort/zsortfunc.go`. -/
inductive SortHint where
  | unknownHint
  | increasingHint
  | decreasingHint
deriving Repr, DecidableEq

/-- `choosePivot_func(data, a, b)`: median (of medians for long segments) of
fixed probe positions, plus a sortedness hint from the swap count. -/
def choosePivotGo (l : List Syscall) (a b : Nat) : Nat × SortHint :=
  let length := b - a
  let i := a + (length / 4) * 1
  let j := a + (length / 4) * 2
  let k := a + (length / 4) * 3
  if length ≥ 8 then
    let probes :=
      if length ≥ 50 then
        let m1 := medianAdjacentGo l i 0
        let m2 := medianAdjacentGo l j m1.2
        let m3 := medianAdjacentGo l k m2.2
        (m1.1, m2.1, m3.1, m3.2)
      else (i, j, k, 0)
    let m := medianGo l probes.1 probes.2.1 probes.2.2.1 probes.2.2.2
    (m.1,
      if m.2 = 0 then SortHint.increasingHint
      else if m.2 = 12 then SortHint.decreasingHint
      else SortHint.unknownHint)
  else (j, SortHint.increasingHint)

/-- First skip loop of `partition_func`:
`for i <= j && data.Less(i, a) { i++ }`; returns the final `i`. -/
def partAdvI : Nat → List Syscall → Nat → Nat → Nat → Nat
  | 0, _, _, i, _ => i
  | fuel+1, l, a, i, j => if i ≤ j && numLess l i a then partAdvI fuel l a (i+1) j else i

/-- Second skip loop of `partition_func`:
`for i <= j && !data.Less(j, a) { j-- }`; returns the final `j`. -/
def partRetJ : Nat → List Syscall → Nat → Nat → Nat → Nat
  | 0, _, _, _, j => j
  | fuel+1, l, a, i, j => if i ≤ j && !numLess l j a then partRetJ fuel l a i (j-1) else j

/-- Main loop of `partition_func`; returns the data and final `i`, `j`. -/
def partLoop : Nat → List Syscall → Nat → Nat → Nat → List Syscall × Nat × Nat
  | 0, l, _, i, j => (l, i, j)
  | fuel+1, l, a, i, j =>
    let i1 := partAdvI (j + 1 - i) l a i j
    let j1 := partRetJ (j + 1 - i1) l a i1 j
    if j1 < i1 then (l, i1, j1)
    else partLoop fuel (lSwap l i1 j1) a (i1+1) (j1-1)

/-- `partition_func(data, a, b, pivot)`: Hoare-style partition around the
pivot element, which ends at the returned index; also returns the
`alreadyPartitioned` flag. -/
def partitionGo (l : List Syscall) (a b pivot : Nat) : List Syscall × Nat × Bool :=
  let l0 := lSwap l a pivot
  let i0 := a + 1
  let j0 := b - 1
  let i1 := partAdvI (j0 + 1 - i0) l0 a i0 j0
  let j1 := partRetJ (j0 + 1 - i1) l0 a i1 j0
  if j1 < i1 then (lSwap l0 j1 a, j1, true)
  else
    let l1 := lSwap l0 i1 j1
    let res := partLoop (b - a + 1) l1 a (i1+1) (j1-1)
    (lSwap res.1 res.2.2 a, res.2.2, false)

/-- First skip loop of `partitionEqual_func`:
`for i <= j && !data.Less(a, i) { i++ }`. -/
def peqAdvI : Nat → List Syscall → Nat → Nat → Nat → Nat
  | 0, _, _, i, _ => i
  | fuel+1, l, a, i, j => if i ≤ j && !numLess l a i then peqAdvI fuel l a (i+1) j else i

/-- Second skip loop of `partitionEqual_func`:
`for i <= j && data.Less(a, j) { j-- }`. -/
def peqRetJ : Nat → List Syscall → Nat → Nat → Nat → Nat
  | 0, _, _, _, j => j
  | fuel+1, l, a, i, j => if i ≤ j && numLess l a j then peqRetJ fuel l a i (j-1) else j

/-- Main loop of `partitionEqual_func`; returns the data and final `i`. -/
def peqLoop : Nat → List Syscall → Nat → Nat → Nat → List Syscall × Nat
  | 0, l, _, i, _ => (l, i)
  | fuel+1, l, a, i, j =>
    let i1 := peqAdvI (j + 1 - i) l a i j
    let j1 := peqRetJ (j + 1 - i1) l a i1 j
    if j1 < i1 then (l, i1)
    else peqLoop fuel (lSwap l i1 j1) a (i1+1) (j1-1)

/-- `partitionEqual_func(data, a, b, pivot)`: move elements equal to the
pivot to the front of the segment, returning the first index after them. -/
def partitionEqualGo (l : List Syscall) (a b pivot : Nat) : List Syscall × Nat :=
  peqLoop (b - a + 1) (lSwap l a pivot) a (a+1) (b-1)

/-- Scan loop of `partialInsertionSort_func`:
`for i < b && !data.Less(i, i-1) { i++ }`; the fuel is exactly `b - i`, so
running out of fuel is exactly the `i = b` exit. -/
def pisScan : Nat → List Syscall → Nat → Nat
  | 0, _, i => i
  | fuel+1, l, i => if numLess l i (i-1) then i else pisScan fuel l (i+1)

/-- Left-shift loop of `partialInsertionSort_func`:
`for j := i - 1; j >= 1; j-- { if !data.Less(j, j-1) { break }; swap }`. -/
def pisShiftL : Nat → List Syscall → Nat → List Syscall
  | 0, l, _ => l
  | fuel+1, l, j =>
    if j = 0 then l
    else if !numLess l j (j-1) then l
    else pisShiftL fuel (lSwap l (j-1) j) (j-1)

/-- Right-shift loop of `partialInsertionSort_func`:
`for j := i + 1; j < b; j++ { if !data.Less(j, j-1) { break }; swap }`;
the fuel is exactly `b - (i+1)`. -/
def pisShiftR : Nat → List Syscall → Nat → List Syscall
  | 0, l, _ => l
  | fuel+1, l, j =>
    if !numLess l j (j-1) then l
    else pisShiftR fuel (lSwap l (j-1) j) (j+1)

/-- Step loop of `partialInsertionSort_func` (`maxSteps = 5` iterations of
the outer `for j := 0; j < maxSteps; j++`). -/
def pisOuter : Nat → List Syscall → Nat → Nat → Nat → List Syscall × Bool
  | 0, l, _, _, _ => (l, false)
  | steps+1, l, a, b, i =>
    let i1 := pisScan (b - i) l i
    if i1 = b then (l, true)
    else if b - a < 50 then (l, false)
    else
      let l1 := lSwap l (i1-1) i1
      let l2 := if i1 - a ≥ 2 then pisShiftL i1 l1 (i1-1) else l1
      let l3 := if b - i1 ≥ 2 then pisShiftR (b - (i1+1)) l2 (i1+1) else l2
      pisOuter steps l3 a b i1

/-- `partialInsertionSort_func(data, a, b)`: partially sort an almost-sorted
segment, reporting whether it is now fully sorted. -/
def partialInsertionSortGo (l : List Syscall) (a b : Nat) : List Syscall × Bool :=
  pisOuter 5 l a b (a+1)

/-- `pdqsort_func(data, a, b, limit)`. The Go body is an iterative loop over
`a`, `b`, `limit`, `wasBalanced`, `wasPartitioned` with one recursive call
per partition; both the loop continuation and the recursive call appear here
as recursive calls on the fuel, which strictly exceeds `b - a` at every
invocation reached from `sortSliceGo`. -/
def pdqsortLoop : Nat → List Syscall → Nat → Nat → Nat → Bool → Bool → List Syscall
  | 0, l, _, _, _, _, _ => l
  | fuel+1, l, a, b, limit, wasBalanced, wasPartitioned =>
    let length := b - a
    if length ≤ 12 then insertionSortGo l a b
    else if limit = 0 then heapSortGo l a b
    else
      let l1 := if wasBalanced then l else breakPatternsGo l a b
      let limit1 := if wasBalanced then limit else limit - 1
      let pv := choosePivotGo l1 a b
      let l2 := if pv.2 = SortHint.decreasingHint then reverseRangeGo l1 a b else l1
      let pivot := if pv.2 = SortHint.decreasingHint then (b - 1) - (pv.1 - a) else pv.1
      let hint := if pv.2 = SortHint.decreasingHint then SortHint.increasingHint else pv.2
      let pis :=
        if wasBalanced && wasPartitioned && decide (hint = SortHint.increasingHint) then
          partialInsertionSortGo l2 a b
        else (l2, false)
      if pis.2 then pis.1
      else
        let l3 := pis.1
        if 0 < a && !numLess l3 (a-1) pivot then
          let pe := partitionEqualGo l3 a b pivot
          pdqsortLoop fuel pe.1 pe.2 b limit1 wasBalanced wasPartitioned
        else
          let pr := partitionGo l3 a b pivot
          let mid := pr.2.1
          let wasBalanced2 := decide (min (mid - a) (b - mid) ≥ length / 8)
          if mid - a < b - mid then
            pdqsortLoop fuel (pdqsortLoop fuel pr.1 a mid limit1 true true)
              (mid+1) b limit1 wasBalanced2 pr.2.2
          else
            pdqsortLoop fuel (pdqsortLoop fuel pr.1 (mid+1) b limit1 true true)
              a mid limit1 wasBalanced2 pr.2.2

/-- `sort.Slice(syscalls, ...Num < ...Num)`: `pdqsort(data, 0, n, bits.Len(n))`. -/
def sortSliceGo (l : List Syscall) : List Syscall :=
  pdqsortLoop (l.length + 1) l 0 l.length (bitsLen l.length) true true

/-! ### Sortedness of the sort: segment infrastructure

`StepOK a b l l2` says `l2` is a permutation of `l` that agrees with `l`
outside `[a, b)` — the footprint property every stage of pdqsort on the
segment `[a, b)` enjoys. `seg l a b` is the segment itself; `SortedSeg` is
ascending order by syscall number on a position range. -/

def SortedSeg (l : List Syscall) (a b : Nat) : Prop :=
  ∀ i j, a ≤ i → i ≤ j → j < b → (lGet l i).num ≤ (lGet l j).num

def seg (l : List Syscall) (a b : Nat) : List Syscall := (l.drop a).take (b - a)

def StepOK (a b : Nat) (l l2 : List Syscall) : Prop :=
  l2 ~ l ∧ ∀ k, k < a ∨ b ≤ k → lGet l2 k = lGet l k

/-- The left-context invariant carried through pdqsort: when the segment
has an element to its left, that element is a lower bound for the segment
(by construction it is an earlier pivot). -/
def HLow (l : List Syscall) (a b : Nat) : Prop :=
  0 < a → ∀ x ∈ seg l a b, (lGet l (a-1)).num ≤ x.num

/-- Heap-coordinate descendant test: `k` lies in the subtree rooted at
`root` of the implicit binary heap (parent of `k` is `(k-1)/2`). Only used
in specifications. -/
def isDesc (root k : Nat) : Bool :=
  if h : k ≤ root then k = root
  else isDesc root ((k-1)/2)
termination_by k
decreasing_by omega

/-- Max-heap property at node `k` of the heap laid out on positions
`first + 0, ..., first + hi - 1`. -/
def HeapAt (l : List Syscall) (first hi k : Nat) : Prop :=
  ∀ c, (c = 2*k+1 ∨ c = 2*k+2) → c < hi →
    (lGet l (first + c)).num ≤ (lGet l (first + k)).num

/-- Go struct `Arch`: all the syscalls for a single architecture. -/
structure Arch where
  name : String
  syscalls : List Syscall
deriving Repr, DecidableEq, Inhabited

/-- `buildARM` after its two `readSyscalls` calls, as a function of the two
fetched files' lines: parse the syscall table and the private-syscall
header, append the two lists, and `sort.Slice` the result. -/
def buildARMPure (tbl hdr : List String) : Except GoErr Arch :=
  match readSyscallsLines tbl parseARMTable with
  | .error e => .error e
  | .ok sA =>
    match readSyscallsLines hdr parseARMHeader with
    | .error e => .error e
    | .ok sB => .ok ⟨"ARM", sortSliceGo (sA ++ sB)⟩

/-- `buildAARCH64` as a function of the fetched header file's lines. -/
def buildAARCH64Pure (hdr : List String) : Except GoErr Arch :=
  match readSyscallsLines hdr parseAARCH64 with
  | .error e => .error e
  | .ok s => .ok ⟨"AARCH64", sortSliceGo s⟩

/-- `build386` as a function of the fetched table file's lines. -/
def build386Pure (tbl : List String) : Except GoErr Arch :=
  match readSyscallsLines tbl parse386 with
  | .error e => .error e
  | .ok s => .ok ⟨"386", sortSliceGo s⟩

/-- `buildX32` as a function of the fetched table file's lines. -/
def buildX32Pure (tbl : List String) : Except GoErr Arch :=
  match readSyscallsLines tbl parseX32 with
  | .error e => .error e
  | .ok s => .ok ⟨"X32", sortSliceGo s⟩

/-- `buildX86_64` as a function of the fetched table file's lines. -/
def buildX8664Pure (tbl : List String) : Except GoErr Arch :=
  match readSyscallsLines tbl parseX8664 with
  | .error e => .error e
  | .ok s => .ok ⟨"X86_64", sortSliceGo s⟩

/-! ### Rendering, HTTP and the run model

`fileTemplate` is a fixed `text/template`; with its whitespace-trim markers
(`{{-`) applied, it renders a fixed header followed by, for each
architecture, one `var syscalls<Name> = map[int]string` literal with one
`<num>: "<name>",` entry per syscall, and a trailing blank line. -/

/-- One syscall entry of the template body :
newline, tab, `{{ $s.Num }}: "{{ $s.Name }}",`. -/
def renderSyscall (s : Syscall) : String :=
  "\n\t" ++ toString s.num ++ ": \"" ++ s.name ++ "\","

/-- One `{{ range $arch := .Arches }}` block of the template. -/
def renderArch (a : Arch) : String :=
  "\nvar syscalls" ++ a.name ++ " = map[int]string\x7b"
    ++ String.join (a.syscalls.map renderSyscall) ++ "\n\x7d\n"

/-- The fixed text of `fileTemplate` before the `Based on Linux` line: the
license comment block (its exact bytes are fixed text that plays no role in
any claim and is abbreviated to a placeholder line here), the generated-code
marker and the package clause. -/
def fileHeader : String :=
  "// [fixed license comment block]\n\n// Code generated by mk_syscalls_linux.go - DO NOT EDIT.\n\npackage arch\n\n"

/-- The full rendering of `fileTemplate` on `TemplateParams{version, arches}`. -/
def renderFile (version : String) (arches : List Arch) : String :=
  fileHeader ++ "// Based on Linux " ++ version ++ ".\n"
    ++ String.join (arches.map renderArch) ++ "\n"

/-- Outcome of one `http.Get`: a transport error, or a status code plus the
response body (modelled as its scanned lines). -/
inductive HttpResp where
  | failed
  | resp (status : Int) (body : List String)

/-- Network errors of `downloadFile` (`http get failed`, bad status). -/
def isNetworkErr : GoErr → Bool
  | .httpGetFailed => true
  | .httpStatus _ => true
  | _ => false

/-- Scratch-file I/O errors of `downloadFile` (create / write failures). -/
def isIOErr : GoErr → Bool
  | .createFailed => true
  | .writeFailed => true
  | _ => false

/-- `downloadFile(url, destinationDir)` as a function of the GET outcome `r`
and of whether creating/writing the scratch file succeeds: error unless the
GET returned with status exactly `http.StatusOK` (200) and the local file
could be created and written; on success, the scratch path
(`filepath.Join(destinationDir, filepath.Base(url))`, written here for the
clean inputs the generator uses). -/
def downloadFileM (r : HttpResp) (createOk writeOk : Bool) (destDir base : String) :
    Except GoErr String :=
  match r with
  | .failed => .error .httpGetFailed
  | .resp st _ =>
    if st ≠ 200 then .error (.httpStatus st)
    else if !createOk then .error .createFailed
    else if !writeOk then .error .writeFailed
    else .ok (destDir ++ "/" ++ base)

/-- `baseURL` constant of the generator. -/
def goBaseURL : String := "https://raw.githubusercontent.com/torvalds/linux/"

/-- `readSyscalls(path, dir, parse)` end to end: download
`baseURL + version + path` into the scratch dir, reopen it and scan it.
The file just written is immediately reopened, so the scan sees exactly the
downloaded body whatever the scratch directory is (for the same reason the
`filepath.Base` collision between the two `unistd.h` downloads is
harmless: each is consumed before the other is written). -/
def readSyscallsFetch (fs : String → HttpResp) (cOk wOk : Bool)
    (version dir path : String) (parse : String → Except GoErr (Option Syscall)) :
    Except GoErr (List Syscall) :=
  match fs (goBaseURL ++ version ++ path) with
  | .failed => .error .httpGetFailed
  | .resp st body =>
    if st ≠ 200 then .error (.httpStatus st)
    else if !cOk then .error .createFailed
    else if !wOk then .error .writeFailed
    else readSyscallsLines body parse

/-- `buildARM(dir)`: fetch and parse the syscall table, then the
private-syscall header, append and sort. -/
def buildARMRun (fs : String → HttpResp) (cOk wOk : Bool) (version dir : String) :
    Except GoErr Arch :=
  match readSyscallsFetch fs cOk wOk version dir "/arch/arm/tools/syscall.tbl" parseARMTable with
  | .error e => .error e
  | .ok sA =>
    match readSyscallsFetch fs cOk wOk version dir "/arch/arm/include/uapi/asm/unistd.h" parseARMHeader with
    | .error e => .error e
    | .ok sB => .ok ⟨"ARM", sortSliceGo (sA ++ sB)⟩

/-- `buildAARCH64(dir)`. -/
def buildAARCH64Run (fs : String → HttpResp) (cOk wOk : Bool) (version dir : String) :
    Except GoErr Arch :=
  match readSyscallsFetch fs cOk wOk version dir "/include/uapi/asm-generic/unistd.h" parseAARCH64 with
  | .error e => .error e
  | .ok s => .ok ⟨"AARCH64", sortSliceGo s⟩

/-- `build386(dir)`. -/
def build386Run (fs : String → HttpResp) (cOk wOk : Bool) (version dir : String) :
    Except GoErr Arch :=
  match readSyscallsFetch fs cOk wOk version dir "/arch/x86/entry/syscalls/syscall_32.tbl" parse386 with
  | .error e => .error e
  | .ok s => .ok ⟨"386", sortSliceGo s⟩

/-- `buildX32(dir)`. -/
def buildX32Run (fs : String → HttpResp) (cOk wOk : Bool) (version dir : String) :
    Except GoErr Arch :=
  match readSyscallsFetch fs cOk wOk version dir "/arch/x86/entry/syscalls/syscall_64.tbl" parseX32 with
  | .error e => .error e
  | .ok s => .ok ⟨"X32", sortSliceGo s⟩

/-- `buildX86_64(dir)`. -/
def buildX8664Run (fs : String → HttpResp) (cOk wOk : Bool) (version dir : String) :
    Except GoErr Arch :=
  match readSyscallsFetch fs cOk wOk version dir "/arch/x86/entry/syscalls/syscall_64.tbl" parseX8664 with
  | .error e => .error e
  | .ok s => .ok ⟨"X86_64", sortSliceGo s⟩

/-- The builder loop of `main`: run the five builders in declaration order,
stopping at the first error (`log.Fatal`). -/
def buildAllRun (fs : String → HttpResp) (cOk wOk : Bool) (version dir : String) :
    Except GoErr (List Arch) :=
  match buildARMRun fs cOk wOk version dir with
  | .error e => .error e
  | .ok a1 =>
    match buildAARCH64Run fs cOk wOk version dir with
    | .error e => .error e
    | .ok a2 =>
      match build386Run fs cOk wOk version dir with
      | .error e => .error e
      | .ok a3 =>
        match buildX32Run fs cOk wOk version dir with
        | .error e => .error e
        | .ok a4 =>
          match buildX8664Run fs cOk wOk version dir with
          | .error e => .error e
          | .ok a5 => .ok [a1, a2, a3, a4, a5]

/-- Observable outcome of one `main` run: the rendered bytes written to the
output file (`none` when the run aborts before a complete write), whether
the scratch directory was removed, and the process exit code. -/
structure RunResult where
  output : Option String
  tmpRemoved : Bool
  exitCode : Nat
deriving Repr, DecidableEq

/-- `main` end to end. `log.Fatal` calls `os.Exit(1)`, which terminates the
process WITHOUT running deferred functions, so on every `log.Fatal` path the
deferred `os.RemoveAll(tmp)` is skipped (`tmpRemoved = false`); only a
normal return runs the defer. Inputs: the network (`fs`), scratch-file
create/write outcomes (`cOk`, `wOk`), the `-version` flag, whether
`ioutil.TempDir` succeeds, whether creating/writing the output file
succeeds, and the scratch directory name chosen by `TempDir`. -/
def runMain (fs : String → HttpResp) (cOk wOk : Bool) (version : String)
    (tmpOk outCreateOk outWriteOk : Bool) (tmpdir : String) : RunResult :=
  if !tmpOk then ⟨none, true, 1⟩
  else
    match buildAllRun fs cOk wOk version tmpdir with
    | .error _ => ⟨none, false, 1⟩
    | .ok arches =>
      if !outCreateOk then ⟨none, false, 1⟩
      else if !outWriteOk then ⟨none, false, 1⟩
      else ⟨some (renderFile version arches), true, 0⟩

/-- The network map for the failing run of C9: the ARM syscall table
contains one malformed line, every other fetch succeeds with empty files. -/
def c9BadFs : String → HttpResp := fun url =>
  if url = goBaseURL ++ "v6.13" ++ "/arch/arm/tools/syscall.tbl" then .resp 200 ["zz"]
  else .resp 200 []

/-- The network map for the succeeding run of C9: every file is empty. -/
def c9GoodFs : String → HttpResp := fun _ => .resp 200 []

/-- The 13-line syscall table used to refute the stability half of C3. -/
def c3Lines : List String :=
  ["7 common a sys_a", "7 common b sys_b", "9 common c sys_c", "28 common d sys_d",
   "18 common e sys_e", "8 common f sys_f", "27 common g sys_g", "17 common h sys_h",
   "7 common i sys_i", "26 common j sys_j", "16 common k sys_k", "6 common l sys_l",
   "25 common m sys_m"]

/-! ### Permutation facts about the sort

Every mutation in `sort/zsortfunc.go` is a `Swap`, so every stage of the
sort permutes the slice. These lemmas propagate `List.Perm` through each
transcribed loop. -/

theorem lGet_eq_getElem (l : List Syscall) (i : Nat) (h : i < l.length) :
    lGet l i = l[i] := by
  simp [lGet, List.getD_eq_getElem?_getD, List.getElem?_eq_getElem h]

theorem set_lGet_self (l : List Syscall) (i : Nat) :
    l.set i (lGet l i) = l := by
  apply List.ext_getElem?
  intro n
  rw [List.getElem?_set]
  split
  · rename_i hin
    subst hin
    split
    · rename_i hlt
      rw [lGet_eq_getElem l i hlt, List.getElem?_eq_getElem hlt]
    · rename_i hge
      rw [List.getElem?_eq_none (Nat.le_of_not_lt hge)]
  · rfl

theorem getD_cons_set_perm :
    ∀ (t : List Syscall) (k : Nat) (x : Syscall), k < t.length →
      (t.getD k default :: t.set k x) ~ (x :: t) := by
  intro t
  induction t with
  | nil => intro k x h; simp at h
  | cons y t ih =>
    intro k x h
    cases k with
    | zero => simpa using List.Perm.swap x y t
    | succ k =>
      have hk : k < t.length := Nat.lt_of_succ_lt_succ h
      simp only [List.getD_cons_succ, List.set_cons_succ]
      calc (t.getD k default :: y :: t.set k x)
          ~ (y :: t.getD k default :: t.set k x) := List.Perm.swap y (t.getD k default) _
        _ ~ (y :: x :: t) := List.Perm.cons y (ih k x hk)
        _ ~ (x :: y :: t) := List.Perm.swap x y t

theorem set_set_swap_perm :
    ∀ (l : List Syscall) (i j : Nat), i < j → j < l.length →
      ((l.set i (lGet l j)).set j (lGet l i)) ~ l := by
  intro l
  induction l with
  | nil => intro i j hij hj; simp at hj
  | cons y t ih =>
    intro i j hij hj
    cases j with
    | zero => exact absurd hij (Nat.not_lt_zero i)
    | succ k =>
      have hk : k < t.length := Nat.lt_of_succ_lt_succ hj
      cases i with
      | zero =>
        simp only [lGet, List.getD_cons_succ, List.getD_cons_zero, List.set_cons_zero,
          List.set_cons_succ]
        exact getD_cons_set_perm t k y hk
      | succ m =>
        have hm : m < k := Nat.lt_of_succ_lt_succ hij
        simp only [lGet, List.getD_cons_succ, List.set_cons_succ]
        exact List.Perm.cons y (ih m k hm hk)

theorem lSwap_perm (l : List Syscall) (i j : Nat) : lSwap l i j ~ l := by
  unfold lSwap
  split
  · rename_i h
    rcases Nat.lt_trichotomy i j with hij | hij | hij
    · exact set_set_swap_perm l i j hij h.2
    · subst hij
      rw [List.set_set, set_lGet_self]
    · rw [List.set_comm _ _ _ (Nat.ne_of_gt hij)]
      exact set_set_swap_perm l j i hij h.1
  · exact List.Perm.refl l

theorem lSwap_length (l : List Syscall) (i j : Nat) :
    (lSwap l i j).length = l.length :=
  (lSwap_perm l i j).length_eq

theorem insertInner_perm (fuel : Nat) :
    ∀ (l : List Syscall) (a j : Nat), insertInner fuel l a j ~ l := by
  induction fuel with
  | zero => intro l a j; exact List.Perm.refl l
  | succ fuel ih =>
    intro l a j
    unfold insertInner
    split
    · exact (ih _ a (j-1)).trans (lSwap_perm l (j-1) j)
    · exact List.Perm.refl l

theorem insertionSortLoop_perm (fuel : Nat) :
    ∀ (l : List Syscall) (a i : Nat), insertionSortLoop fuel l a i ~ l := by
  induction fuel with
  | zero => intro l a i; exact List.Perm.refl l
  | succ fuel ih =>
    intro l a i
    exact (ih _ a (i+1)).trans (insertInner_perm (i - a) l a i)

theorem insertionSortGo_perm (l : List Syscall) (a b : Nat) :
    insertionSortGo l a b ~ l :=
  insertionSortLoop_perm (b - (a+1)) l a (a+1)

theorem siftDownLoop_perm (fuel : Nat) :
    ∀ (l : List Syscall) (root hi first : Nat), siftDownLoop fuel l root hi first ~ l := by
  induction fuel with
  | zero => intro l _ _ _; exact List.Perm.refl l
  | succ fuel ih =>
    intro l root hi first
    unfold siftDownLoop
    dsimp only
    split
    · exact List.Perm.refl l
    · split
      · split
        · exact List.Perm.refl l
        · exact (ih _ _ hi first).trans (lSwap_perm l _ _)
      · split
        · exact List.Perm.refl l
        · exact (ih _ _ hi first).trans (lSwap_perm l _ _)

theorem siftDownGo_perm (l : List Syscall) (lo hi first : Nat) :
    siftDownGo l lo hi first ~ l :=
  siftDownLoop_perm hi l lo hi first

theorem heapBuildLoop_perm (fuel : Nat) :
    ∀ (l : List Syscall) (i hi first : Nat), heapBuildLoop fuel l i hi first ~ l := by
  induction fuel with
  | zero => intro l _ _ _; exact List.Perm.refl l
  | succ fuel ih =>
    intro l i hi first
    exact (ih _ (i-1) hi first).trans (siftDownGo_perm l i hi first)

theorem heapPopLoop_perm (fuel : Nat) :
    ∀ (l : List Syscall) (i first : Nat), heapPopLoop fuel l i first ~ l := by
  induction fuel with
  | zero => intro l _ _; exact List.Perm.refl l
  | succ fuel ih =>
    intro l i first
    exact (ih _ (i-1) first).trans
      ((siftDownGo_perm _ 0 i first).trans (lSwap_perm l first (first+i)))

theorem heapSortGo_perm (l : List Syscall) (a b : Nat) : heapSortGo l a b ~ l := by
  unfold heapSortGo
  exact (heapPopLoop_perm _ _ _ a).trans (heapBuildLoop_perm _ l _ _ a)

theorem reverseRangeLoop_perm (fuel : Nat) :
    ∀ (l : List Syscall) (i j : Nat), reverseRangeLoop fuel l i j ~ l := by
  induction fuel with
  | zero => intro l _ _; exact List.Perm.refl l
  | succ fuel ih =>
    intro l i j
    unfold reverseRangeLoop
    split
    · exact (ih _ (i+1) (j-1)).trans (lSwap_perm l i j)
    · exact List.Perm.refl l

theorem reverseRangeGo_perm (l : List Syscall) (a b : Nat) : reverseRangeGo l a b ~ l :=
  reverseRangeLoop_perm (b - a) l a (b-1)

theorem breakPatternsGo_perm (l : List Syscall) (a b : Nat) : breakPatternsGo l a b ~ l := by
  unfold breakPatternsGo
  dsimp only
  split
  · simp only [List.foldl_cons, List.foldl_nil]
    exact ((lSwap_perm _ _ _).trans ((lSwap_perm _ _ _).trans (lSwap_perm _ _ _)))
  · exact List.Perm.refl l

theorem partLoop_perm (fuel : Nat) :
    ∀ (l : List Syscall) (a i j : Nat), (partLoop fuel l a i j).1 ~ l := by
  induction fuel with
  | zero => intro l _ _ _; exact List.Perm.refl l
  | succ fuel ih =>
    intro l a i j
    unfold partLoop
    dsimp only
    split
    · exact List.Perm.refl l
    · exact (ih _ a _ _).trans (lSwap_perm l _ _)

theorem partitionGo_perm (l : List Syscall) (a b pivot : Nat) :
    (partitionGo l a b pivot).1 ~ l := by
  unfold partitionGo
  dsimp only
  split
  · exact (lSwap_perm _ _ a).trans (lSwap_perm l a pivot)
  · exact (lSwap_perm _ _ a).trans ((partLoop_perm _ _ a _ _).trans
      ((lSwap_perm _ _ _).trans (lSwap_perm l a pivot)))

theorem peqLoop_perm (fuel : Nat) :
    ∀ (l : List Syscall) (a i j : Nat), (peqLoop fuel l a i j).1 ~ l := by
  induction fuel with
  | zero => intro l _ _ _; exact List.Perm.refl l
  | succ fuel ih =>
    intro l a i j
    unfold peqLoop
    dsimp only
    split
    · exact List.Perm.refl l
    · exact (ih _ a _ _).trans (lSwap_perm l _ _)

theorem partitionEqualGo_perm (l : List Syscall) (a b pivot : Nat) :
    (partitionEqualGo l a b pivot).1 ~ l :=
  (peqLoop_perm _ _ a _ _).trans (lSwap_perm l a pivot)

theorem pisShiftL_perm (fuel : Nat) :
    ∀ (l : List Syscall) (j : Nat), pisShiftL fuel l j ~ l := by
  induction fuel with
  | zero => intro l _; exact List.Perm.refl l
  | succ fuel ih =>
    intro l j
    unfold pisShiftL
    split
    · exact List.Perm.refl l
    · split
      · exact List.Perm.refl l
      · exact (ih _ (j-1)).trans (lSwap_perm l (j-1) j)

theorem pisShiftR_perm (fuel : Nat) :
    ∀ (l : List Syscall) (j : Nat), pisShiftR fuel l j ~ l := by
  induction fuel with
  | zero => intro l _; exact List.Perm.refl l
  | succ fuel ih =>
    intro l j
    unfold pisShiftR
    split
    · exact List.Perm.refl l
    · exact (ih _ (j+1)).trans (lSwap_perm l (j-1) j)

theorem pisOuter_perm (steps : Nat) :
    ∀ (l : List Syscall) (a b i : Nat), (pisOuter steps l a b i).1 ~ l := by
  induction steps with
  | zero => intro l _ _ _; exact List.Perm.refl l
  | succ steps ih =>
    intro l a b i
    unfold pisOuter
    dsimp only
    split
    · exact List.Perm.refl l
    · split
      · exact List.Perm.refl l
      · generalize pisScan (b - i) l i = i1
        have hsw : lSwap l (i1 - 1) i1 ~ l := lSwap_perm _ _ _
        generalize hq : lSwap l (i1 - 1) i1 = q at hsw ⊢
        have h2 : (if i1 - a ≥ 2 then pisShiftL i1 q (i1 - 1) else q) ~ l := by
          split
          · exact (pisShiftL_perm _ _ _).trans hsw
          · exact hsw
        generalize hq2 : (if i1 - a ≥ 2 then pisShiftL i1 q (i1 - 1) else q) = q2 at h2 ⊢
        have h3 : (if b - i1 ≥ 2 then pisShiftR (b - (i1 + 1)) q2 (i1 + 1) else q2) ~ l := by
          split
          · exact (pisShiftR_perm _ _ _).trans h2
          · exact h2
        generalize hq3 :
          (if b - i1 ≥ 2 then pisShiftR (b - (i1 + 1)) q2 (i1 + 1) else q2) = q3 at h3 ⊢
        exact (ih q3 a b i1).trans h3

theorem partialInsertionSortGo_perm (l : List Syscall) (a b : Nat) :
    (partialInsertionSortGo l a b).1 ~ l :=
  pisOuter_perm 5 l a b (a+1)

set_option maxHeartbeats 1600000 in
theorem pdqsortLoop_perm (fuel : Nat) :
    ∀ (l : List Syscall) (a b limit : Nat) (wasBalanced wasPartitioned : Bool),
      pdqsortLoop fuel l a b limit wasBalanced wasPartitioned ~ l := by
  induction fuel with
  | zero => intro l _ _ _ _ _; exact List.Perm.refl l
  | succ fuel ih =>
    intro l a b limit wasBalanced wasPartitioned
    unfold pdqsortLoop
    dsimp only
    split
    · exact insertionSortGo_perm l a b
    · split
      · exact heapSortGo_perm l a b
      · have h1 : (if wasBalanced = true then l else breakPatternsGo l a b) ~ l := by
          split
          · exact List.Perm.refl l
          · exact breakPatternsGo_perm l a b
        generalize hL1 : (if wasBalanced = true then l else breakPatternsGo l a b) = l1 at h1 ⊢
        generalize (if wasBalanced = true then limit else limit - 1) = limit1
        generalize choosePivotGo l1 a b = pv
        have h2 : (if pv.2 = SortHint.decreasingHint then reverseRangeGo l1 a b else l1) ~ l1 := by
          split
          · exact reverseRangeGo_perm l1 a b
          · exact List.Perm.refl l1
        generalize hL2 :
          (if pv.2 = SortHint.decreasingHint then reverseRangeGo l1 a b else l1) = l2 at h2 ⊢
        generalize (if pv.2 = SortHint.decreasingHint then b - 1 - (pv.1 - a) else pv.1) = pivot
        generalize (if pv.2 = SortHint.decreasingHint then SortHint.increasingHint else pv.2) = hint
        have h3 :
            (if (wasBalanced && wasPartitioned && decide (hint = SortHint.increasingHint)) = true
              then partialInsertionSortGo l2 a b else (l2, false)).1 ~ l2 := by
          split
          · exact partialInsertionSortGo_perm l2 a b
          · exact List.Perm.refl l2
        generalize hPis :
          (if (wasBalanced && wasPartitioned && decide (hint = SortHint.increasingHint)) = true
            then partialInsertionSortGo l2 a b else (l2, false)) = pis at h3 ⊢
        have hall : pis.1 ~ l := (h3.trans h2).trans h1
        split
        · exact hall
        · split
          · exact (ih _ _ b _ wasBalanced wasPartitioned).trans
              ((partitionEqualGo_perm _ a b _).trans hall)
          · split
            · exact (ih _ _ b _ _ _).trans ((ih _ _ _ _ true true).trans
                ((partitionGo_perm _ a b _).trans hall))
            · exact (ih _ a _ _ _ _).trans ((ih _ _ b _ true true).trans
                ((partitionGo_perm _ a b _).trans hall))

theorem sortSliceGo_perm (l : List Syscall) : sortSliceGo l ~ l :=
  pdqsortLoop_perm (l.length + 1) l 0 l.length (bitsLen l.length) true true

theorem stepOK_refl (a b : Nat) (l : List Syscall) : StepOK a b l l :=
  ⟨List.Perm.refl l, fun _ _ => rfl⟩

theorem stepOK_trans {a b : Nat} {l l2 l3 : List Syscall}
    (h1 : StepOK a b l l2) (h2 : StepOK a b l2 l3) : StepOK a b l l3 :=
  ⟨h2.1.trans h1.1, fun k hk => (h2.2 k hk).trans (h1.2 k hk)⟩

theorem stepOK_widen {a b a2 b2 : Nat} {l l2 : List Syscall}
    (ha : a ≤ a2) (hb : b2 ≤ b) (h : StepOK a2 b2 l l2) : StepOK a b l l2 :=
  ⟨h.1, fun k hk => h.2 k (by omega)⟩

theorem stepOK_length {a b : Nat} {l l2 : List Syscall} (h : StepOK a b l l2) :
    l2.length = l.length :=
  h.1.length_eq

theorem lGet_eq_getElem? (l : List Syscall) (k : Nat) :
    lGet l k = (l[k]?).getD default := by
  simp [lGet]

theorem lGet_lSwap_ne (l : List Syscall) (i j k : Nat) (hki : k ≠ i) (hkj : k ≠ j) :
    lGet (lSwap l i j) k = lGet l k := by
  unfold lSwap
  split
  · rw [lGet_eq_getElem?, lGet_eq_getElem?,
      List.getElem?_set_ne (fun h => hkj h.symm), List.getElem?_set_ne (fun h => hki h.symm)]
    exact (lGet_eq_getElem? l k).symm
  · rfl

theorem lGet_lSwap_left (l : List Syscall) (i j : Nat) (hi : i < l.length)
    (hj : j < l.length) : lGet (lSwap l i j) i = lGet l j := by
  unfold lSwap
  rw [if_pos ⟨hi, hj⟩]
  simp only [lGet_eq_getElem?, List.getElem?_set, List.length_set]
  by_cases hij : j = i
  · subst hij
    simp [hj, lGet_eq_getElem?]
  · simp [hij, hi, lGet_eq_getElem?]

theorem lGet_lSwap_right (l : List Syscall) (i j : Nat) (hi : i < l.length)
    (hj : j < l.length) : lGet (lSwap l i j) j = lGet l i := by
  unfold lSwap
  rw [if_pos ⟨hi, hj⟩]
  simp only [lGet_eq_getElem?, List.getElem?_set, List.length_set]
  simp [hj, lGet_eq_getElem?]

theorem lSwap_stepOK (l : List Syscall) (a b i j : Nat)
    (hai : a ≤ i) (hib : i < b) (haj : a ≤ j) (hjb : j < b) :
    StepOK a b l (lSwap l i j) :=
  ⟨lSwap_perm l i j, fun k hk => lGet_lSwap_ne l i j k (by omega) (by omega)⟩

theorem lGet_mem_seg (l : List Syscall) (a b k : Nat) (ha : a ≤ k) (hb : k < b)
    (hlen : k < l.length) : lGet l k ∈ seg l a b := by
  unfold seg
  have h1 : k - a < ((l.drop a).take (b - a)).length := by
    rw [List.length_take, List.length_drop]
    omega
  have h2 : ((l.drop a).take (b - a))[k - a] = lGet l k := by
    rw [List.getElem_take, List.getElem_drop, lGet_eq_getElem l k hlen]
    congr 1
    omega
  rw [← h2]
  exact List.getElem_mem h1

theorem seg_decomp (l : List Syscall) (a m b : Nat) (ham : a ≤ m) (hmb : m ≤ b) :
    seg l a b = seg l a m ++ seg l m b := by
  unfold seg
  have hba : b - a = (m - a) + (b - m) := by omega
  have hm2 : a + (m - a) = m := by omega
  rw [hba, List.take_add, List.drop_drop, hm2]

theorem mem_seg_left (l : List Syscall) (a m b : Nat) (ham : a ≤ m) (hmb : m ≤ b)
    {x : Syscall} (hx : x ∈ seg l a m) : x ∈ seg l a b := by
  rw [seg_decomp l a m b ham hmb]
  exact List.mem_append_left _ hx

theorem mem_seg_right (l : List Syscall) (a m b : Nat) (ham : a ≤ m) (hmb : m ≤ b)
    {x : Syscall} (hx : x ∈ seg l m b) : x ∈ seg l a b := by
  rw [seg_decomp l a m b ham hmb]
  exact List.mem_append_right _ hx

theorem getElem?_eq_of_lGet_eq {l l2 : List Syscall} (k : Nat)
    (hlen : l2.length = l.length) (h : lGet l2 k = lGet l k) : l2[k]? = l[k]? := by
  by_cases hk : k < l.length
  · rw [List.getElem?_eq_getElem hk, List.getElem?_eq_getElem (by omega)]
    rw [lGet_eq_getElem l k hk, lGet_eq_getElem l2 k (by omega)] at h
    rw [h]
  · rw [List.getElem?_eq_none (by omega), List.getElem?_eq_none (by omega)]

theorem take_eq_of_stepOK {a b : Nat} {l l2 : List Syscall} (h : StepOK a b l l2) :
    l2.take a = l.take a := by
  apply List.ext_getElem?
  intro n
  rw [List.getElem?_take, List.getElem?_take]
  split
  · exact getElem?_eq_of_lGet_eq n (stepOK_length h) (h.2 n (Or.inl (by omega)))
  · rfl

theorem drop_eq_of_stepOK {a b : Nat} {l l2 : List Syscall} (h : StepOK a b l l2) :
    l2.drop b = l.drop b := by
  apply List.ext_getElem?
  intro n
  rw [List.getElem?_drop, List.getElem?_drop]
  exact getElem?_eq_of_lGet_eq (b + n) (stepOK_length h) (h.2 (b + n) (Or.inr (by omega)))

theorem seg_perm_of_stepOK {a b : Nat} {l l2 : List Syscall} (h : StepOK a b l l2) :
    seg l2 a b ~ seg l a b := by
  by_cases hab : a ≤ b
  · have hab2 : a + (b - a) = b := by omega
    have hd2 : l2.take a ++ seg l2 a b ++ l2.drop b = l2 := by
      unfold seg
      rw [← List.take_add, hab2, List.take_append_drop]
    have hd1 : l.take a ++ seg l a b ++ l.drop b = l := by
      unfold seg
      rw [← List.take_add, hab2, List.take_append_drop]
    have e2 : l.take a ++ seg l2 a b ++ l.drop b = l2 := by
      rw [← take_eq_of_stepOK h, ← drop_eq_of_stepOK h]
      exact hd2
    have hperm2 : (l.take a ++ seg l2 a b ++ l.drop b) ~ (l.take a ++ seg l a b ++ l.drop b) := by
      rw [e2, hd1]
      exact h.1
    rw [List.perm_append_right_iff] at hperm2
    rw [List.perm_append_left_iff] at hperm2
    exact hperm2
  · have hb : b - a = 0 := by omega
    unfold seg
    rw [hb]
    simp

theorem seg_eq_of_lGet_eq {a b : Nat} {l l2 : List Syscall}
    (hlen : l2.length = l.length)
    (h : ∀ k, a ≤ k → k < b → lGet l2 k = lGet l k) : seg l2 a b = seg l a b := by
  apply List.ext_getElem?
  intro n
  unfold seg
  rw [List.getElem?_take, List.getElem?_take]
  split
  · rw [List.getElem?_drop, List.getElem?_drop]
    exact getElem?_eq_of_lGet_eq (a + n) hlen (h (a + n) (by omega) (by omega))
  · rfl

theorem hLow_of_stepOK {a b : Nat} {l l2 : List Syscall} (h : StepOK a b l l2)
    (hl : HLow l a b) : HLow l2 a b := by
  intro ha x hx
  rw [h.2 (a-1) (Or.inl (by omega))]
  exact hl ha x ((seg_perm_of_stepOK h).mem_iff.mp hx)

theorem sortedSeg_small (l : List Syscall) (a b : Nat) (h : b ≤ a + 1) :
    SortedSeg l a b := by
  intro i j hi hij hj
  have : i = j := by omega
  subst this
  exact le_refl _

theorem sortedSeg_mono {l : List Syscall} {a b a2 b2 : Nat} (ha : a ≤ a2) (hb : b2 ≤ b)
    (h : SortedSeg l a b) : SortedSeg l a2 b2 :=
  fun i j hi hij hj => h i j (by omega) hij (by omega)

theorem sortedSeg_glue {l : List Syscall} {a mid b : Nat}
    (hmid : a ≤ mid) (hmb : mid < b)
    (h1 : SortedSeg l a mid) (h2 : SortedSeg l (mid+1) b)
    (hlv : ∀ k, a ≤ k → k < mid → (lGet l k).num ≤ (lGet l mid).num)
    (hrv : ∀ k, mid < k → k < b → (lGet l mid).num ≤ (lGet l k).num) :
    SortedSeg l a b := by
  intro i j hi hij hj
  rcases Nat.lt_trichotomy i mid with hilt | hieq | higt
  · rcases Nat.lt_trichotomy j mid with hjlt | hjeq | hjgt
    · exact h1 i j hi hij hjlt
    · subst hjeq
      exact hlv i hi hilt
    · exact le_trans (hlv i hi hilt) (hrv j hjgt hj)
  · subst hieq
    rcases Nat.lt_or_ge i j with hlt | hge
    · exact hrv j hlt hj
    · have : i = j := by omega
      subst this
      exact le_refl _
  · exact h2 i j (by omega) hij hj

theorem sortedSeg_glue_eq {l : List Syscall} {a mid b : Nat} {v : Int}
    (ha : a ≤ mid) (hmb : mid ≤ b)
    (h2 : SortedSeg l mid b)
    (heq : ∀ k, a ≤ k → k < mid → (lGet l k).num = v)
    (hge : ∀ k, mid ≤ k → k < b → v ≤ (lGet l k).num) :
    SortedSeg l a b := by
  intro i j hi hij hj
  rcases Nat.lt_or_ge i mid with hilt | hige
  · rcases Nat.lt_or_ge j mid with hjlt | hjge
    · rw [heq i hi hilt, heq j (by omega) hjlt]
    · rw [heq i hi hilt]
      exact hge j hjge hj
  · exact h2 i j hige hij hj

theorem mem_seg {l : List Syscall} {a b : Nat} {x : Syscall} (hx : x ∈ seg l a b) :
    ∃ k, a ≤ k ∧ k < b ∧ k < l.length ∧ x = lGet l k := by
  rw [List.mem_iff_getElem] at hx
  obtain ⟨n, hn, hval⟩ := hx
  unfold seg at hn hval
  have hlen : n < b - a ∧ n < l.length - a := by
    rw [List.length_take, List.length_drop] at hn
    omega
  refine ⟨a + n, by omega, by omega, by omega, ?_⟩
  rw [← hval, List.getElem_take, List.getElem_drop, lGet_eq_getElem]

theorem sortedSeg_congr {l l2 : List Syscall} {a b : Nat}
    (heq : ∀ k, a ≤ k → k < b → lGet l2 k = lGet l k)
    (h : SortedSeg l a b) : SortedSeg l2 a b := by
  intro i j hi hij hj
  rw [heq i hi (by omega), heq j (by omega) hj]
  exact h i j hi hij hj

theorem sortedSeg_extend_mem {l : List Syscall} {a j : Nat} (hj : j < l.length)
    (h : SortedSeg l a j)
    (hmax : ∀ x ∈ seg l a j, x.num ≤ (lGet l j).num) : SortedSeg l a (j+1) := by
  intro i i2 hi hii hi2
  rcases Nat.lt_or_ge i2 j with hlt | hge
  · exact h i i2 hi hii hlt
  · have hi2j : i2 = j := by omega
    rcases Nat.lt_or_ge i j with hilt | hige
    · rw [hi2j]
      exact hmax _ (lGet_mem_seg l a j i hi hilt (by omega))
    · have hii2 : i = i2 := by omega
      rw [hii2]

theorem insertInner_spec (fuel : Nat) :
    ∀ (l : List Syscall) (a j : Nat), j ≤ a + fuel → j < l.length →
      SortedSeg l a j →
      StepOK a (j+1) l (insertInner fuel l a j)
      ∧ SortedSeg (insertInner fuel l a j) a (j+1) := by
  induction fuel with
  | zero =>
    intro l a j hfuel hlen hs
    unfold insertInner
    exact ⟨stepOK_refl _ _ l, sortedSeg_small l a (j+1) (by omega)⟩
  | succ fuel ih =>
    intro l a j hfuel hlen hs
    unfold insertInner
    split
    · rename_i hcond
      simp only [Bool.and_eq_true, decide_eq_true_eq, numLess] at hcond
      obtain ⟨haj, hless⟩ := hcond
      set l1 := lSwap l (j-1) j with hl1
      have hlen1 : l1.length = l.length := lSwap_length l (j-1) j
      have hget_jm : lGet l1 (j-1) = lGet l j := lGet_lSwap_left l (j-1) j (by omega) hlen
      have hget_j : lGet l1 j = lGet l (j-1) := lGet_lSwap_right l (j-1) j (by omega) hlen
      have hget_other : ∀ k, k ≠ j-1 → k ≠ j → lGet l1 k = lGet l k :=
        fun k h1 h2 => lGet_lSwap_ne l (j-1) j k h1 h2
      have hs1 : SortedSeg l1 a (j-1) := by
        apply sortedSeg_congr (fun k hk1 hk2 => hget_other k (by omega) (by omega))
        exact sortedSeg_mono (le_refl a) (by omega) hs
      have hrec := ih l1 a (j-1) (by omega) (by omega) hs1
      obtain ⟨hstep, hsorted⟩ := hrec
      have hridx : j - 1 + 1 = j := by omega
      rw [hridx] at hstep hsorted
      set l2 := insertInner fuel l1 a (j-1) with hl2
      constructor
      · exact stepOK_trans
          (lSwap_stepOK l a (j+1) (j-1) j (by omega) (by omega) (by omega) (by omega))
          (stepOK_widen (le_refl a) (by omega) hstep)
      · -- extend sortedness from [a, j) to [a, j+1)
        have hlen2 : l2.length = l.length := by rw [stepOK_length hstep, hlen1]
        have hj2 : lGet l2 j = lGet l (j-1) := by
          rw [hstep.2 j (Or.inr (by omega)), hget_j]
        apply sortedSeg_extend_mem (by omega) hsorted
        intro x hx
        have hx1 : x ∈ seg l1 a j := ((seg_perm_of_stepOK hstep).mem_iff).mp hx
        obtain ⟨k, hk1, hk2, hk3, hk4⟩ := mem_seg hx1
        rw [hj2, hk4]
        rcases Nat.lt_or_ge k (j-1) with hklt | hkge
        · rw [hget_other k (by omega) (by omega)]
          exact hs k (j-1) hk1 (by omega) (by omega)
        · have hkj : k = j - 1 := by omega
          subst hkj
          rw [hget_jm]
          exact le_of_lt hless
    · rename_i hcond
      simp only [Bool.and_eq_true, decide_eq_true_eq, numLess, not_and] at hcond
      refine ⟨stepOK_refl _ _ l, ?_⟩
      by_cases haj : a < j
      · have hnl : ¬ (lGet l j).num < (lGet l (j-1)).num := by
          intro hc
          exact absurd (by exact_mod_cast hc) (by simpa using hcond haj)
        apply sortedSeg_extend_mem hlen hs
        intro x hx
        obtain ⟨k, hk1, hk2, hk3, hk4⟩ := mem_seg hx
        rw [hk4]
        calc (lGet l k).num ≤ (lGet l (j-1)).num := hs k (j-1) hk1 (by omega) (by omega)
          _ ≤ (lGet l j).num := by omega
      · exact sortedSeg_small l a (j+1) (by omega)

theorem insertionSortLoop_spec (fuel : Nat) :
    ∀ (l : List Syscall) (a i : Nat), a < i → i + fuel ≤ l.length →
      SortedSeg l a i →
      StepOK a (i + fuel) l (insertionSortLoop fuel l a i)
      ∧ SortedSeg (insertionSortLoop fuel l a i) a (i + fuel) := by
  induction fuel with
  | zero =>
    intro l a i hai hlen hs
    unfold insertionSortLoop
    exact ⟨stepOK_refl _ _ l, hs⟩
  | succ fuel ih =>
    intro l a i hai hlen hs
    unfold insertionSortLoop
    have hinner := insertInner_spec (i - a) l a i (by omega) (by omega) hs
    obtain ⟨hstep1, hsort1⟩ := hinner
    set l1 := insertInner (i - a) l a i with hl1
    have hlen1 : l1.length = l.length := stepOK_length hstep1
    have hrec := ih l1 a (i+1) (by omega) (by omega) hsort1
    obtain ⟨hstep2, hsort2⟩ := hrec
    have hend : i + 1 + fuel = i + (fuel + 1) := by omega
    rw [hend] at hstep2 hsort2
    exact ⟨stepOK_trans (stepOK_widen (le_refl a) (by omega) hstep1)
      (stepOK_widen (le_refl a) (le_refl _) hstep2), hsort2⟩

theorem insertionSortGo_spec (l : List Syscall) (a b : Nat) (hb : b ≤ l.length) :
    StepOK a b l (insertionSortGo l a b) ∧ SortedSeg (insertionSortGo l a b) a b := by
  unfold insertionSortGo
  by_cases hab : a + 1 < b
  · have h := insertionSortLoop_spec (b - (a+1)) l a (a+1) (by omega) (by omega)
      (sortedSeg_small l a (a+1) (by omega))
    have hend : a + 1 + (b - (a+1)) = b := by omega
    rw [hend] at h
    exact h
  · have hfuel : b - (a+1) = 0 := by omega
    rw [hfuel]
    unfold insertionSortLoop
    exact ⟨stepOK_refl _ _ l, sortedSeg_small l a b (by omega)⟩

theorem numLess_eq_true {l : List Syscall} {i j : Nat} :
    numLess l i j = true ↔ (lGet l i).num < (lGet l j).num := by
  simp [numLess]

theorem numLess_eq_false {l : List Syscall} {i j : Nat} :
    numLess l i j = false ↔ (lGet l j).num ≤ (lGet l i).num := by
  simp [numLess]

theorem partAdvI_spec (fuel : Nat) :
    ∀ (l : List Syscall) (a i j : Nat), j + 1 ≤ i + fuel → i ≤ j + 1 →
      i ≤ partAdvI fuel l a i j
      ∧ partAdvI fuel l a i j ≤ j + 1
      ∧ (∀ k, i ≤ k → k < partAdvI fuel l a i j → numLess l k a = true)
      ∧ (partAdvI fuel l a i j ≤ j → numLess l (partAdvI fuel l a i j) a = false) := by
  induction fuel with
  | zero =>
    intro l a i j hfuel hentry
    unfold partAdvI
    exact ⟨le_refl i, hentry, fun k hk1 hk2 => absurd hk1 (by omega),
      fun hij => absurd hij (by omega)⟩
  | succ fuel ih =>
    intro l a i j hfuel hentry
    unfold partAdvI
    split
    · rename_i hcond
      simp only [Bool.and_eq_true, decide_eq_true_eq] at hcond
      have hrec := ih l a (i+1) j (by omega) (by omega)
      obtain ⟨h1, h2, h3, h4⟩ := hrec
      refine ⟨by omega, h2, ?_, h4⟩
      intro k hk1 hk2
      rcases Nat.lt_or_ge k (i+1) with hk | hk
      · have hki : k = i := by omega
        rw [hki]
        exact hcond.2
      · exact h3 k hk hk2
    · rename_i hcond
      simp only [Bool.and_eq_true, not_and, decide_eq_true_eq, Bool.not_eq_true] at hcond
      exact ⟨le_refl i, hentry, fun k hk1 hk2 => absurd hk2 (by omega), fun hij => hcond hij⟩

theorem partRetJ_spec (fuel : Nat) :
    ∀ (l : List Syscall) (a i j : Nat), j + 1 ≤ i + fuel → i ≤ j + 1 → 1 ≤ i →
      partRetJ fuel l a i j ≤ j
      ∧ i - 1 ≤ partRetJ fuel l a i j
      ∧ (∀ k, partRetJ fuel l a i j < k → k ≤ j → numLess l k a = false)
      ∧ (i ≤ partRetJ fuel l a i j → numLess l (partRetJ fuel l a i j) a = true) := by
  induction fuel with
  | zero =>
    intro l a i j hfuel hentry hi
    unfold partRetJ
    exact ⟨le_refl j, by omega, fun k hk1 hk2 => absurd hk2 (by omega),
      fun hij => absurd hij (by omega)⟩
  | succ fuel ih =>
    intro l a i j hfuel hentry hi
    unfold partRetJ
    split
    · rename_i hcond
      simp only [Bool.and_eq_true, decide_eq_true_eq, Bool.not_eq_true'] at hcond
      have hrec := ih l a i (j-1) (by omega) (by omega) hi
      obtain ⟨h1, h2, h3, h4⟩ := hrec
      refine ⟨by omega, h2, ?_, h4⟩
      intro k hk1 hk2
      rcases Nat.lt_or_ge (j-1) k with hk | hk
      · have hkj : k = j := by omega
        rw [hkj]
        exact hcond.2
      · exact h3 k hk1 (by omega)
    · rename_i hcond
      simp only [Bool.and_eq_true, not_and, decide_eq_true_eq, Bool.not_eq_true',
        Bool.not_eq_false] at hcond
      exact ⟨le_refl j, by omega, fun k hk1 hk2 => absurd hk1 (by omega),
        fun hij => hcond hij⟩

theorem partLoop_spec (fuel : Nat) :
    ∀ (l : List Syscall) (a b i j : Nat) (v : Syscall),
      j + 2 ≤ i + fuel → a + 1 ≤ i → i ≤ j + 1 → j ≤ b - 1 → a < b → b ≤ l.length →
      lGet l a = v →
      (∀ k, a + 1 ≤ k → k < i → (lGet l k).num < v.num) →
      (∀ k, j < k → k < b → v.num ≤ (lGet l k).num) →
      StepOK (a+1) b l (partLoop fuel l a i j).1
      ∧ (partLoop fuel l a i j).2.1 = (partLoop fuel l a i j).2.2 + 1
      ∧ a ≤ (partLoop fuel l a i j).2.2 ∧ (partLoop fuel l a i j).2.2 ≤ b - 1
      ∧ (∀ k, a + 1 ≤ k → k < (partLoop fuel l a i j).2.1 →
          (lGet (partLoop fuel l a i j).1 k).num < v.num)
      ∧ (∀ k, (partLoop fuel l a i j).2.2 < k → k < b →
          v.num ≤ (lGet (partLoop fuel l a i j).1 k).num) := by
  induction fuel with
  | zero =>
    intro l a b i j v hfuel hai hij hjb hab hb hva hp3 hp4
    exact absurd hij (by omega)
  | succ fuel ih =>
    intro l a b i j v hfuel hai hij hjb hab hb hva hp3 hp4
    unfold partLoop
    dsimp only
    obtain ⟨ha1, ha2, ha3, ha4⟩ :=
      partAdvI_spec (j + 1 - i) l a i j (by omega) hij
    set i1 := partAdvI (j + 1 - i) l a i j with hi1def
    obtain ⟨hr1, hr2, hr3, hr4⟩ :=
      partRetJ_spec (j + 1 - i1) l a i1 j (by omega) ha2 (by omega)
    set j1 := partRetJ (j + 1 - i1) l a i1 j with hj1def
    have hleft1 : ∀ k, a + 1 ≤ k → k < i1 → (lGet l k).num < v.num := by
      intro k hk1 hk2
      rcases Nat.lt_or_ge k i with hk | hk
      · exact hp3 k hk1 hk
      · have := numLess_eq_true.mp (ha3 k hk hk2)
        rw [hva] at this
        exact this
    have hright1 : ∀ k, j1 < k → k < b → v.num ≤ (lGet l k).num := by
      intro k hk1 hk2
      rcases Nat.lt_or_ge j k with hk | hk
      · exact hp4 k hk hk2
      · have := numLess_eq_false.mp (hr3 k hk1 hk)
        rw [hva] at this
        exact this
    split
    · rename_i hexit
      dsimp only
      refine ⟨stepOK_refl _ _ l, by omega, by omega, by omega, hleft1, hright1⟩
    · rename_i hexit
      have hi1j1 : i1 ≤ j1 := by omega
      have hvi1 : v.num ≤ (lGet l i1).num := by
        have := numLess_eq_false.mp (ha4 (by omega))
        rw [hva] at this
        exact this
      have hvj1 : (lGet l j1).num < v.num := by
        have := numLess_eq_true.mp (hr4 hi1j1)
        rw [hva] at this
        exact this
      have hi1lt : i1 < j1 := by
        rcases Nat.lt_or_ge i1 j1 with h | h
        · exact h
        · have : i1 = j1 := by omega
          rw [this] at hvi1
          omega
      have hi1len : i1 < l.length := by omega
      have hj1len : j1 < l.length := by omega
      have hgl : lGet (lSwap l i1 j1) i1 = lGet l j1 := lGet_lSwap_left l i1 j1 hi1len hj1len
      have hgr : lGet (lSwap l i1 j1) j1 = lGet l i1 := lGet_lSwap_right l i1 j1 hi1len hj1len
      have hgo : ∀ k, k ≠ i1 → k ≠ j1 → lGet (lSwap l i1 j1) k = lGet l k :=
        fun k h1 h2 => lGet_lSwap_ne l i1 j1 k h1 h2
      have hrec := ih (lSwap l i1 j1) a b (i1+1) (j1-1) v (by omega) (by omega) (by omega)
        (by omega) hab (by rw [lSwap_length]; exact hb)
        (by rw [hgo a (by omega) (by omega)]; exact hva)
        (by
          intro k hk1 hk2
          rcases Nat.lt_or_ge k i1 with hk | hk
          · rw [hgo k (by omega) (by omega)]
            exact hleft1 k hk1 hk
          · have hki : k = i1 := by omega
            rw [hki, hgl]
            exact hvj1)
        (by
          intro k hk1 hk2
          rcases Nat.lt_or_ge j1 k with hk | hk
          · rw [hgo k (by omega) (by omega)]
            exact hright1 k hk hk2
          · have hkj : k = j1 := by omega
            rw [hkj, hgr]
            exact hvi1)
      obtain ⟨hq1, hq2, hq3, hq4, hq5, hq6⟩ := hrec
      exact ⟨stepOK_trans
        (lSwap_stepOK l (a+1) b i1 j1 (by omega) (by omega) (by omega) (by omega)) hq1,
        hq2, hq3, hq4, hq5, hq6⟩

theorem partitionGo_spec (l : List Syscall) (a b pivot : Nat)
    (hab : a < b) (hb : b ≤ l.length) (hpa : a ≤ pivot) (hpb : pivot < b) :
    StepOK a b l (partitionGo l a b pivot).1
    ∧ a ≤ (partitionGo l a b pivot).2.1 ∧ (partitionGo l a b pivot).2.1 < b
    ∧ lGet (partitionGo l a b pivot).1 (partitionGo l a b pivot).2.1 = lGet l pivot
    ∧ (∀ k, a ≤ k → k < (partitionGo l a b pivot).2.1 →
        (lGet (partitionGo l a b pivot).1 k).num < (lGet l pivot).num)
    ∧ (∀ k, (partitionGo l a b pivot).2.1 < k → k < b →
        (lGet l pivot).num ≤ (lGet (partitionGo l a b pivot).1 k).num) := by
  unfold partitionGo
  dsimp only
  have hlen0 : (lSwap l a pivot).length = l.length := lSwap_length l a pivot
  have hv0 : lGet (lSwap l a pivot) a = lGet l pivot :=
    lGet_lSwap_left l a pivot (by omega) (by omega)
  have hstep0 : StepOK a b l (lSwap l a pivot) :=
    lSwap_stepOK l a b a pivot (le_refl a) hab hpa hpb
  obtain ⟨ha1, ha2, ha3, ha4⟩ :=
    partAdvI_spec (b - 1 + 1 - (a + 1)) (lSwap l a pivot) a (a + 1) (b - 1)
      (by omega) (by omega)
  set l0 := lSwap l a pivot with hl0
  set i1 := partAdvI (b - 1 + 1 - (a + 1)) l0 a (a + 1) (b - 1) with hi1def
  obtain ⟨hr1, hr2, hr3, hr4⟩ :=
    partRetJ_spec (b - 1 + 1 - i1) l0 a i1 (b - 1) (by omega) ha2 (by omega)
  set j1 := partRetJ (b - 1 + 1 - i1) l0 a i1 (b - 1) with hj1def
  have hleft1 : ∀ k, a + 1 ≤ k → k < i1 → (lGet l0 k).num < (lGet l pivot).num := by
    intro k hk1 hk2
    have := numLess_eq_true.mp (ha3 k hk1 hk2)
    rw [hv0] at this
    exact this
  have hright1 : ∀ k, j1 < k → k ≤ b - 1 → (lGet l pivot).num ≤ (lGet l0 k).num := by
    intro k hk1 hk2
    have := numLess_eq_false.mp (hr3 k hk1 hk2)
    rw [hv0] at this
    exact this
  split
  · rename_i hexit
    dsimp only
    have hj1i1 : j1 = i1 - 1 := by omega
    have hj1a : a ≤ j1 := by omega
    have hj1b : j1 < b := by omega
    have hj1len : j1 < l.length := by omega
    have halen : a < l.length := by omega
    refine ⟨stepOK_trans hstep0
      (lSwap_stepOK l0 a b j1 a hj1a hj1b (le_refl a) hab), hj1a, hj1b, ?_, ?_, ?_⟩
    · rw [lGet_lSwap_left l0 j1 a (by omega) (by omega), hv0]
    · intro k hk1 hk2
      rcases Nat.lt_or_ge a k with hk | hk
      · rw [lGet_lSwap_ne l0 j1 a k (by omega) (by omega)]
        exact hleft1 k (by omega) (by omega)
      · have hka : k = a := by omega
        rw [hka, lGet_lSwap_right l0 j1 a (by omega) (by omega)]
        exact hleft1 j1 (by omega) (by omega)
    · intro k hk1 hk2
      rw [lGet_lSwap_ne l0 j1 a k (by omega) (by omega)]
      exact hright1 k hk1 (by omega)
  · rename_i hexit
    have hi1j1 : i1 ≤ j1 := by omega
    have hvi1 : (lGet l pivot).num ≤ (lGet l0 i1).num := by
      have := numLess_eq_false.mp (ha4 (by omega))
      rw [hv0] at this
      exact this
    have hvj1 : (lGet l0 j1).num < (lGet l pivot).num := by
      have := numLess_eq_true.mp (hr4 hi1j1)
      rw [hv0] at this
      exact this
    have hi1lt : i1 < j1 := by
      rcases Nat.lt_or_ge i1 j1 with h | h
      · exact h
      · have heq : i1 = j1 := by omega
        rw [heq] at hvi1
        omega
    have hi1len : i1 < l.length := by omega
    have hj1len : j1 < l.length := by omega
    have hgl : lGet (lSwap l0 i1 j1) i1 = lGet l0 j1 :=
      lGet_lSwap_left l0 i1 j1 (by omega) (by omega)
    have hgr : lGet (lSwap l0 i1 j1) j1 = lGet l0 i1 :=
      lGet_lSwap_right l0 i1 j1 (by omega) (by omega)
    have hgo : ∀ k, k ≠ i1 → k ≠ j1 → lGet (lSwap l0 i1 j1) k = lGet l0 k :=
      fun k h1 h2 => lGet_lSwap_ne l0 i1 j1 k h1 h2
    have hrec := partLoop_spec (b - a + 1) (lSwap l0 i1 j1) a b (i1+1) (j1-1)
      (lGet l pivot) (by omega) (by omega) (by omega) (by omega) hab
      (by rw [lSwap_length, hlen0]; exact hb)
      (by rw [hgo a (by omega) (by omega)]; exact hv0)
      (by
        intro k hk1 hk2
        rcases Nat.lt_or_ge k i1 with hk | hk
        · rw [hgo k (by omega) (by omega)]
          exact hleft1 k hk1 hk
        · have hki : k = i1 := by omega
          rw [hki, hgl]
          exact hvj1)
      (by
        intro k hk1 hk2
        rcases Nat.lt_or_ge j1 k with hk | hk
        · rw [hgo k (by omega) (by omega)]
          exact hright1 k hk (by omega)
        · have hkj : k = j1 := by omega
          rw [hkj, hgr]
          exact hvi1)
    obtain ⟨hq1, hq2, hq3, hq4, hq5, hq6⟩ := hrec
    set res := partLoop (b - a + 1) (lSwap l0 i1 j1) a (i1+1) (j1-1) with hres
    dsimp only
    have hreslen : res.1.length = l.length := by
      rw [stepOK_length hq1, lSwap_length, hlen0]
    have hj2len : res.2.2 < l.length := by omega
    have hresa : lGet res.1 a = lGet l pivot := by
      rw [hq1.2 a (Or.inl (by omega)), hgo a (by omega) (by omega), hv0]
    refine ⟨?_, hq3, by omega, ?_, ?_, ?_⟩
    · refine stepOK_trans hstep0 (stepOK_trans
        (stepOK_widen (by omega) (le_refl b)
          (lSwap_stepOK l0 (a+1) b i1 j1 (by omega) (by omega) (by omega) (by omega)))
        (stepOK_trans (stepOK_widen (by omega) (le_refl b) hq1)
          (lSwap_stepOK res.1 a b res.2.2 a hq3 (by omega) (le_refl a) hab)))
    · rw [lGet_lSwap_left res.1 res.2.2 a (by omega) (by omega), hresa]
    · intro k hk1 hk2
      rcases Nat.lt_or_ge a k with hk | hk
      · rw [lGet_lSwap_ne res.1 res.2.2 a k (by omega) (by omega)]
        exact hq5 k (by omega) (by omega)
      · have hka : k = a := by omega
        rw [hka, lGet_lSwap_right res.1 res.2.2 a (by omega) (by omega)]
        exact hq5 res.2.2 (by omega) (by omega)
    · intro k hk1 hk2
      rw [lGet_lSwap_ne res.1 res.2.2 a k (by omega) (by omega)]
      exact hq6 k hk1 hk2

theorem peqAdvI_spec (fuel : Nat) :
    ∀ (l : List Syscall) (a i j : Nat), j + 1 ≤ i + fuel → i ≤ j + 1 →
      i ≤ peqAdvI fuel l a i j
      ∧ peqAdvI fuel l a i j ≤ j + 1
      ∧ (∀ k, i ≤ k → k < peqAdvI fuel l a i j → numLess l a k = false)
      ∧ (peqAdvI fuel l a i j ≤ j → numLess l a (peqAdvI fuel l a i j) = true) := by
  induction fuel with
  | zero =>
    intro l a i j hfuel hentry
    unfold peqAdvI
    exact ⟨le_refl i, hentry, fun k hk1 hk2 => absurd hk1 (by omega),
      fun hij => absurd hij (by omega)⟩
  | succ fuel ih =>
    intro l a i j hfuel hentry
    unfold peqAdvI
    split
    · rename_i hcond
      simp only [Bool.and_eq_true, decide_eq_true_eq, Bool.not_eq_true'] at hcond
      have hrec := ih l a (i+1) j (by omega) (by omega)
      obtain ⟨h1, h2, h3, h4⟩ := hrec
      refine ⟨by omega, h2, ?_, h4⟩
      intro k hk1 hk2
      rcases Nat.lt_or_ge k (i+1) with hk | hk
      · have hki : k = i := by omega
        rw [hki]
        exact hcond.2
      · exact h3 k hk hk2
    · rename_i hcond
      simp only [Bool.and_eq_true, not_and, decide_eq_true_eq, Bool.not_eq_true',
        Bool.not_eq_false] at hcond
      exact ⟨le_refl i, hentry, fun k hk1 hk2 => absurd hk2 (by omega), fun hij => hcond hij⟩

theorem peqRetJ_spec (fuel : Nat) :
    ∀ (l : List Syscall) (a i j : Nat), j + 1 ≤ i + fuel → i ≤ j + 1 → 1 ≤ i →
      peqRetJ fuel l a i j ≤ j
      ∧ i - 1 ≤ peqRetJ fuel l a i j
      ∧ (∀ k, peqRetJ fuel l a i j < k → k ≤ j → numLess l a k = true)
      ∧ (i ≤ peqRetJ fuel l a i j → numLess l a (peqRetJ fuel l a i j) = false) := by
  induction fuel with
  | zero =>
    intro l a i j hfuel hentry hi
    unfold peqRetJ
    exact ⟨le_refl j, by omega, fun k hk1 hk2 => absurd hk2 (by omega),
      fun hij => absurd hij (by omega)⟩
  | succ fuel ih =>
    intro l a i j hfuel hentry hi
    unfold peqRetJ
    split
    · rename_i hcond
      simp only [Bool.and_eq_true, decide_eq_true_eq] at hcond
      have hrec := ih l a i (j-1) (by omega) (by omega) hi
      obtain ⟨h1, h2, h3, h4⟩ := hrec
      refine ⟨by omega, h2, ?_, h4⟩
      intro k hk1 hk2
      rcases Nat.lt_or_ge (j-1) k with hk | hk
      · have hkj : k = j := by omega
        rw [hkj]
        exact hcond.2
      · exact h3 k hk1 (by omega)
    · rename_i hcond
      simp only [Bool.and_eq_true, not_and, decide_eq_true_eq, Bool.not_eq_true] at hcond
      exact ⟨le_refl j, by omega, fun k hk1 hk2 => absurd hk1 (by omega),
        fun hij => hcond hij⟩

theorem peqLoop_spec (fuel : Nat) :
    ∀ (l : List Syscall) (a b i j : Nat) (v : Syscall),
      j + 2 ≤ i + fuel → a + 1 ≤ i → i ≤ j + 1 → j ≤ b - 1 → a < b → b ≤ l.length →
      lGet l a = v →
      (∀ k, a + 1 ≤ k → k < i → (lGet l k).num ≤ v.num) →
      (∀ k, j < k → k < b → v.num < (lGet l k).num) →
      StepOK (a+1) b l (peqLoop fuel l a i j).1
      ∧ a + 1 ≤ (peqLoop fuel l a i j).2 ∧ (peqLoop fuel l a i j).2 ≤ b
      ∧ (∀ k, a + 1 ≤ k → k < (peqLoop fuel l a i j).2 →
          (lGet (peqLoop fuel l a i j).1 k).num ≤ v.num)
      ∧ (∀ k, (peqLoop fuel l a i j).2 ≤ k → k < b →
          v.num < (lGet (peqLoop fuel l a i j).1 k).num) := by
  induction fuel with
  | zero =>
    intro l a b i j v hfuel hai hij hjb hab hb hva hp3 hp4
    exact absurd hij (by omega)
  | succ fuel ih =>
    intro l a b i j v hfuel hai hij hjb hab hb hva hp3 hp4
    unfold peqLoop
    dsimp only
    obtain ⟨ha1, ha2, ha3, ha4⟩ :=
      peqAdvI_spec (j + 1 - i) l a i j (by omega) hij
    set i1 := peqAdvI (j + 1 - i) l a i j with hi1def
    obtain ⟨hr1, hr2, hr3, hr4⟩ :=
      peqRetJ_spec (j + 1 - i1) l a i1 j (by omega) ha2 (by omega)
    set j1 := peqRetJ (j + 1 - i1) l a i1 j with hj1def
    have hleft1 : ∀ k, a + 1 ≤ k → k < i1 → (lGet l k).num ≤ v.num := by
      intro k hk1 hk2
      rcases Nat.lt_or_ge k i with hk | hk
      · exact hp3 k hk1 hk
      · have := numLess_eq_false.mp (ha3 k hk hk2)
        rw [hva] at this
        exact this
    have hright1 : ∀ k, j1 < k → k < b → v.num < (lGet l k).num := by
      intro k hk1 hk2
      rcases Nat.lt_or_ge j k with hk | hk
      · exact hp4 k hk hk2
      · have := numLess_eq_true.mp (hr3 k hk1 hk)
        rw [hva] at this
        exact this
    split
    · rename_i hexit
      dsimp only
      refine ⟨stepOK_refl _ _ l, by omega, by omega, hleft1, ?_⟩
      intro k hk1 hk2
      exact hright1 k (by omega) hk2
    · rename_i hexit
      have hi1j1 : i1 ≤ j1 := by omega
      have hvi1 : v.num < (lGet l i1).num := by
        have := numLess_eq_true.mp (ha4 (by omega))
        rw [hva] at this
        exact this
      have hvj1 : (lGet l j1).num ≤ v.num := by
        have := numLess_eq_false.mp (hr4 hi1j1)
        rw [hva] at this
        exact this
      have hi1lt : i1 < j1 := by
        rcases Nat.lt_or_ge i1 j1 with h | h
        · exact h
        · have heq : i1 = j1 := by omega
          rw [heq] at hvi1
          omega
      have hi1len : i1 < l.length := by omega
      have hj1len : j1 < l.length := by omega
      have hgl : lGet (lSwap l i1 j1) i1 = lGet l j1 := lGet_lSwap_left l i1 j1 hi1len hj1len
      have hgr : lGet (lSwap l i1 j1) j1 = lGet l i1 := lGet_lSwap_right l i1 j1 hi1len hj1len
      have hgo : ∀ k, k ≠ i1 → k ≠ j1 → lGet (lSwap l i1 j1) k = lGet l k :=
        fun k h1 h2 => lGet_lSwap_ne l i1 j1 k h1 h2
      have hrec := ih (lSwap l i1 j1) a b (i1+1) (j1-1) v (by omega) (by omega) (by omega)
        (by omega) hab (by rw [lSwap_length]; exact hb)
        (by rw [hgo a (by omega) (by omega)]; exact hva)
        (by
          intro k hk1 hk2
          rcases Nat.lt_or_ge k i1 with hk | hk
          · rw [hgo k (by omega) (by omega)]
            exact hleft1 k hk1 hk
          · have hki : k = i1 := by omega
            rw [hki, hgl]
            exact hvj1)
        (by
          intro k hk1 hk2
          rcases Nat.lt_or_ge j1 k with hk | hk
          · rw [hgo k (by omega) (by omega)]
            exact hright1 k hk hk2
          · have hkj : k = j1 := by omega
            rw [hkj, hgr]
            exact hvi1)
      obtain ⟨hq1, hq2, hq3, hq4, hq5⟩ := hrec
      exact ⟨stepOK_trans
        (lSwap_stepOK l (a+1) b i1 j1 (by omega) (by omega) (by omega) (by omega)) hq1,
        hq2, hq3, hq4, hq5⟩

theorem partitionEqualGo_spec (l : List Syscall) (a b pivot : Nat)
    (hab : a < b) (hb : b ≤ l.length) (hpa : a ≤ pivot) (hpb : pivot < b) :
    StepOK a b l (partitionEqualGo l a b pivot).1
    ∧ a + 1 ≤ (partitionEqualGo l a b pivot).2 ∧ (partitionEqualGo l a b pivot).2 ≤ b
    ∧ (∀ k, a ≤ k → k < (partitionEqualGo l a b pivot).2 →
        (lGet (partitionEqualGo l a b pivot).1 k).num ≤ (lGet l pivot).num)
    ∧ (∀ k, (partitionEqualGo l a b pivot).2 ≤ k → k < b →
        (lGet l pivot).num < (lGet (partitionEqualGo l a b pivot).1 k).num) := by
  unfold partitionEqualGo
  have hlen0 : (lSwap l a pivot).length = l.length := lSwap_length l a pivot
  have hv0 : lGet (lSwap l a pivot) a = lGet l pivot :=
    lGet_lSwap_left l a pivot (by omega) (by omega)
  have hstep0 : StepOK a b l (lSwap l a pivot) :=
    lSwap_stepOK l a b a pivot (le_refl a) hab hpa hpb
  have hspec := peqLoop_spec (b - a + 1) (lSwap l a pivot) a b (a+1) (b-1)
    (lGet l pivot) (by omega) (le_refl _) (by omega) (by omega) hab
    (by rw [hlen0]; exact hb) hv0
    (fun k hk1 hk2 => absurd hk1 (by omega))
    (fun k hk1 hk2 => absurd hk1 (by omega))
  obtain ⟨hq1, hq2, hq3, hq4, hq5⟩ := hspec
  set res := peqLoop (b - a + 1) (lSwap l a pivot) a (a+1) (b-1) with hres
  have hresa : lGet res.1 a = lGet l pivot := by
    rw [hq1.2 a (Or.inl (by omega)), hv0]
  refine ⟨stepOK_trans hstep0 (stepOK_widen (by omega) (le_refl b) hq1),
    hq2, hq3, ?_, hq5⟩
  intro k hk1 hk2
  rcases Nat.lt_or_ge a k with hk | hk
  · exact hq4 k (by omega) hk2
  · have hka : k = a := by omega
    rw [hka, hresa]

theorem isDesc_self (r : Nat) : isDesc r r = true := by
  unfold isDesc
  simp

theorem isDesc_lt (r k : Nat) (h : k < r) : isDesc r k = false := by
  unfold isDesc
  rw [dif_pos (by omega)]
  simp
  omega

theorem isDesc_step (r k : Nat) (h : r < k) : isDesc r k = isDesc r ((k-1)/2) := by
  conv_lhs => unfold isDesc
  rw [dif_neg (by omega)]

theorem isDesc_le (r : Nat) : ∀ k, isDesc r k = true → r ≤ k := by
  intro k
  induction k using Nat.strong_induction_on with
  | _ k ih =>
    intro h
    by_cases hk : k ≤ r
    · unfold isDesc at h
      rw [dif_pos hk] at h
      simp at h
      omega
    · omega

theorem isDesc_child (r k c : Nat) (h : isDesc r k = true)
    (hc : c = 2*k+1 ∨ c = 2*k+2) : isDesc r c = true := by
  have hrk : r ≤ k := isDesc_le r k h
  have hck : (c - 1) / 2 = k := by omega
  rw [isDesc_step r c (by omega), hck]
  exact h

theorem isDesc_trans (r b2 : Nat) (h1 : isDesc r b2 = true) :
    ∀ m, isDesc b2 m = true → isDesc r m = true := by
  intro m
  induction m using Nat.strong_induction_on with
  | _ m ih =>
    intro h2
    rcases Nat.lt_trichotomy m b2 with hm | hm | hm
    · rw [isDesc_lt b2 m hm] at h2
      exact absurd h2 (by simp)
    · rw [hm]
      exact h1
    · have hr : r ≤ b2 := isDesc_le r b2 h1
      rw [isDesc_step b2 m hm] at h2
      rw [isDesc_step r m (by omega)]
      exact ih ((m-1)/2) (by omega) h2

theorem heap_root_max (l : List Syscall) (first n : Nat)
    (hheap : ∀ k, k < n → HeapAt l first n k) :
    ∀ k, k < n → (lGet l (first + k)).num ≤ (lGet l (first + 0)).num := by
  intro k
  induction k using Nat.strong_induction_on with
  | _ k ih =>
    intro hk
    cases k with
    | zero => exact le_refl _
    | succ k0 =>
      have hp : (k0 + 1 - 1) / 2 < k0 + 1 := by omega
      have hchild : k0 + 1 = 2*((k0+1-1)/2)+1 ∨ k0 + 1 = 2*((k0+1-1)/2)+2 := by omega
      have h1 := hheap ((k0+1-1)/2) (by omega) (k0+1) hchild hk
      exact le_trans h1 (ih ((k0+1-1)/2) hp (by omega))

theorem siftDownLoop_succ (fuel : Nat) (l : List Syscall) (root hi first : Nat)
    (hlt : 2*root+1 < hi) :
    siftDownLoop (fuel+1) l root hi first =
      if 2*root+2 < hi && numLess l (first+(2*root+1)) (first+(2*root+2))
      then (if numLess l (first+root) (first+(2*root+2))
            then siftDownLoop fuel (lSwap l (first+root) (first+(2*root+2))) (2*root+2) hi first
            else l)
      else (if numLess l (first+root) (first+(2*root+1))
            then siftDownLoop fuel (lSwap l (first+root) (first+(2*root+1))) (2*root+1) hi first
            else l) := by
  conv_lhs => unfold siftDownLoop
  dsimp only
  rw [if_neg (show ¬ hi ≤ 2*root+1 by omega)]
  rw [(show (2:Nat)*root+1+1 = 2*root+2 by omega)]
  rw [(show first+(2*root+1)+1 = first+(2*root+2) by omega)]
  split
  · cases hn : numLess l (first+root) (first+(2*root+2)) <;> simp [hn]
  · cases hn : numLess l (first+root) (first+(2*root+1)) <;> simp [hn]

theorem siftDownLoop_spec (fuel : Nat) :
    ∀ (l : List Syscall) (root hi first : Nat),
      hi ≤ root + fuel → first + hi ≤ l.length →
      (∀ k, root < k → k < hi → HeapAt l first hi k) →
      StepOK (first + root) (first + hi) l (siftDownLoop fuel l root hi first)
      ∧ (∀ m, m < hi → isDesc root m = false →
          lGet (siftDownLoop fuel l root hi first) (first + m) = lGet l (first + m))
      ∧ (∀ k, root ≤ k → k < hi →
          HeapAt (siftDownLoop fuel l root hi first) first hi k)
      ∧ (∀ ub : Int, (lGet l (first + root)).num ≤ ub →
          (∀ c, (c = 2*root+1 ∨ c = 2*root+2) → c < hi →
            (lGet l (first + c)).num ≤ ub) →
          (lGet (siftDownLoop fuel l root hi first) (first + root)).num ≤ ub) := by
  induction fuel with
  | zero =>
    intro l root hi first hfuel hlen hpre
    unfold siftDownLoop
    refine ⟨stepOK_refl _ _ l, fun m hm hd => rfl, ?_, fun ub h1 h2 => h1⟩
    intro k hk1 hk2
    intro c hc hchi
    exact absurd hk2 (by omega)
  | succ fuel ih =>
    intro l root hi first hfuel hlen hpre
    by_cases hc1 : hi ≤ 2*root+1
    · -- no children in range: nothing to do
      unfold siftDownLoop
      dsimp only
      rw [if_pos hc1]
      refine ⟨stepOK_refl _ _ l, fun m hm hd => rfl, ?_, fun ub h1 h2 => h1⟩
      intro k hk1 hk2
      rcases Nat.lt_or_ge root k with hk | hk
      · exact hpre k hk hk2
      · have hkr : k = root := by omega
        rw [hkr]
        intro c hc hchi
        exact absurd hchi (by omega)
    · rw [siftDownLoop_succ fuel l root hi first (by omega)]
      have key : ∀ ch, (ch = 2*root+1 ∨ ch = 2*root+2) → ch < hi →
          (∀ c, (c = 2*root+1 ∨ c = 2*root+2) → c < hi →
            (lGet l (first + c)).num ≤ (lGet l (first + ch)).num) →
          (StepOK (first + root) (first + hi) l
            (if numLess l (first+root) (first+ch)
             then siftDownLoop fuel (lSwap l (first+root) (first+ch)) ch hi first
             else l)
          ∧ (∀ m, m < hi → isDesc root m = false →
              lGet (if numLess l (first+root) (first+ch)
                then siftDownLoop fuel (lSwap l (first+root) (first+ch)) ch hi first
                else l) (first + m) = lGet l (first + m))
          ∧ (∀ k, root ≤ k → k < hi →
              HeapAt (if numLess l (first+root) (first+ch)
                then siftDownLoop fuel (lSwap l (first+root) (first+ch)) ch hi first
                else l) first hi k)
          ∧ (∀ ub : Int, (lGet l (first + root)).num ≤ ub →
              (∀ c, (c = 2*root+1 ∨ c = 2*root+2) → c < hi →
                (lGet l (first + c)).num ≤ ub) →
              (lGet (if numLess l (first+root) (first+ch)
                then siftDownLoop fuel (lSwap l (first+root) (first+ch)) ch hi first
                else l) (first + root)).num ≤ ub)) := by
        intro ch hchcases hchhi hmaxsel
        have hchroot : root < ch := by omega
        cases hswap : numLess l (first+root) (first+ch) with
        | false =>
          rw [if_neg (by simp)]
          rw [numLess_eq_false] at hswap
          refine ⟨stepOK_refl _ _ l, fun m hm hd => rfl, ?_, fun ub h1 h2 => h1⟩
          intro k hk1 hk2
          rcases Nat.lt_or_ge root k with hk | hk
          · exact hpre k hk hk2
          · have hkr : k = root := by omega
            rw [hkr]
            intro c hc hchi2
            exact le_trans (hmaxsel c hc hchi2) hswap
        | true =>
          rw [if_pos rfl]
          rw [numLess_eq_true] at hswap
          have hrootlen : first + root < l.length := by omega
          have hchlen : first + ch < l.length := by omega
          have hgl : lGet (lSwap l (first+root) (first+ch)) (first+root) = lGet l (first+ch) :=
            lGet_lSwap_left l (first+root) (first+ch) hrootlen hchlen
          have hgr : lGet (lSwap l (first+root) (first+ch)) (first+ch) = lGet l (first+root) :=
            lGet_lSwap_right l (first+root) (first+ch) hrootlen hchlen
          have hgo : ∀ m, m ≠ root → m ≠ ch →
              lGet (lSwap l (first+root) (first+ch)) (first + m) = lGet l (first + m) := by
            intro m h1 h2
            exact lGet_lSwap_ne l (first+root) (first+ch) (first+m) (by omega) (by omega)
          have hpre1 : ∀ k, ch < k → k < hi →
              HeapAt (lSwap l (first+root) (first+ch)) first hi k := by
            intro k hk1 hk2 c hc hchi2
            have hcc : c ≠ root := by
              have : 2*k+1 ≤ c := by omega
              omega
            have hcch : c ≠ ch := by omega
            rw [hgo k (by omega) (by omega), hgo c hcc hcch]
            exact hpre k (by omega) hk2 c hc hchi2
          have hrec := ih (lSwap l (first+root) (first+ch)) ch hi first (by omega)
            (by rw [lSwap_length]; exact hlen) hpre1
          obtain ⟨hs1, hs2, hs3, hs4⟩ := hrec
          set l2 := siftDownLoop fuel (lSwap l (first+root) (first+ch)) ch hi first with hl2
          have hrootfix : lGet l2 (first + root) = lGet l (first + ch) := by
            rw [hs2 root (by omega) (isDesc_lt ch root hchroot), hgl]
          have hchbound : (lGet l2 (first + ch)).num ≤ (lGet l (first + ch)).num := by
            apply hs4 ((lGet l (first + ch)).num)
            · rw [hgr]
              omega
            · intro c hc hchi2
              have hcr : c ≠ root := by omega
              have hcch : c ≠ ch := by omega
              rw [hgo c hcr hcch]
              exact hpre ch (by omega) hchhi c (by omega) hchi2
          refine ⟨?_, ?_, ?_, ?_⟩
          · exact stepOK_trans
              (lSwap_stepOK l (first+root) (first+hi) (first+root) (first+ch)
                (le_refl _) (by omega) (by omega) (by omega))
              (stepOK_widen (by omega) (le_refl _) hs1)
          · intro m hm hd
            have hmr : m ≠ root := by
              intro h
              rw [h] at hd
              rw [isDesc_self] at hd
              exact Bool.noConfusion hd
            have hmch : m ≠ ch := by
              intro h
              rw [h] at hd
              rw [isDesc_step root ch hchroot] at hd
              have : (ch - 1) / 2 = root := by omega
              rw [this, isDesc_self] at hd
              exact Bool.noConfusion hd
            have hmdesc : isDesc ch m = false := by
              rcases Bool.eq_false_or_eq_true (isDesc ch m) with h | h
              · have hdesc : isDesc root ch = true := by
                  rw [isDesc_step root ch hchroot]
                  have : (ch - 1) / 2 = root := by omega
                  rw [this]
                  exact isDesc_self root
                rw [isDesc_trans root ch hdesc m h] at hd
                exact Bool.noConfusion hd
              · exact h
            rw [hs2 m hm hmdesc, hgo m hmr hmch]
          · intro k hk1 hk2
            rcases Nat.lt_or_ge k ch with hk | hk
            · rcases Nat.lt_or_ge root k with hkr | hkr
              · -- the sibling strictly between root and ch: untouched, children untouched
                intro c hc hchi2
                have hcgt : ch < c := by omega
                have hcdesc : isDesc ch c = false := by
                  rw [isDesc_step ch c hcgt]
                  have : (c - 1) / 2 = k := by omega
                  rw [this]
                  exact isDesc_lt ch k hk
                have hkdesc : isDesc ch k = false := isDesc_lt ch k hk
                rw [hs2 c hchi2 hcdesc, hs2 k (by omega) hkdesc, hgo c (by omega) (by omega), hgo k (by omega) (by omega)]
                exact hpre k hkr hk2 c hc hchi2
              · have hkr2 : k = root := by omega
                rw [hkr2]
                intro c hc hchi2
                rw [hrootfix]
                rcases Nat.lt_trichotomy c ch with hcc | hcc | hcc
                · have hcdesc : isDesc ch c = false := isDesc_lt ch c hcc
                  rw [hs2 c hchi2 hcdesc, hgo c (by omega) (by omega)]
                  exact hmaxsel c hc hchi2
                · rw [hcc]
                  exact hchbound
                · have hcdesc : isDesc ch c = false := by
                    rw [isDesc_step ch c hcc]
                    have : (c - 1) / 2 = root := by omega
                    rw [this]
                    exact isDesc_lt ch root hchroot
                  rw [hs2 c hchi2 hcdesc, hgo c (by omega) (by omega)]
                  exact hmaxsel c hc hchi2
            · exact hs3 k hk hk2
          · intro ub h1 h2
            rw [hrootfix]
            exact h2 ch hchcases hchhi
      split
      · rename_i hsel
        simp only [Bool.and_eq_true, decide_eq_true_eq, numLess_eq_true] at hsel
        apply key (2*root+2) (Or.inr rfl) hsel.1
        intro c hc hchi2
        rcases hc with hc | hc
        · rw [hc]
          have := hsel.2
          omega
        · rw [hc]
      · rename_i hsel
        simp only [Bool.and_eq_true, decide_eq_true_eq, numLess_eq_true, not_and,
          Int.not_lt] at hsel
        apply key (2*root+1) (Or.inl rfl) (by omega)
        intro c hc hchi2
        rcases hc with hc | hc
        · rw [hc]
        · rw [hc] at hchi2 ⊢
          exact hsel (by omega)

theorem heapBuildLoop_spec (fuel : Nat) :
    ∀ (l : List Syscall) (i hi first : Nat),
      fuel = i + 1 → first + hi ≤ l.length →
      (∀ k, i < k → k < hi → HeapAt l first hi k) →
      StepOK first (first + hi) l (heapBuildLoop fuel l i hi first)
      ∧ ∀ k, k < hi → HeapAt (heapBuildLoop fuel l i hi first) first hi k := by
  induction fuel with
  | zero =>
    intro l i hi first hf
    exact absurd hf (by omega)
  | succ fuel ih =>
    intro l i hi first hf hlen hpre
    unfold heapBuildLoop
    simp only [siftDownGo]
    obtain ⟨hs1, _, hs3, _⟩ := siftDownLoop_spec hi l i hi first (by omega) hlen hpre
    set l1 := siftDownLoop hi l i hi first with hl1
    have hstep1 : StepOK first (first + hi) l l1 :=
      stepOK_widen (by omega) (le_refl _) hs1
    rcases Nat.eq_zero_or_pos i with hi0 | hi0
    · subst hi0
      have hf0 : fuel = 0 := by omega
      subst hf0
      unfold heapBuildLoop
      exact ⟨hstep1, fun k hk => hs3 k (Nat.zero_le k) hk⟩
    · have hrec := ih l1 (i-1) hi first (by omega)
        (by rw [stepOK_length hstep1]; exact hlen)
        (by
          intro k hk1 hk2
          exact hs3 k (by omega) hk2)
      exact ⟨stepOK_trans hstep1 hrec.1, hrec.2⟩

theorem heapPopLoop_spec (fuel : Nat) :
    ∀ (l : List Syscall) (i first hi0 : Nat),
      fuel = i + 1 → i < hi0 → first + hi0 ≤ l.length →
      (∀ k, k < i+1 → HeapAt l first (i+1) k) →
      SortedSeg l (first + i + 1) (first + hi0) →
      (∀ p q, p < i+1 → i+1 ≤ q → q < hi0 →
        (lGet l (first+p)).num ≤ (lGet l (first+q)).num) →
      StepOK first (first + i + 1) l (heapPopLoop fuel l i first)
      ∧ SortedSeg (heapPopLoop fuel l i first) first (first + hi0) := by
  induction fuel with
  | zero =>
    intro l i first hi0 hf
    exact absurd hf (by omega)
  | succ fuel ih =>
    intro l i first hi0 hf hihi0 hlen hheap htail hsplit
    unfold heapPopLoop
    simp only [siftDownGo]
    have hfl : first < l.length := by omega
    have hil : first + i < l.length := by omega
    set l1 := lSwap l first (first+i) with hl1
    have hswapstep : StepOK first (first + i + 1) l l1 :=
      lSwap_stepOK l first (first+i+1) first (first+i) (le_refl _) (by omega) (by omega)
        (by omega)
    have hlen1 : l1.length = l.length := lSwap_length l first (first+i)
    have hg1 : lGet l1 first = lGet l (first+i) := lGet_lSwap_left l first (first+i) hfl hil
    have hg2 : lGet l1 (first+i) = lGet l first := lGet_lSwap_right l first (first+i) hfl hil
    have hgo : ∀ m, m ≠ first → m ≠ first + i → lGet l1 m = lGet l m := by
      intro m h1 h2
      exact lGet_lSwap_ne l first (first+i) m h1 h2
    have hrm : ∀ k, k < i + 1 → (lGet l (first+k)).num ≤ (lGet l first).num := by
      intro k hk
      have := heap_root_max l first (i+1) hheap k hk
      rw [Nat.add_zero] at this
      exact this
    have hpre1 : ∀ k, 0 < k → k < i → HeapAt l1 first i k := by
      intro k hk1 hk2 c hc hchi
      rw [hgo (first + k) (by omega) (by omega), hgo (first + c) (by omega) (by omega)]
      exact hheap k (by omega) c hc (by omega)
    obtain ⟨hs1, _, hs3, _⟩ := siftDownLoop_spec i l1 0 i first (by omega)
      (by rw [hlen1]; omega) hpre1
    set l2 := siftDownLoop i l1 0 i first with hl2
    have hlen2 : l2.length = l.length := by
      rw [stepOK_length hs1, hlen1]
    have hfr : ∀ m, first + i ≤ m → lGet l2 m = lGet l1 m := by
      intro m hm
      exact hs1.2 m (Or.inr hm)
    have hroot : lGet l2 (first + i) = lGet l first := by
      rw [hfr (first+i) (le_refl _), hg2]
    have hfar : ∀ m, first + i < m → lGet l2 m = lGet l m := by
      intro m hm
      rw [hfr m (by omega), hgo m (by omega) (by omega)]
    have hrootle : ∀ q, i ≤ q → q < hi0 → (lGet l first).num ≤ (lGet l2 (first+q)).num := by
      intro q hq1 hq2
      rcases Nat.eq_or_lt_of_le hq1 with hq | hq
      · rw [← hq, hroot]
      · rw [hfar (first+q) (by omega)]
        have := hsplit 0 q (by omega) (by omega) hq2
        rw [Nat.add_zero] at this
        exact this
    have htail2 : SortedSeg l2 (first + i) (first + hi0) := by
      intro p q hp hpq hq
      rcases Nat.eq_or_lt_of_le hp with hpi | hpi
      · rw [← hpi, hroot]
        have : q = first + (q - first) := by omega
        rw [this]
        exact hrootle (q - first) (by omega) (by omega)
      · rw [hfar p (by omega), hfar q (by omega)]
        exact htail p q (by omega) hpq hq
    have hheapvals : ∀ p, p < i → (lGet l2 (first+p)).num ≤ (lGet l first).num := by
      intro p hp
      have hmemp : lGet l2 (first+p) ∈ seg l2 (first+0) (first+i) :=
        lGet_mem_seg l2 (first+0) (first+i) (first+p) (by omega) (by omega) (by omega)
      have hperm : seg l2 (first+0) (first+i) ~ seg l1 (first+0) (first+i) :=
        seg_perm_of_stepOK hs1
      have hmem1 : lGet l2 (first+p) ∈ seg l1 (first+0) (first+i) := hperm.mem_iff.mp hmemp
      obtain ⟨k, hk1, hk2, hk3, hk4⟩ := mem_seg hmem1
      rw [hk4]
      rcases Nat.eq_or_lt_of_le (show first ≤ k by omega) with hkf | hkf
      · rw [← hkf, hg1]
        exact hrm i (by omega)
      · rw [hgo k (by omega) (by omega)]
        have : k = first + (k - first) := by omega
        rw [this]
        exact hrm (k - first) (by omega)
    rcases Nat.eq_zero_or_pos i with hi0z | hipos
    · subst hi0z
      have hf0 : fuel = 0 := by omega
      subst hf0
      unfold heapPopLoop
      refine ⟨?_, ?_⟩
      · exact stepOK_trans hswapstep (stepOK_widen (by omega) (by omega) hs1)
      · intro p q hp hpq hq
        exact htail2 p q (by omega) hpq hq
    · have hrec := ih l2 (i-1) first hi0 (by omega) (by omega) (by omega)
        (by
          have hidx : i - 1 + 1 = i := by omega
          rw [hidx]
          exact hs3 0 (Nat.zero_le 0) |> fun _ => (fun k hk => hs3 k (Nat.zero_le k) hk))
        (by
          have hidx : first + (i - 1) + 1 = first + i := by omega
          rw [hidx]
          exact htail2)
        (by
          have hidx : i - 1 + 1 = i := by omega
          rw [hidx]
          intro p q hp hq1 hq2
          exact le_trans (hheapvals p hp) (hrootle q hq1 hq2))
      refine ⟨?_, hrec.2⟩
      exact stepOK_trans hswapstep
        (stepOK_trans (stepOK_widen (by omega) (by omega) hs1)
          (stepOK_widen (le_refl _) (by omega) hrec.1))

theorem heapSortGo_spec (l : List Syscall) (a b : Nat) (hab : a < b) (hb : b ≤ l.length) :
    StepOK a b l (heapSortGo l a b) ∧ SortedSeg (heapSortGo l a b) a b := by
  unfold heapSortGo
  dsimp only
  set hi := b - a with hhi
  have he : a + hi = b := by omega
  obtain ⟨hb1, hb2⟩ := heapBuildLoop_spec ((hi-1)/2 + 1) l ((hi-1)/2) hi a rfl (by omega)
    (by
      intro k hk1 hk2 c hc hchi
      exact absurd hchi (by omega))
  set lB := heapBuildLoop ((hi-1)/2 + 1) l ((hi-1)/2) hi a with hlB
  obtain ⟨hp1, hp2⟩ := heapPopLoop_spec hi lB (hi-1) a hi (by omega) (by omega)
    (by rw [stepOK_length hb1]; omega)
    (by
      have hidx : hi - 1 + 1 = hi := by omega
      rw [hidx]
      exact hb2)
    (by
      apply sortedSeg_small
      omega)
    (by
      intro p q hp hq1 hq2
      exact absurd (by omega : q < q) (lt_irrefl q))
  have he2 : a + (hi - 1) + 1 = b := by omega
  rw [he2] at hp1
  rw [he] at hp2 hb1
  exact ⟨stepOK_trans hb1 hp1, hp2⟩

theorem pisScan_spec (fuel : Nat) :
    ∀ (l : List Syscall) (i a b : Nat), fuel = b - i → a < i → i ≤ b →
      SortedSeg l a i →
      i ≤ pisScan fuel l i ∧ pisScan fuel l i ≤ b ∧
      SortedSeg l a (pisScan fuel l i) ∧
      (pisScan fuel l i < b → numLess l (pisScan fuel l i) (pisScan fuel l i - 1) = true) := by
  induction fuel with
  | zero =>
    intro l i a b hf ha hib hs
    unfold pisScan
    have hib2 : i = b := by omega
    exact ⟨le_refl i, by omega, hs, fun h => absurd h (by omega)⟩
  | succ fuel ih =>
    intro l i a b hf ha hib hs
    unfold pisScan
    cases hlt : numLess l i (i-1) with
    | true =>
      rw [if_pos rfl]
      exact ⟨le_refl i, hib, hs, fun _ => hlt⟩
    | false =>
      rw [if_neg (by simp)]
      rw [numLess_eq_false] at hlt
      have hs2 : SortedSeg l a (i+1) := by
        intro p q hp hpq hq
        rcases Nat.lt_or_ge q i with hqi | hqi
        · exact hs p q hp hpq hqi
        · have hqj : q = i := by omega
          rcases Nat.lt_or_ge p i with hpi | hpi
          · rw [hqj]
            exact le_trans (hs p (i-1) hp (by omega) (by omega)) hlt
          · have hpj : p = i := by omega
            rw [hpj, hqj]
      have hrec := ih l (i+1) a b (by omega) (by omega) (by omega) hs2
      exact ⟨by omega, hrec.2.1, hrec.2.2.1, hrec.2.2.2⟩

theorem pisShiftL_spec (fuel : Nat) :
    ∀ (l : List Syscall) (j a i1 : Nat),
      a ≤ j → j ≤ i1 → j ≤ fuel → i1 < l.length →
      SortedSeg l a j →
      SortedSeg l j (i1+1) →
      (∀ p q, a ≤ p → p < j → j < q → q ≤ i1 → (lGet l p).num ≤ (lGet l q).num) →
      (0 < a → (lGet l (a-1)).num ≤ (lGet l j).num) →
      StepOK a (i1+1) l (pisShiftL fuel l j)
      ∧ SortedSeg (pisShiftL fuel l j) a (i1+1) := by
  induction fuel with
  | zero =>
    intro l j a i1 haj hji hjf hlen h1 h2 h3 hlow
    unfold pisShiftL
    have hj0 : j = 0 := by omega
    have ha0 : a = 0 := by omega
    subst hj0
    subst ha0
    exact ⟨stepOK_refl _ _ l, h2⟩
  | succ fuel ih =>
    intro l j a i1 haj hji hjf hlen h1 h2 h3 hlow
    unfold pisShiftL
    by_cases hj0 : j = 0
    · rw [if_pos hj0]
      have ha0 : a = 0 := by omega
      subst hj0
      subst ha0
      exact ⟨stepOK_refl _ _ l, h2⟩
    · rw [if_neg hj0]
      cases hlt : numLess l j (j-1) with
      | false =>
        rw [if_pos (show (!false) = true from rfl)]
        rw [numLess_eq_false] at hlt
        refine ⟨stepOK_refl _ _ l, ?_⟩
        intro p q hp hpq hq
        rcases Nat.lt_or_ge p j with hpj | hpj
        · rcases Nat.lt_or_ge q j with hqj | hqj
          · exact h1 p q hp hpq hqj
          · rcases Nat.eq_or_lt_of_le hqj with hqj2 | hqj2
            · rw [← hqj2]
              exact le_trans (h1 p (j-1) hp (by omega) (by omega)) hlt
            · exact h3 p q hp hpj hqj2 (by omega)
        · exact h2 p q hpj hpq hq
      | true =>
        rw [if_neg (by simp)]
        rw [numLess_eq_true] at hlt
        -- the boundary check: if j = a then a > 0 and hlow contradicts hlt
        by_cases hja : j = a
        · exfalso
          have h0a : 0 < a := by omega
          have hlb := hlow h0a
          rw [hja] at hlt hlb
          omega
        · have hja2 : a < j := by omega
          have hjlen : j < l.length := by omega
          have hj1len : j - 1 < l.length := by omega
          have hgl : lGet (lSwap l (j-1) j) (j-1) = lGet l j :=
            lGet_lSwap_left l (j-1) j hj1len hjlen
          have hgr : lGet (lSwap l (j-1) j) j = lGet l (j-1) :=
            lGet_lSwap_right l (j-1) j hj1len hjlen
          have hgo : ∀ m, m ≠ j-1 → m ≠ j → lGet (lSwap l (j-1) j) m = lGet l m := by
            intro m hm1 hm2
            exact lGet_lSwap_ne l (j-1) j m hm1 hm2
          have hrec := ih (lSwap l (j-1) j) (j-1) a i1 (by omega) (by omega) (by omega)
            (by rw [lSwap_length]; exact hlen)
            (by
              apply sortedSeg_congr (l := l)
              · intro k hk1 hk2
                exact hgo k (by omega) (by omega)
              · exact sortedSeg_mono (le_refl a) (by omega) h1)
            (by
              intro p q hp hpq hq
              rcases Nat.eq_or_lt_of_le hp with hpj | hpj
              · rw [← hpj, hgl]
                rcases Nat.eq_or_lt_of_le hpq with hq2 | hq2
                · rw [← hq2, ← hpj, hgl]
                · rcases Nat.eq_or_lt_of_le (show j ≤ q by omega) with hq3 | hq3
                  · rw [← hq3, hgr]
                    omega
                  · rw [hgo q (by omega) (by omega)]
                    exact h2 j q (le_refl j) (by omega) hq
              · rcases Nat.eq_or_lt_of_le (show j ≤ p by omega) with hp2 | hp2
                · rw [← hp2, hgr]
                  rcases Nat.eq_or_lt_of_le hpq with hq2 | hq2
                  · rw [← hq2, ← hp2, hgr]
                  · rw [hgo q (by omega) (by omega)]
                    exact h3 (j-1) q (by omega) (by omega) (by omega) (by omega)
                · rw [hgo p (by omega) (by omega), hgo q (by omega) (by omega)]
                  exact h2 p q (by omega) hpq hq)
            (by
              intro p q hp hpj hjq hq
              rw [hgo p (by omega) (by omega)]
              rcases Nat.eq_or_lt_of_le (show j ≤ q by omega) with hq2 | hq2
              · rw [← hq2, hgr]
                exact h1 p (j-1) hp (by omega) (by omega)
              · rw [hgo q (by omega) (by omega)]
                exact h3 p q hp (by omega) hq2 hq)
            (by
              intro h0a
              rw [hgo (a-1) (by omega) (by omega), hgl]
              exact hlow h0a)
          refine ⟨?_, hrec.2⟩
          exact stepOK_trans
            (lSwap_stepOK l a (i1+1) (j-1) j (by omega) (by omega) (by omega) (by omega))
            hrec.1

theorem pisShiftR_spec (fuel : Nat) :
    ∀ (l : List Syscall) (j lo b : Nat), lo < j → fuel = b - j →
      StepOK lo b l (pisShiftR fuel l j) := by
  induction fuel with
  | zero =>
    intro l j lo b hlo hf
    unfold pisShiftR
    exact stepOK_refl _ _ l
  | succ fuel ih =>
    intro l j lo b hlo hf
    unfold pisShiftR
    split
    · exact stepOK_refl _ _ l
    · exact stepOK_trans
        (lSwap_stepOK l lo b (j-1) j (by omega) (by omega) (by omega) (by omega))
        (ih (lSwap l (j-1) j) (j+1) lo b (by omega) (by omega))

theorem pisOuter_spec (steps : Nat) :
    ∀ (l : List Syscall) (a b i : Nat),
      a < i → i ≤ b → b ≤ l.length →
      SortedSeg l a i → HLow l a b →
      StepOK a b l (pisOuter steps l a b i).1
      ∧ ((pisOuter steps l a b i).2 = true → SortedSeg (pisOuter steps l a b i).1 a b) := by
  induction steps with
  | zero =>
    intro l a b i hai hib hlen hs hlow
    unfold pisOuter
    refine ⟨stepOK_refl _ _ l, ?_⟩
    intro h
    simp at h
  | succ steps ih =>
    intro l a b i hai hib hlen hs hlow
    unfold pisOuter
    dsimp only
    obtain ⟨hsc1, hsc2, hsc3, hsc4⟩ := pisScan_spec (b - i) l i a b rfl hai hib hs
    set i1 := pisScan (b - i) l i with hi1
    by_cases hib2 : i1 = b
    · rw [if_pos hib2]
      refine ⟨stepOK_refl _ _ l, ?_⟩
      intro _
      rw [hib2] at hsc3
      exact hsc3
    · rw [if_neg hib2]
      by_cases h50 : b - a < 50
      · rw [if_pos h50]
        refine ⟨stepOK_refl _ _ l, ?_⟩
        intro h
        simp at h
      · rw [if_neg h50]
        have hi1lt : i1 < b := by omega
        have hstop := hsc4 hi1lt
        rw [numLess_eq_true] at hstop
        have hi1a : a < i1 := by omega
        have hi1len : i1 < l.length := by omega
        have hi11len : i1 - 1 < l.length := by omega
        set l1 := lSwap l (i1-1) i1 with hl1
        have hgl : lGet l1 (i1-1) = lGet l i1 := lGet_lSwap_left l (i1-1) i1 hi11len hi1len
        have hgr : lGet l1 i1 = lGet l (i1-1) := lGet_lSwap_right l (i1-1) i1 hi11len hi1len
        have hgo : ∀ m, m ≠ i1-1 → m ≠ i1 → lGet l1 m = lGet l m := by
          intro m h1 h2
          exact lGet_lSwap_ne l (i1-1) i1 m h1 h2
        have hswapstep : StepOK a (i1+1) l l1 :=
          lSwap_stepOK l a (i1+1) (i1-1) i1 (by omega) (by omega) (by omega) (by omega)
        have hI2 : SortedSeg l1 (i1-1) (i1+1) := by
          intro p q hp hpq hq
          have hpc : p = i1 - 1 ∨ p = i1 := by omega
          have hqc : q = i1 - 1 ∨ q = i1 := by omega
          rcases hpc with hpc | hpc <;> rcases hqc with hqc | hqc <;> rw [hpc, hqc]
          · rw [hgl, hgr]
            exact le_of_lt hstop
          · exact absurd hpq (by omega)
        have hS : StepOK a (i1+1) l (if i1 - a ≥ 2 then pisShiftL i1 l1 (i1-1) else l1)
            ∧ SortedSeg (if i1 - a ≥ 2 then pisShiftL i1 l1 (i1-1) else l1) a (i1+1) := by
          by_cases hge2 : i1 - a ≥ 2
          · rw [if_pos hge2]
            obtain ⟨hL1, hL2⟩ := pisShiftL_spec i1 l1 (i1-1) a i1 (by omega) (by omega)
              (by omega) (by rw [hl1, lSwap_length]; omega)
              (by
                apply sortedSeg_congr (l := l)
                · intro k hk1 hk2
                  exact hgo k (by omega) (by omega)
                · exact sortedSeg_mono (le_refl a) (by omega) hsc3)
              hI2
              (by
                intro p q hp hpj hjq hq
                have hq2 : q = i1 := by omega
                rw [hq2, hgr, hgo p (by omega) (by omega)]
                exact hsc3 p (i1-1) hp (by omega) (by omega))
              (by
                intro h0a
                rw [hgo (a-1) (by omega) (by omega), hgl]
                exact hlow h0a (lGet l i1) (lGet_mem_seg l a b i1 (by omega) hi1lt hi1len))
            exact ⟨stepOK_trans hswapstep hL1, hL2⟩
          · rw [if_neg hge2]
            refine ⟨hswapstep, ?_⟩
            rw [(show a = i1 - 1 by omega)]
            exact hI2
        set l2 := if i1 - a ≥ 2 then pisShiftL i1 l1 (i1-1) else l1 with hl2
        obtain ⟨hS1, hS2⟩ := hS
        have hR : StepOK i1 b l2 (if b - i1 ≥ 2 then pisShiftR (b - (i1+1)) l2 (i1+1) else l2) := by
          by_cases hge2 : b - i1 ≥ 2
          · rw [if_pos hge2]
            exact pisShiftR_spec (b - (i1+1)) l2 (i1+1) i1 b (by omega) rfl
          · rw [if_neg hge2]
            exact stepOK_refl _ _ l2
        set l3 := if b - i1 ≥ 2 then pisShiftR (b - (i1+1)) l2 (i1+1) else l2 with hl3
        have hstep13 : StepOK a b l l3 :=
          stepOK_trans (stepOK_widen (le_refl a) (by omega) hS1)
            (stepOK_widen (by omega) (le_refl b) hR)
        have hrec := ih l3 a b i1 hi1a (by omega)
          (by rw [stepOK_length hstep13]; exact hlen)
          (by
            apply sortedSeg_congr (l := l2)
            · intro k hk1 hk2
              exact hR.2 k (Or.inl (by omega))
            · exact sortedSeg_mono (le_refl a) (by omega) hS2)
          (hLow_of_stepOK hstep13 hlow)
        exact ⟨stepOK_trans hstep13 hrec.1, hrec.2⟩

theorem reverseRangeLoop_stepOK (fuel : Nat) :
    ∀ (l : List Syscall) (i j a b : Nat), a ≤ i → j < b →
      StepOK a b l (reverseRangeLoop fuel l i j) := by
  induction fuel with
  | zero =>
    intro l i j a b hai hjb
    unfold reverseRangeLoop
    exact stepOK_refl _ _ l
  | succ fuel ih =>
    intro l i j a b hai hjb
    unfold reverseRangeLoop
    split
    · rename_i hij
      exact stepOK_trans
        (lSwap_stepOK l a b i j (by omega) (by omega) (by omega) (by omega))
        (ih (lSwap l i j) (i+1) (j-1) a b (by omega) (by omega))
    · exact stepOK_refl _ _ l

theorem reverseRangeGo_stepOK (l : List Syscall) (a b : Nat) (hab : a < b) :
    StepOK a b l (reverseRangeGo l a b) := by
  unfold reverseRangeGo
  exact reverseRangeLoop_stepOK (b - a) l a (b-1) a b (le_refl a) (by omega)

theorem breakOtherBound (length r : Nat) (h8 : 8 ≤ length) :
    (if r % (1 <<< bitsLen length) ≥ length then r % (1 <<< bitsLen length) - length
     else r % (1 <<< bitsLen length)) < length := by
  have hmod : 1 <<< bitsLen length ≤ 2 * length := by
    unfold bitsLen
    rw [if_neg (by omega)]
    rw [Nat.shiftLeft_eq, Nat.pow_succ]
    have := Nat.log2_self_le (n := length) (by omega)
    omega
  have hr : r % (1 <<< bitsLen length) < 1 <<< bitsLen length :=
    Nat.mod_lt r (by rw [Nat.shiftLeft_eq, Nat.one_mul]; exact Nat.pow_pos (by omega))
  split <;> omega

theorem breakPatternsGo_stepOK (l : List Syscall) (a b : Nat) :
    StepOK a b l (breakPatternsGo l a b) := by
  unfold breakPatternsGo
  dsimp only
  split
  · rename_i h8
    simp only [List.foldl_cons, List.foldl_nil]
    generalize xorshiftNext (b - a) = r1
    generalize xorshiftNext r1 = r2
    generalize xorshiftNext r2 = r3
    have hidx : a + 2 ≤ a + (b - a) / 4 * 2 - 1 ∧ a + (b - a) / 4 * 2 - 1 + 1 < b := by
      constructor <;> omega
    have hb1 := breakOtherBound (b - a) r1 (by omega)
    have hb2 := breakOtherBound (b - a) r2 (by omega)
    have hb3 := breakOtherBound (b - a) r3 (by omega)
    refine stepOK_trans
      (lSwap_stepOK _ a b _ _ (by omega) (by omega) (by omega) (by omega))
      (stepOK_trans
        (lSwap_stepOK _ a b _ _ (by omega) (by omega) (by omega) (by omega))
        (lSwap_stepOK _ a b _ _ (by omega) (by omega) (by omega) (by omega)))
  · exact stepOK_refl _ _ l

theorem order2Go_fst (l : List Syscall) (a b s : Nat) :
    (order2Go l a b s).1 = a ∨ (order2Go l a b s).1 = b := by
  unfold order2Go
  split
  · right
    rfl
  · left
    rfl

theorem order2Go_snd (l : List Syscall) (a b s : Nat) :
    (order2Go l a b s).2.1 = a ∨ (order2Go l a b s).2.1 = b := by
  unfold order2Go
  split
  · left
    rfl
  · right
    rfl

theorem medianGo_fst (l : List Syscall) (a b c s : Nat) :
    (medianGo l a b c s).1 = a ∨ (medianGo l a b c s).1 = b ∨ (medianGo l a b c s).1 = c := by
  unfold medianGo
  dsimp only
  have h1 := order2Go_fst l a b s
  have h2 := order2Go_snd l a b s
  have h3 := order2Go_fst l (order2Go l a b s).2.1 c (order2Go l a b s).2.2
  have h4 := order2Go_snd l (order2Go l a b s).1
    (order2Go l (order2Go l a b s).2.1 c (order2Go l a b s).2.2).1
    (order2Go l (order2Go l a b s).2.1 c (order2Go l a b s).2.2).2.2
  rcases h4 with h4 | h4 <;> rw [h4]
  · rcases h1 with h1 | h1 <;> rw [h1] <;> tauto
  · rcases h3 with h3 | h3
    · rw [h3]
      rcases h2 with h2 | h2 <;> rw [h2] <;> tauto
    · rw [h3]
      tauto

theorem medianAdjacentGo_fst (l : List Syscall) (i s : Nat) :
    (medianAdjacentGo l i s).1 = i - 1 ∨ (medianAdjacentGo l i s).1 = i ∨
    (medianAdjacentGo l i s).1 = i + 1 := by
  unfold medianAdjacentGo
  exact medianGo_fst l (i-1) i (i+1) s

theorem choosePivotGo_mem (l : List Syscall) (a b : Nat) (h8 : 8 ≤ b - a) :
    a ≤ (choosePivotGo l a b).1 ∧ (choosePivotGo l a b).1 < b := by
  unfold choosePivotGo
  dsimp only
  rw [if_pos (show b - a ≥ 8 from h8)]
  by_cases h50 : b - a ≥ 50
  · rw [if_pos h50]
    dsimp only
    have h1 := medianAdjacentGo_fst l (a + (b - a) / 4 * 1) 0
    have h2 := medianAdjacentGo_fst l (a + (b - a) / 4 * 2)
      (medianAdjacentGo l (a + (b - a) / 4 * 1) 0).2
    have h3 := medianAdjacentGo_fst l (a + (b - a) / 4 * 3)
      (medianAdjacentGo l (a + (b - a) / 4 * 2)
        (medianAdjacentGo l (a + (b - a) / 4 * 1) 0).2).2
    have hm := medianGo_fst l
      (medianAdjacentGo l (a + (b - a) / 4 * 1) 0).1
      (medianAdjacentGo l (a + (b - a) / 4 * 2)
        (medianAdjacentGo l (a + (b - a) / 4 * 1) 0).2).1
      (medianAdjacentGo l (a + (b - a) / 4 * 3)
        (medianAdjacentGo l (a + (b - a) / 4 * 2)
          (medianAdjacentGo l (a + (b - a) / 4 * 1) 0).2).2).1
      (medianAdjacentGo l (a + (b - a) / 4 * 3)
        (medianAdjacentGo l (a + (b - a) / 4 * 2)
          (medianAdjacentGo l (a + (b - a) / 4 * 1) 0).2).2).2
    rcases hm with hm | hm | hm <;> rw [hm]
    · rcases h1 with h | h | h <;> rw [h] <;> constructor <;> omega
    · rcases h2 with h | h | h <;> rw [h] <;> constructor <;> omega
    · rcases h3 with h | h | h <;> rw [h] <;> constructor <;> omega
  · rw [if_neg h50]
    dsimp only
    have hm := medianGo_fst l (a + (b - a) / 4 * 1) (a + (b - a) / 4 * 2)
      (a + (b - a) / 4 * 3) 0
    rcases hm with hm | hm | hm <;> rw [hm] <;> constructor <;> omega

theorem partialInsertionSortGo_spec (l : List Syscall) (a b : Nat) (hab : a < b)
    (hb : b ≤ l.length) (hlow : HLow l a b) :
    StepOK a b l (partialInsertionSortGo l a b).1
    ∧ ((partialInsertionSortGo l a b).2 = true →
        SortedSeg (partialInsertionSortGo l a b).1 a b) := by
  unfold partialInsertionSortGo
  exact pisOuter_spec 5 l a b (a+1) (by omega) (by omega) hb
    (sortedSeg_small l a (a+1) (le_refl (a+1))) hlow

set_option maxHeartbeats 3200000 in
theorem pdqsortLoop_spec (fuel : Nat) :
    ∀ (l : List Syscall) (a b limit : Nat) (wasBalanced wasPartitioned : Bool),
      b - a < fuel → b ≤ l.length → HLow l a b →
      StepOK a b l (pdqsortLoop fuel l a b limit wasBalanced wasPartitioned)
      ∧ SortedSeg (pdqsortLoop fuel l a b limit wasBalanced wasPartitioned) a b := by
  induction fuel with
  | zero =>
    intro l a b limit wasBalanced wasPartitioned hf
    exact absurd hf (Nat.not_lt_zero _)
  | succ fuel ih =>
    intro l a b limit wasBalanced wasPartitioned hf hb hlow
    unfold pdqsortLoop
    dsimp only
    by_cases h12 : b - a ≤ 12
    · rw [if_pos h12]
      exact insertionSortGo_spec l a b hb
    · rw [if_neg h12]
      by_cases hlim : limit = 0
      · rw [if_pos hlim]
        exact heapSortGo_spec l a b (by omega) hb
      · rw [if_neg hlim]
        have h1 : StepOK a b l (if wasBalanced = true then l else breakPatternsGo l a b) := by
          split
          · exact stepOK_refl _ _ l
          · exact breakPatternsGo_stepOK l a b
        generalize hL1 : (if wasBalanced = true then l else breakPatternsGo l a b) = l1 at h1 ⊢
        generalize (if wasBalanced = true then limit else limit - 1) = limit1
        have hlen1 := stepOK_length h1
        have hlow1 := hLow_of_stepOK h1 hlow
        have hpv := choosePivotGo_mem l1 a b (by omega)
        generalize choosePivotGo l1 a b = pv at hpv ⊢
        have h2 : StepOK a b l1
            (if pv.2 = SortHint.decreasingHint then reverseRangeGo l1 a b else l1) := by
          split
          · exact reverseRangeGo_stepOK l1 a b (by omega)
          · exact stepOK_refl _ _ l1
        generalize hL2 :
          (if pv.2 = SortHint.decreasingHint then reverseRangeGo l1 a b else l1) = l2 at h2 ⊢
        have hlen2 := stepOK_length h2
        have hlow2 := hLow_of_stepOK h2 hlow1
        have hpivB : a ≤ (if pv.2 = SortHint.decreasingHint then b - 1 - (pv.1 - a) else pv.1)
            ∧ (if pv.2 = SortHint.decreasingHint then b - 1 - (pv.1 - a) else pv.1) < b := by
          split <;> constructor <;> omega
        generalize hPiv :
          (if pv.2 = SortHint.decreasingHint then b - 1 - (pv.1 - a) else pv.1) = pivot
          at hpivB ⊢
        generalize (if pv.2 = SortHint.decreasingHint then SortHint.increasingHint else pv.2)
          = hint
        have h3 : StepOK a b l2
            (if (wasBalanced && wasPartitioned && decide (hint = SortHint.increasingHint)) = true
              then partialInsertionSortGo l2 a b else (l2, false)).1
            ∧ ((if (wasBalanced && wasPartitioned
                  && decide (hint = SortHint.increasingHint)) = true
                then partialInsertionSortGo l2 a b else (l2, false)).2 = true →
              SortedSeg (if (wasBalanced && wasPartitioned
                  && decide (hint = SortHint.increasingHint)) = true
                then partialInsertionSortGo l2 a b else (l2, false)).1 a b) := by
          split
          · exact partialInsertionSortGo_spec l2 a b (by omega) (by omega) hlow2
          · refine ⟨stepOK_refl _ _ l2, ?_⟩
            intro h
            simp at h
        generalize hPis :
          (if (wasBalanced && wasPartitioned && decide (hint = SortHint.increasingHint)) = true
            then partialInsertionSortGo l2 a b else (l2, false)) = pis at h3 ⊢
        have hstep3 : StepOK a b l pis.1 := stepOK_trans h1 (stepOK_trans h2 h3.1)
        have hlen3 := stepOK_length hstep3
        have hlow3 := hLow_of_stepOK hstep3 hlow
        split
        · rename_i hp2
          exact ⟨hstep3, h3.2 hp2⟩
        · rename_i hp2
          split
          · -- partitionEqual branch: the left run is all equal to the pivot value
            rename_i hguard
            simp only [Bool.and_eq_true, decide_eq_true_eq, Bool.not_eq_true'] at hguard
            obtain ⟨hga, hgv⟩ := hguard
            rw [numLess_eq_false] at hgv
            have hveq : (lGet pis.1 pivot).num = (lGet pis.1 (a-1)).num :=
              le_antisymm hgv
                (hlow3 hga (lGet pis.1 pivot)
                  (lGet_mem_seg pis.1 a b pivot hpivB.1 hpivB.2 (by omega)))
            obtain ⟨hpe1, hpe2a, hpe2b, hpeL, hpeR⟩ :=
              partitionEqualGo_spec pis.1 a b pivot (by omega) (by omega) hpivB.1 hpivB.2
            set pe := partitionEqualGo pis.1 a b pivot with hpe
            have hlenpe := stepOK_length hpe1
            have hlowpe : HLow pe.1 a b := hLow_of_stepOK hpe1 hlow3
            have hpa1 : lGet pe.1 (a-1) = lGet pis.1 (a-1) :=
              hpe1.2 (a-1) (Or.inl (by omega))
            have hlowpe2 : HLow pe.1 pe.2 b := by
              intro h0 x hx
              obtain ⟨k, hk1, hk2, hk3, hk4⟩ := mem_seg hx
              rw [hk4]
              have hL := hpeL (pe.2 - 1) (by omega) (by omega)
              have hR := hpeR k hk1 hk2
              omega
            have hrec := ih pe.1 pe.2 b limit1 wasBalanced wasPartitioned (by omega)
              (by omega) hlowpe2
            set res := pdqsortLoop fuel pe.1 pe.2 b limit1 wasBalanced wasPartitioned
              with hres
            have hlenres := stepOK_length hrec.1
            have hleft : ∀ k, a ≤ k → k < pe.2 →
                (lGet res k).num = (lGet pis.1 pivot).num := by
              intro k hk1 hk2
              rw [hrec.1.2 k (Or.inl hk2)]
              apply le_antisymm
              · exact hpeL k hk1 hk2
              · have hm : lGet pe.1 k ∈ seg pe.1 a b :=
                  lGet_mem_seg pe.1 a b k hk1 (by omega) (by omega)
                have hlb := hlowpe hga (lGet pe.1 k) hm
                rw [hpa1] at hlb
                rw [hveq]
                exact hlb
            have hright : ∀ k, pe.2 ≤ k → k < b →
                (lGet pis.1 pivot).num < (lGet res k).num := by
              intro k hk1 hk2
              have hmem : lGet res k ∈ seg res pe.2 b :=
                lGet_mem_seg res pe.2 b k hk1 hk2 (by omega)
              have hperm := seg_perm_of_stepOK hrec.1
              obtain ⟨k2, hk2a, hk2b, hk2c, hk2d⟩ := mem_seg (hperm.mem_iff.mp hmem)
              rw [hk2d]
              exact hpeR k2 hk2a hk2b
            refine ⟨stepOK_trans hstep3
              (stepOK_trans hpe1 (stepOK_widen (by omega) (le_refl b) hrec.1)), ?_⟩
            intro p q hp hpq hq
            rcases Nat.lt_or_ge p pe.2 with hpc | hpc
            · rcases Nat.lt_or_ge q pe.2 with hqc | hqc
              · rw [hleft p hp hpc, hleft q (by omega) hqc]
              · rw [hleft p hp hpc]
                exact le_of_lt (hright q hqc hq)
            · exact hrec.2 p q hpc hpq hq
          · -- ordinary partition branch
            rename_i hguard
            obtain ⟨hpr1, hmida, hmidb, hmidv, hprL, hprR⟩ :=
              partitionGo_spec pis.1 a b pivot (by omega) (by omega) hpivB.1 hpivB.2
            set pr := partitionGo pis.1 a b pivot with hpr
            set mid := pr.2.1 with hmid
            have hlenpr := stepOK_length hpr1
            have hsteppr : StepOK a b l pr.1 := stepOK_trans hstep3 hpr1
            have hlowpr : HLow pr.1 a b := hLow_of_stepOK hsteppr hlow
            generalize decide (min (mid - a) (b - mid) ≥ (b - a) / 8) = wb2
            split
            · -- left side shorter: sort [a, mid) first, then (mid, b)
              have hrecI := ih pr.1 a mid limit1 true true (by omega) (by omega)
                (by
                  intro h0 x hx
                  exact hlowpr h0 x (mem_seg_left pr.1 a mid b (by omega) (by omega) hx))
              set res1 := pdqsortLoop fuel pr.1 a mid limit1 true true with hres1
              have hlenres1 := stepOK_length hrecI.1
              have hr1mid : lGet res1 mid = lGet pr.1 mid :=
                hrecI.1.2 mid (Or.inr (le_refl mid))
              have hsegr1 : seg res1 (mid+1) b = seg pr.1 (mid+1) b :=
                seg_eq_of_lGet_eq hlenres1 (fun k hk1 hk2 => hrecI.1.2 k (Or.inr (by omega)))
              have hlowO : HLow res1 (mid+1) b := by
                intro h0 x hx
                rw [(show mid + 1 - 1 = mid from by omega), hr1mid, hmidv]
                rw [hsegr1] at hx
                obtain ⟨k, hk1, hk2, hk3, hk4⟩ := mem_seg hx
                rw [hk4]
                exact hprR k (by omega) hk2
              have hrecO := ih res1 (mid+1) b limit1 wb2 pr.2.2 (by omega) (by omega) hlowO
              set res2 := pdqsortLoop fuel res1 (mid+1) b limit1 wb2 pr.2.2 with hres2
              have hlenres2 := stepOK_length hrecO.1
              have hfrO : ∀ k, k ≤ mid → lGet res2 k = lGet res1 k := by
                intro k hk
                exact hrecO.1.2 k (Or.inl (by omega))
              have hr2mid : lGet res2 mid = lGet pis.1 pivot := by
                rw [hfrO mid (le_refl mid), hr1mid, hmidv]
              refine ⟨stepOK_trans hsteppr
                (stepOK_trans (stepOK_widen (le_refl a) (by omega) hrecI.1)
                  (stepOK_widen (by omega) (le_refl b) hrecO.1)), ?_⟩
              apply sortedSeg_glue hmida hmidb
              · exact sortedSeg_congr (fun k hk1 hk2 => hfrO k (by omega)) hrecI.2
              · exact hrecO.2
              · intro k hk1 hk2
                rw [hfrO k (by omega), hr2mid]
                have hmem : lGet res1 k ∈ seg res1 a mid :=
                  lGet_mem_seg res1 a mid k hk1 hk2 (by omega)
                have hperm := seg_perm_of_stepOK hrecI.1
                obtain ⟨k2, hk2a, hk2b, hk2c, hk2d⟩ := mem_seg (hperm.mem_iff.mp hmem)
                rw [hk2d]
                exact le_of_lt (hprL k2 hk2a hk2b)
              · intro k hk1 hk2
                rw [hr2mid]
                have hmem : lGet res2 k ∈ seg res2 (mid+1) b :=
                  lGet_mem_seg res2 (mid+1) b k (by omega) hk2 (by omega)
                have hperm := seg_perm_of_stepOK hrecO.1
                have hmem2 := hperm.mem_iff.mp hmem
                rw [hsegr1] at hmem2
                obtain ⟨k2, hk2a, hk2b, hk2c, hk2d⟩ := mem_seg hmem2
                rw [hk2d]
                exact hprR k2 (by omega) hk2b
            · -- right side shorter or equal: sort (mid, b) first, then [a, mid)
              have hlowI : HLow pr.1 (mid+1) b := by
                intro h0 x hx
                rw [(show mid + 1 - 1 = mid from by omega), hmidv]
                obtain ⟨k, hk1, hk2, hk3, hk4⟩ := mem_seg hx
                rw [hk4]
                exact hprR k (by omega) hk2
              have hrecI := ih pr.1 (mid+1) b limit1 true true (by omega) (by omega) hlowI
              set resA := pdqsortLoop fuel pr.1 (mid+1) b limit1 true true with hresA
              have hlenresA := stepOK_length hrecI.1
              have hfrA : ∀ k, k ≤ mid → lGet resA k = lGet pr.1 k := by
                intro k hk
                exact hrecI.1.2 k (Or.inl (by omega))
              have hstepA : StepOK a b l resA :=
                stepOK_trans hsteppr (stepOK_widen (by omega) (le_refl b) hrecI.1)
              have hlowA : HLow resA a mid := by
                intro h0 x hx
                exact hLow_of_stepOK hstepA hlow h0 x
                  (mem_seg_left resA a mid b (by omega) (by omega) hx)
              have hrecO := ih resA a mid limit1 wb2 pr.2.2 (by omega) (by omega) hlowA
              set resB := pdqsortLoop fuel resA a mid limit1 wb2 pr.2.2 with hresB
              have hlenresB := stepOK_length hrecO.1
              have hfrB : ∀ k, mid ≤ k → lGet resB k = lGet resA k := by
                intro k hk
                exact hrecO.1.2 k (Or.inr (by omega))
              have hrBmid : lGet resB mid = lGet pis.1 pivot := by
                rw [hfrB mid (le_refl mid), hfrA mid (le_refl mid), hmidv]
              have hsegA : seg resA a mid = seg pr.1 a mid :=
                seg_eq_of_lGet_eq hlenresA (fun k hk1 hk2 => hfrA k (by omega))
              refine ⟨stepOK_trans hstepA (stepOK_widen (le_refl a) (by omega) hrecO.1), ?_⟩
              apply sortedSeg_glue hmida hmidb
              · exact hrecO.2
              · exact sortedSeg_congr (fun k hk1 hk2 => hfrB k (by omega)) hrecI.2
              · intro k hk1 hk2
                rw [hrBmid]
                have hmem : lGet resB k ∈ seg resB a mid :=
                  lGet_mem_seg resB a mid k hk1 hk2 (by omega)
                have hperm := seg_perm_of_stepOK hrecO.1
                have hmem2 := hperm.mem_iff.mp hmem
                rw [hsegA] at hmem2
                obtain ⟨k2, hk2a, hk2b, hk2c, hk2d⟩ := mem_seg hmem2
                rw [hk2d]
                exact le_of_lt (hprL k2 hk2a hk2b)
              · intro k hk1 hk2
                rw [hrBmid, hfrB k (by omega)]
                have hmem : lGet resA k ∈ seg resA (mid+1) b :=
                  lGet_mem_seg resA (mid+1) b k (by omega) hk2 (by omega)
                have hperm := seg_perm_of_stepOK hrecI.1
                obtain ⟨k2, hk2a, hk2b, hk2c, hk2d⟩ := mem_seg (hperm.mem_iff.mp hmem)
                rw [hk2d]
                exact hprR k2 (by omega) hk2b

theorem sortSliceGo_sorted (l : List Syscall) :
    List.Pairwise (fun s t => s.num ≤ t.num) (sortSliceGo l) := by
  have h := pdqsortLoop_spec (l.length + 1) l 0 l.length (bitsLen l.length) true true
    (by omega) (le_refl _) (fun h0 => absurd h0 (by omega))
  unfold sortSliceGo
  have hlen := stepOK_length h.1
  rw [List.pairwise_iff_getElem]
  intro i j hi hj hij
  have hs := h.2 i j (Nat.zero_le i) (by omega) (by omega)
  rw [lGet_eq_getElem _ i (by omega), lGet_eq_getElem _ j (by omega)] at hs
  exact hs

/-! ### Support lemmas for the parsers and the scanner -/

theorem wrap64_eq_self (x : Int) (h0 : 0 ≤ x) (h1 : x < 2 ^ 63) : wrap64 x = x := by
  unfold wrap64
  rw [Int.emod_eq_of_lt (by omega) (by omega)]
  omega

theorem wrap64_eq_sub (x : Int) (h0 : 2 ^ 63 ≤ x) (h1 : x < 2 ^ 64) :
    wrap64 x = x - 2 ^ 64 := by
  unfold wrap64
  have h2 : (x + 2 ^ 63) % 2 ^ 64 = (x + 2 ^ 63 - 2 ^ 64) % 2 ^ 64 := by
    omega
  rw [h2, Int.emod_eq_of_lt (by omega) (by omega)]
  omega

theorem goAtoi_digits (ds : List Char) (hne : ds ≠ []) (hall : ds.all isDigitChar = true)
    (hlt : digitsVal ds < 2 ^ 63) : goAtoi (String.mk ds) = .ok (digitsVal ds) := by
  obtain ⟨c, rest, rfl⟩ : ∃ c rest, ds = c :: rest := by
    cases ds with
    | nil => exact absurd rfl hne
    | cons c rest => exact ⟨c, rest, rfl⟩
  have hc : isDigitChar c = true :=
    List.all_eq_true.mp hall c (List.mem_cons_self c rest)
  have hcp : c ≠ '+' := by
    intro h; subst h; simp [isDigitChar] at hc
  have hcm : c ≠ '-' := by
    intro h; subst h; simp [isDigitChar] at hc
  unfold goAtoi
  dsimp only
  rw [List.head?_cons]
  have hp : decide (some c = some '+') = false := by simp [hcp]
  have hm : decide (some c = some '-') = false := by simp [hcm]
  simp only [hp, hm, Bool.or_false, Bool.false_eq_true, if_false, List.isEmpty_cons, hall,
    Bool.not_true]
  rw [if_neg (Nat.not_le.mpr hlt)]

theorem armHeaderMatch_digs (line nm digs : String)
    (h : armHeaderMatch line = some (nm, digs)) :
    digs.data ≠ [] ∧ digs.data.all isDigitChar = true := by
  unfold armHeaderMatch at h
  dsimp only at h
  split at h
  · exact absurd h (by simp)
  · split at h
    · exact absurd h (by simp)
    · split at h
      · exact absurd h (by simp)
      · split at h
        · exact absurd h (by simp)
        · split at h
          · exact absurd h (by simp)
          · split at h
            · rename_i hdn xscr tailv hcl
              rw [Option.some.injEq, Prod.mk.injEq] at h
              obtain ⟨h1, h2⟩ := h
              constructor
              · intro hcontra
                apply hdn
                rw [List.isEmpty_iff]
                rw [← h2] at hcontra
                exact hcontra
              · rw [← h2]
                exact List.all_takeWhile
            · exact absurd h (by simp)

theorem nrHeaderMatch_digs (line nm digs : String)
    (h : nrHeaderMatch line = some (nm, digs)) :
    digs.data ≠ [] ∧ digs.data.all isDigitChar = true := by
  unfold nrHeaderMatch at h
  dsimp only at h
  split at h
  · exact absurd h (by simp)
  · split at h
    · exact absurd h (by simp)
    · split at h
      · exact absurd h (by simp)
      · split at h
        · exact absurd h (by simp)
        · split at h
          · exact absurd h (by simp)
          · rename_i hdn
            rw [Option.some.injEq, Prod.mk.injEq] at h
            obtain ⟨h1, h2⟩ := h
            constructor
            · intro hcontra
              apply hdn
              rw [List.isEmpty_iff]
              rw [← h2] at hcontra
              exact hcontra
            · rw [← h2]
              exact List.all_takeWhile

theorem readSyscallsLines_mem (lines : List String)
    (parse : String → Except GoErr (Option Syscall)) (out : List Syscall)
    (h : readSyscallsLines lines parse = .ok out) :
    ∀ s ∈ out, ∃ line ∈ lines, parse (goTrimSpace line) = .ok (some s) := by
  induction lines generalizing out with
  | nil =>
    unfold readSyscallsLines at h
    injection h with h
    subst h
    intro s hs
    exact absurd hs (List.not_mem_nil s)
  | cons l ls ih =>
    unfold readSyscallsLines at h
    cases hp : parse (goTrimSpace l) with
    | error e =>
      simp only [hp] at h
      exact Except.noConfusion h
    | ok r =>
      simp only [hp] at h
      cases hrest : readSyscallsLines ls parse with
      | error e2 =>
        simp only [hrest] at h
        exact Except.noConfusion h
      | ok rest =>
        simp only [hrest] at h
        cases r with
        | none =>
          injection h with h
          subst h
          intro s hs
          obtain ⟨line, hline, hp2⟩ := ih rest hrest s hs
          exact ⟨line, List.mem_cons_of_mem l hline, hp2⟩
        | some s0 =>
          injection h with h
          subst h
          intro s hs
          rcases List.mem_cons.mp hs with heq | hmem
          · subst heq
            exact ⟨l, List.mem_cons_self l ls, hp⟩
          · obtain ⟨line, hline, hp2⟩ := ih rest hrest s hmem
            exact ⟨line, List.mem_cons_of_mem l hline, hp2⟩

theorem readSyscallsLines_error (lines : List String)
    (parse : String → Except GoErr (Option Syscall))
    (h : ∃ line ∈ lines, ∃ e, parse (goTrimSpace line) = .error e) :
    ∃ e, readSyscallsLines lines parse = .error e := by
  induction lines with
  | nil =>
    obtain ⟨line, hline, _⟩ := h
    exact absurd hline (List.not_mem_nil line)
  | cons l ls ih =>
    obtain ⟨line, hline, e, he⟩ := h
    unfold readSyscallsLines
    rcases List.mem_cons.mp hline with heq | hmem
    · subst heq
      rw [he]
      exact ⟨e, rfl⟩
    · cases hp : parse (goTrimSpace l) with
      | error e2 => exact ⟨e2, rfl⟩
      | ok r =>
        obtain ⟨e2, he2⟩ := ih ⟨line, hmem, e, he⟩
        rw [he2]
        exact ⟨e2, rfl⟩

/-! ### Helper lemmas about individual parsers -/

theorem parseAARCH64_names (l : String) (s : Syscall)
    (h : parseAARCH64 l = .ok (some s)) :
    s.name ≠ "syscalls" ∧ s.name ≠ "sync_file_range2" := by
  unfold parseAARCH64 at h
  split at h
  · exact Option.noConfusion (Except.ok.inj h)
  · rename_i nm digs hmatch
    split at h
    · exact Option.noConfusion (Except.ok.inj h)
    · rename_i hnot
      split at h
      · exact Except.noConfusion h
      · rename_i n hn
        injection h with h
        injection h with h
        subst h
        simp only [Bool.or_eq_true, decide_eq_true_eq, not_or] at hnot
        exact hnot

theorem buildAARCH64Pure_mem (hdr : List String) (a : Arch)
    (h : buildAARCH64Pure hdr = .ok a) :
    ∀ s ∈ a.syscalls, ∃ line ∈ hdr, parseAARCH64 (goTrimSpace line) = .ok (some s) := by
  unfold buildAARCH64Pure at h
  cases hr : readSyscallsLines hdr parseAARCH64 with
  | error e => rw [hr] at h; exact Except.noConfusion h
  | ok s0 =>
    rw [hr] at h
    injection h with h
    subst h
    intro s hs
    have hmem : s ∈ s0 := ((sortSliceGo_perm s0).mem_iff).mp hs
    exact readSyscallsLines_mem hdr parseAARCH64 s0 hr s hmem

/-! ### The claims -/

/-- C1: every line handed to a table-format parser (ARM, 386, X32, X86_64)
that is non-empty, is not a `#` comment, splits into at least three
whitespace-separated fields `<num> <abi> <name> ...`, and whose first field
parses as an integer, yields the pair `(num, name)` with the name taken from
the third field — except that ARM yields nothing when the ABI field is
`oabi`, X32 nothing when it is `x64` and X86_64 nothing when it is `x32`;
empty lines and lines starting with `#` always yield nothing. -/
theorem c1_table_parsers (line f0 f1 f2 : String) (rest : List String) (n : Int)
    (hfields : goFields line = f0 :: f1 :: f2 :: rest)
    (hempty : line.data.isEmpty = false)
    (hhash : goStartsWithHash line = false)
    (hatoi : goAtoi f0 = .ok n) :
    (parseARMTable line = .ok (if f1 = "oabi" then none else some ⟨n, f2⟩))
    ∧ (parse386 line = .ok (some ⟨n, f2⟩))
    ∧ (parseX32 line = .ok (if f1 = "x64" then none else some ⟨n, f2⟩))
    ∧ (parseX8664 line = .ok (if f1 = "x32" then none else some ⟨n, f2⟩))
    ∧ (∀ l2 : String, l2.data.isEmpty = true ∨ goStartsWithHash l2 = true →
        parseARMTable l2 = .ok none ∧ parse386 l2 = .ok none
        ∧ parseX32 l2 = .ok none ∧ parseX8664 l2 = .ok none) := by
  have hcond : (line.data.isEmpty || goStartsWithHash line) = false := by
    rw [hempty, hhash]; rfl
  refine ⟨?_, ?_, ?_, ?_, ?_⟩
  · simp only [parseARMTable, hcond, Bool.false_eq_true, if_false, hfields, hatoi]
    split <;> rfl
  · simp only [parse386, hcond, Bool.false_eq_true, if_false, hfields, hatoi]
  · simp only [parseX32, hcond, Bool.false_eq_true, if_false, hfields, hatoi]
    split <;> rfl
  · simp only [parseX8664, hcond, Bool.false_eq_true, if_false, hfields, hatoi]
    split <;> rfl
  · intro l2 h2
    have hc2 : (l2.data.isEmpty || goStartsWithHash l2) = true := by
      rcases h2 with h2 | h2 <;> simp [h2]
    exact ⟨by simp [parseARMTable, hc2], by simp [parse386, hc2],
      by simp [parseX32, hc2], by simp [parseX8664, hc2]⟩

/-- Witness for C1 at the concrete line `5 common read sys_read` (and the
comment line `# x`). -/
theorem c1_table_parsers_witness :
    goFields "5 common read sys_read" = ["5", "common", "read", "sys_read"]
    ∧ goAtoi "5" = .ok 5
    ∧ parseX32 "5 common read sys_read" = .ok (some ⟨5, "read"⟩)
    ∧ parseARMTable "# x" = .ok none := by
  refine ⟨by decide, by decide, ?_, ?_⟩
  · have h := (c1_table_parsers "5 common read sys_read" "5" "common" "read" ["sys_read"] 5
      (by decide) (by decide) (by decide) (by decide)).2.2.1
    simpa using h
  · have h := ((c1_table_parsers "5 common read sys_read" "5" "common" "read" ["sys_read"] 5
      (by decide) (by decide) (by decide) (by decide)).2.2.2.2 "# x" (Or.inr (by decide))).1
    exact h

/-- Companion to `goAtoi_digits`: a digit string whose value does not fit in
a 64-bit int is rejected with a range error. -/
theorem goAtoi_digits_range (ds : List Char) (hne : ds ≠ [])
    (hall : ds.all isDigitChar = true) (hge : 2 ^ 63 ≤ digitsVal ds) :
    goAtoi (String.mk ds) = .error .rangeErr := by
  obtain ⟨c, rest, rfl⟩ : ∃ c rest, ds = c :: rest := by
    cases ds with
    | nil => exact absurd rfl hne
    | cons c rest => exact ⟨c, rest, rfl⟩
  have hc : isDigitChar c = true :=
    List.all_eq_true.mp hall c (List.mem_cons_self c rest)
  have hcp : c ≠ '+' := by
    intro h; subst h; simp [isDigitChar] at hc
  have hcm : c ≠ '-' := by
    intro h; subst h; simp [isDigitChar] at hc
  unfold goAtoi
  dsimp only
  rw [List.head?_cons]
  have hp : decide (some c = some '+') = false := by simp [hcp]
  have hm : decide (some c = some '-') = false := by simp [hcm]
  simp only [hp, hm, Bool.or_false, Bool.false_eq_true, if_false, List.isEmpty_cons, hall,
    Bool.not_true]
  rw [if_pos hge]

/-- A `goAtoi` success on an all-digit string is non-negative. -/
theorem goAtoi_nonneg (s : String) (hall : s.data.all isDigitChar = true) (n : Int)
    (h : goAtoi s = .ok n) : 0 ≤ n := by
  obtain ⟨d⟩ := s
  cases d with
  | nil =>
    have he : goAtoi (String.mk []) = .error .syntaxErr := by decide
    rw [he] at h
    exact Except.noConfusion h
  | cons c rest =>
    rcases Nat.lt_or_ge (digitsVal (c :: rest)) (2 ^ 63) with hlt | hge
    · rw [goAtoi_digits (c :: rest) (by simp) hall hlt] at h
      injection h with h
      subst h
      exact Int.ofNat_nonneg _
    · rw [goAtoi_digits_range (c :: rest) (by simp) hall hge] at h
      exact Except.noConfusion h

theorem goAtoi_digits_lt (s : String) (hall : s.data.all isDigitChar = true) (n : Int)
    (h : goAtoi s = .ok n) : n < 2 ^ 63 := by
  obtain ⟨d⟩ := s
  cases d with
  | nil =>
    have he : goAtoi (String.mk []) = .error .syntaxErr := by decide
    rw [he] at h
    exact Except.noConfusion h
  | cons c rest =>
    rcases Nat.lt_or_ge (digitsVal (c :: rest)) (2 ^ 63) with hlt | hge
    · rw [goAtoi_digits (c :: rest) (by simp) hall hlt] at h
      injection h with h
      subst h
      exact_mod_cast hlt
    · rw [goAtoi_digits_range (c :: rest) (by simp) hall hge] at h
      exact Except.noConfusion h

/-- C10: the AARCH64 header parser skips every line whose captured macro
name is the sentinel `syscalls` (the `__NR_syscalls` count macro) even when
the line matches the macro pattern, and consequently no pair named
`syscalls` appears in AARCH64's final list. -/
theorem c10_aarch64_sentinel :
    (∀ line digs, nrHeaderMatch line = some ("syscalls", digs) →
      parseAARCH64 line = .ok none)
    ∧ (∀ hdr a, buildAARCH64Pure hdr = .ok a →
        ∀ s ∈ a.syscalls, s.name ≠ "syscalls") := by
  constructor
  · intro line digs h
    simp [parseAARCH64, h]
  · intro hdr a h s hs
    obtain ⟨line, _, hp⟩ := buildAARCH64Pure_mem hdr a h s hs
    exact (parseAARCH64_names _ s hp).1

/-- Witness for C10: the sentinel line of the real kernel header matches the
pattern but yields nothing. -/
theorem c10_aarch64_sentinel_witness :
    nrHeaderMatch "#define __NR_syscalls 463" = some ("syscalls", "463")
    ∧ parseAARCH64 "#define __NR_syscalls 463" = .ok none :=
  ⟨by decide, c10_aarch64_sentinel.1 "#define __NR_syscalls 463" "463" (by decide)⟩

/-- C5: excluded names and ABIs never appear: a table line whose second
field is `oabi` yields no pair for ARM, one with `x64` yields no pair for
X32, one with `x32` yields no pair for X86_64, and no pair named
`sync_file_range2` is in AARCH64's final list. -/
theorem c5_exclusions :
    (∀ line s, (goFields line)[1]? = some "oabi" → parseARMTable line ≠ .ok (some s))
    ∧ (∀ line s, (goFields line)[1]? = some "x64" → parseX32 line ≠ .ok (some s))
    ∧ (∀ line s, (goFields line)[1]? = some "x32" → parseX8664 line ≠ .ok (some s))
    ∧ (∀ hdr a, buildAARCH64Pure hdr = .ok a →
        ∀ s ∈ a.syscalls, s.name ≠ "sync_file_range2") := by
  refine ⟨?_, ?_, ?_, ?_⟩
  · intro line s h hcontra
    unfold parseARMTable at hcontra
    split at hcontra
    · exact Option.noConfusion (Except.ok.inj hcontra)
    · cases hf : goFields line with
      | nil => rw [hf] at h; exact Option.noConfusion h
      | cons f0 r1 =>
        cases r1 with
        | nil => rw [hf] at h; simp at h
        | cons f1 r2 =>
          rw [hf] at h
          simp only [List.getElem?_cons_succ, List.getElem?_cons_zero] at h
          injection h with h
          subst h
          rw [hf] at hcontra
          cases r2 with
          | nil => simp at hcontra
          | cons f2 r3 => simp at hcontra
  · intro line s h hcontra
    unfold parseX32 at hcontra
    split at hcontra
    · exact Option.noConfusion (Except.ok.inj hcontra)
    · cases hf : goFields line with
      | nil => rw [hf] at h; exact Option.noConfusion h
      | cons f0 r1 =>
        cases r1 with
        | nil => rw [hf] at h; simp at h
        | cons f1 r2 =>
          rw [hf] at h
          simp only [List.getElem?_cons_succ, List.getElem?_cons_zero] at h
          injection h with h
          subst h
          rw [hf] at hcontra
          cases r2 with
          | nil => simp at hcontra
          | cons f2 r3 => simp at hcontra
  · intro line s h hcontra
    unfold parseX8664 at hcontra
    split at hcontra
    · exact Option.noConfusion (Except.ok.inj hcontra)
    · cases hf : goFields line with
      | nil => rw [hf] at h; exact Option.noConfusion h
      | cons f0 r1 =>
        cases r1 with
        | nil => rw [hf] at h; simp at h
        | cons f1 r2 =>
          rw [hf] at h
          simp only [List.getElem?_cons_succ, List.getElem?_cons_zero] at h
          injection h with h
          subst h
          rw [hf] at hcontra
          cases r2 with
          | nil => simp at hcontra
          | cons f2 r3 => simp at hcontra
  · intro hdr a h s hs
    obtain ⟨line, _, hp⟩ := buildAARCH64Pure_mem hdr a h s hs
    exact (parseAARCH64_names _ s hp).2

/-- Witness for C5 at the concrete OABI line `12 oabi whatever sys_w`. -/
theorem c5_exclusions_witness :
    (goFields "12 oabi whatever sys_w")[1]? = some "oabi"
    ∧ parseARMTable "12 oabi whatever sys_w" ≠ .ok (some ⟨12, "whatever"⟩) :=
  ⟨by decide, c5_exclusions.1 "12 oabi whatever sys_w" ⟨12, "whatever"⟩ (by decide)⟩

/-- C2 fails as stated: three concrete lines that match their header
pattern yet do not yield the captured pair — the AARCH64 sentinel
`syscalls` line and the omitted `sync_file_range2` line yield nothing, and
an ARM line whose captured number overflows a 64-bit int aborts with a
parse error instead of yielding a pair. -/
theorem c2_counterexample :
    (nrHeaderMatch "#define __NR_syscalls 463").isSome = true
    ∧ parseAARCH64 "#define __NR_syscalls 463" = .ok none
    ∧ (nrHeaderMatch "#define __NR_sync_file_range2 84").isSome = true
    ∧ parseAARCH64 "#define __NR_sync_file_range2 84" = .ok none
    ∧ (armHeaderMatch "#define __ARM_NR_big (__ARM_NR_BASE+99999999999999999999)").isSome
        = true
    ∧ parseARMHeader "#define __ARM_NR_big (__ARM_NR_BASE+99999999999999999999)"
        = .error (.atoiFailed "#define __ARM_NR_big (__ARM_NR_BASE+99999999999999999999)") := by
  refine ⟨by decide, by decide, by decide, by decide, by decide, by decide⟩

/-- C2 (amended): header-format parser behaviour. A non-matching line
yields nothing. A matching ARM line whose captured number fits in int64
yields `(num + 0x0f0000, name)` computed in Go's wrapping 64-bit `int`
arithmetic (`wrap64`): the sum is the plain sum while it stays below
`2^63`, and for captured numbers in `[2^63 - 0xF0000, 2^63)` it wraps to
the negative `num + 0x0f0000 - 2^64`; a matching ARM line whose captured
digits exceed the int64 range aborts with a parse error. A matching
AARCH64 line with a non-excluded name yields `(num, name)` when the
number parses, and aborts with a parse error when the captured digits
exceed the int64 range. `buildARM` merges the table pairs with the
header pairs before sorting. -/
theorem c2_amended :
    (∀ line, armHeaderMatch line = none → parseARMHeader line = .ok none)
    ∧ (∀ line nm digs n, armHeaderMatch line = some (nm, digs) →
        goAtoi digs = .ok n →
        parseARMHeader line = .ok (some ⟨wrap64 (n + armNrBase), nm⟩))
    ∧ (∀ line nm digs n, armHeaderMatch line = some (nm, digs) →
        goAtoi digs = .ok n → n + armNrBase < 2 ^ 63 →
        parseARMHeader line = .ok (some ⟨n + armNrBase, nm⟩))
    ∧ (∀ line nm digs n, armHeaderMatch line = some (nm, digs) →
        goAtoi digs = .ok n → 2 ^ 63 ≤ n + armNrBase →
        parseARMHeader line = .ok (some ⟨n + armNrBase - 2 ^ 64, nm⟩))
    ∧ (∀ line nm digs, armHeaderMatch line = some (nm, digs) →
        2 ^ 63 ≤ digitsVal digs.data →
        parseARMHeader line = .error (.atoiFailed line))
    ∧ (∀ line, nrHeaderMatch line = none → parseAARCH64 line = .ok none)
    ∧ (∀ line nm digs n, nrHeaderMatch line = some (nm, digs) →
        nm ≠ "syscalls" → nm ≠ "sync_file_range2" → goAtoi digs = .ok n →
        parseAARCH64 line = .ok (some ⟨n, nm⟩))
    ∧ (∀ line nm digs, nrHeaderMatch line = some (nm, digs) →
        nm ≠ "syscalls" → nm ≠ "sync_file_range2" →
        2 ^ 63 ≤ digitsVal digs.data →
        parseAARCH64 line = .error (.atoiFailed line))
    ∧ (∀ tbl hdr sA sB, readSyscallsLines tbl parseARMTable = .ok sA →
        readSyscallsLines hdr parseARMHeader = .ok sB →
        buildARMPure tbl hdr = .ok ⟨"ARM", sortSliceGo (sA ++ sB)⟩) := by
  refine ⟨?_, ?_, ?_, ?_, ?_, ?_, ?_, ?_, ?_⟩
  · intro line h
    simp only [parseARMHeader, h]
  · intro line nm digs n hm hn
    simp only [parseARMHeader, hm, hn]
  · intro line nm digs n hm hn hbound
    obtain ⟨hne, hall⟩ := armHeaderMatch_digs line nm digs hm
    have hnn : 0 ≤ n := goAtoi_nonneg digs hall n hn
    have hbase : armNrBase = 983040 := rfl
    simp only [parseARMHeader, hm, hn]
    rw [wrap64_eq_self _ (by omega) hbound]
  · intro line nm digs n hm hn hge
    obtain ⟨hne, hall⟩ := armHeaderMatch_digs line nm digs hm
    have hnn : 0 ≤ n := goAtoi_nonneg digs hall n hn
    have hlt : n < 2 ^ 63 := goAtoi_digits_lt digs hall n hn
    have hbase : armNrBase = 983040 := rfl
    simp only [parseARMHeader, hm, hn]
    rw [wrap64_eq_sub _ hge (by omega)]
  · intro line nm digs hm hge
    obtain ⟨hne, hall⟩ := armHeaderMatch_digs line nm digs hm
    have herr : goAtoi digs = .error .rangeErr := by
      obtain ⟨d⟩ := digs
      exact goAtoi_digits_range d hne hall hge
    simp only [parseARMHeader, hm, herr]
  · intro line h
    simp only [parseAARCH64, h]
  · intro line nm digs n hm h1 h2 hn
    simp only [parseAARCH64, hm, hn]
    rw [if_neg (by simp [h1, h2])]
  · intro line nm digs hm h1 h2 hge
    obtain ⟨hne, hall⟩ := nrHeaderMatch_digs line nm digs hm
    have herr : goAtoi digs = .error .rangeErr := by
      obtain ⟨d⟩ := digs
      exact goAtoi_digits_range d hne hall hge
    simp only [parseAARCH64, hm, herr]
    rw [if_neg (by simp [h1, h2])]
  · intro tbl hdr sA sB h1 h2
    unfold buildARMPure
    rw [h1, h2]

/-- Witness for C2 (amended) at the concrete ARM private-syscall line
`#define __ARM_NR_breakpoint (__ARM_NR_BASE+1)`. -/
theorem c2_amended_witness :
    armHeaderMatch "#define __ARM_NR_breakpoint (__ARM_NR_BASE+1)" = some ("breakpoint", "1")
    ∧ goAtoi "1" = .ok 1
    ∧ (1 : Int) + armNrBase < 2 ^ 63
    ∧ parseARMHeader "#define __ARM_NR_breakpoint (__ARM_NR_BASE+1)"
        = .ok (some ⟨1 + armNrBase, "breakpoint"⟩) :=
  ⟨by decide, by decide, by decide,
    c2_amended.2.2.1 "#define __ARM_NR_breakpoint (__ARM_NR_BASE+1)" "breakpoint" "1" 1
      (by decide) (by decide) (by decide)⟩

/-- C6 fails as stated: a line whose first field does not parse as an
integer does NOT make the parser return an error when the parser's ABI
exclusion discards the line first — the X32 parser checks `fields[1] ==
"x64"` before `strconv.Atoi(fields[0])`, so `xyz x64 foo` yields nothing
instead of an error (likewise ARM with `oabi` and X86_64 with `x32`). -/
theorem c6_counterexample :
    goAtoi "xyz" = .error .syntaxErr
    ∧ goFields "xyz x64 foo" = ["xyz", "x64", "foo"]
    ∧ parseX32 "xyz x64 foo" = .ok none
    ∧ parseARMTable "xyz oabi foo" = .ok none
    ∧ parseX8664 "xyz x32 foo" = .ok none := by
  refine ⟨by decide, by decide, by decide, by decide, by decide⟩

/-- C6 (amended): for every non-empty, non-comment table-format line with
fewer than three whitespace-separated fields, or whose first field does not
parse as an integer — unless the parser's ABI exclusion discards the line
before number parsing — the parser returns an error; `readSyscalls`
propagates the error without returning any partial list (its `Except`
result carries either a full list or an error), and the run produces no
output and exits non-zero. -/
theorem c6_amended :
    (∀ line f0 rest, goFields line = f0 :: rest → rest.length < 2 →
      line.data.isEmpty = false → goStartsWithHash line = false →
      parseARMTable line = .error (.badLineFormat line)
      ∧ parse386 line = .error (.badLineFormat line)
      ∧ parseX32 line = .error (.badLineFormat line)
      ∧ parseX8664 line = .error (.badLineFormat line))
    ∧ (∀ line f0 f1 f2 rest e, goFields line = f0 :: f1 :: f2 :: rest →
        line.data.isEmpty = false → goStartsWithHash line = false →
        goAtoi f0 = .error e →
        ((f1 ≠ "oabi" → parseARMTable line = .error (.atoiFailed line))
        ∧ parse386 line = .error (.atoiFailed line)
        ∧ (f1 ≠ "x64" → parseX32 line = .error (.atoiFailed line))
        ∧ (f1 ≠ "x32" → parseX8664 line = .error (.atoiFailed line))))
    ∧ (∀ lines parse, (∃ line ∈ lines, ∃ e, parse (goTrimSpace line) = .error e) →
        ∃ e2, readSyscallsLines lines parse = .error e2)
    ∧ (∀ fs cOk wOk version tmpdir outC outW e,
        buildAllRun fs cOk wOk version tmpdir = .error e →
        runMain fs cOk wOk version true outC outW tmpdir
          = ⟨none, false, 1⟩) := by
  refine ⟨?_, ?_, ?_, ?_⟩
  · intro line f0 rest hf hlen hempty hhash
    have hcond : (line.data.isEmpty || goStartsWithHash line) = false := by
      rw [hempty, hhash]; rfl
    have hshape : rest = [] ∨ ∃ f1, rest = [f1] := by
      cases rest with
      | nil => exact Or.inl rfl
      | cons f1 r2 =>
        cases r2 with
        | nil => exact Or.inr ⟨f1, rfl⟩
        | cons f2 r3 => simp at hlen; omega
    rcases hshape with hr | ⟨f1, hr⟩ <;> subst hr <;>
      exact ⟨by simp [parseARMTable, hcond, hf], by simp [parse386, hcond, hf],
        by simp [parseX32, hcond, hf], by simp [parseX8664, hcond, hf]⟩
  · intro line f0 f1 f2 rest e hf hempty hhash hatoi
    have hcond : (line.data.isEmpty || goStartsWithHash line) = false := by
      rw [hempty, hhash]; rfl
    refine ⟨?_, ?_, ?_, ?_⟩
    · intro hne
      simp only [parseARMTable, hcond, Bool.false_eq_true, if_false, hf, hatoi]
      rw [if_neg hne]
    · simp only [parse386, hcond, Bool.false_eq_true, if_false, hf, hatoi]
    · intro hne
      simp only [parseX32, hcond, Bool.false_eq_true, if_false, hf, hatoi]
      rw [if_neg hne]
    · intro hne
      simp only [parseX8664, hcond, Bool.false_eq_true, if_false, hf, hatoi]
      rw [if_neg hne]
  · intro lines parse h
    exact readSyscallsLines_error lines parse h
  · intro fs cOk wOk version tmpdir outC outW e h
    unfold runMain
    rw [h]
    rfl

/-- Witness for C6 (amended) at the short line `1 eabi` and the
unparseable line `zz common foo sys_foo`. -/
theorem c6_amended_witness :
    goFields "1 eabi" = ["1", "eabi"]
    ∧ parseARMTable "1 eabi" = .error (.badLineFormat "1 eabi")
    ∧ goFields "zz common foo sys_foo" = ["zz", "common", "foo", "sys_foo"]
    ∧ goAtoi "zz" = .error .syntaxErr
    ∧ parseX32 "zz common foo sys_foo" = .error (.atoiFailed "zz common foo sys_foo") := by
  refine ⟨by decide, ?_, by decide, by decide, ?_⟩
  · exact (c6_amended.1 "1 eabi" "1" ["eabi"] (by decide) (by decide) (by decide) (by decide)).1
  · exact (c6_amended.2.1 "zz common foo sys_foo" "zz" "common" "foo" ["sys_foo"]
      AtoiErr.syntaxErr (by decide) (by decide) (by decide) (by decide)).2.2.1 (by decide)

/-- C7: `downloadFile` fails with a network error on a transport failure or
whenever the HTTP status is not a success status (it requires exactly
`http.StatusOK`), fails with an I/O error when creating or writing the
scratch file fails, and returns the scratch-file path only when the GET
succeeded with status 200 and the write completed. -/
theorem c7_downloadFile :
    (∀ cOk wOk d b, downloadFileM .failed cOk wOk d b = .error .httpGetFailed
        ∧ isNetworkErr .httpGetFailed = true)
    ∧ (∀ st body cOk wOk d b, ¬(200 ≤ st ∧ st < 300) →
        downloadFileM (.resp st body) cOk wOk d b = .error (.httpStatus st)
        ∧ isNetworkErr (.httpStatus st) = true)
    ∧ (∀ body wOk d b, downloadFileM (.resp 200 body) false wOk d b = .error .createFailed
        ∧ isIOErr .createFailed = true)
    ∧ (∀ body d b, downloadFileM (.resp 200 body) true false d b = .error .writeFailed
        ∧ isIOErr .writeFailed = true)
    ∧ (∀ r cOk wOk d b p, downloadFileM r cOk wOk d b = .ok p →
        ∃ body, r = .resp 200 body ∧ cOk = true ∧ wOk = true ∧ p = d ++ "/" ++ b) := by
  refine ⟨?_, ?_, ?_, ?_, ?_⟩
  · intro cOk wOk d b
    exact ⟨rfl, rfl⟩
  · intro st body cOk wOk d b h
    have hne : st ≠ 200 := by
      intro he
      subst he
      exact h ⟨by omega, by omega⟩
    refine ⟨?_, rfl⟩
    unfold downloadFileM
    dsimp only
    rw [if_pos hne]
  · intro body wOk d b
    exact ⟨rfl, rfl⟩
  · intro body d b
    exact ⟨rfl, rfl⟩
  · intro r cOk wOk d b p h
    cases r with
    | failed => exact Except.noConfusion h
    | resp st body =>
      unfold downloadFileM at h
      dsimp only at h
      by_cases hst : st ≠ 200
      · rw [if_pos hst] at h
        exact Except.noConfusion h
      · rw [if_neg hst] at h
        have hst200 : st = 200 := by omega
        subst hst200
        cases cOk with
        | false => simp at h
        | true =>
          cases wOk with
          | false => simp at h
          | true =>
            simp only [Bool.not_true, Bool.false_eq_true, if_false] at h
            injection h with h
            exact ⟨body, rfl, rfl, rfl, h.symm⟩

/-- Witness for C7 at status 404. -/
theorem c7_downloadFile_witness :
    ¬((200 : Int) ≤ 404 ∧ (404 : Int) < 300)
    ∧ downloadFileM (.resp 404 []) true true "/tmp/d" "syscall.tbl"
        = .error (.httpStatus 404) :=
  ⟨by decide, (c7_downloadFile.2.1 404 [] true true "/tmp/d" "syscall.tbl" (by decide)).1⟩

/-- C8: the end-to-end transform is a deterministic function of the fetched
file contents, the version tag and the I/O outcomes; in particular two runs
with the same inputs but different scratch directories produce identical
results, byte-identical rendered output included. -/
theorem c8_deterministic (fs : String → HttpResp) (cOk wOk : Bool) (version : String)
    (t1 t2 : String) :
    runMain fs cOk wOk version true true true t1
      = runMain fs cOk wOk version true true true t2 := rfl

/-- C9 fails on the code: `defer os.RemoveAll(tmp)` does not run on the
`log.Fatal` paths because `log.Fatal` calls `os.Exit`, which skips deferred
functions. A run whose ARM table contains one malformed line aborts with no
output and leaves the scratch directory behind, while a successful run
removes it. -/
theorem c9_tmp_left_behind_on_fatal :
    (runMain c9BadFs true true "v6.13" true true true "/tmp/mk").output = none
    ∧ (runMain c9BadFs true true "v6.13" true true true "/tmp/mk").tmpRemoved = false
    ∧ (runMain c9BadFs true true "v6.13" true true true "/tmp/mk").exitCode = 1
    ∧ (runMain c9GoodFs true true "v6.13" true true true "/tmp/mk").tmpRemoved = true
    ∧ (runMain c9GoodFs true true "v6.13" true true true "/tmp/mk").exitCode = 0 := by
  refine ⟨by decide, by decide, by decide, by decide, by decide⟩

/-- C4 fails as stated: the generator never deduplicates numbers, so an
input table in which two non-excluded lines carry the same syscall number
produces a final list with a duplicated number even after the exclusion
rule (here the `x64` exclusion of X32) has discarded a line. -/
theorem c4_counterexample :
    build386Pure ["0 common a sys_a", "0 other b sys_b"]
      = .ok ⟨"386", [⟨0, "a"⟩, ⟨0, "b"⟩]⟩
    ∧ buildX32Pure ["0 x64 excl sys_e", "0 common a sys_a", "0 other b sys_b"]
      = .ok ⟨"X32", [⟨0, "a"⟩, ⟨0, "b"⟩]⟩
    ∧ ¬ (List.map Syscall.num [(⟨0, "a"⟩ : Syscall), ⟨0, "b"⟩]).Nodup := by
  refine ⟨by decide, by decide, by decide⟩

/-- C4 (amended): for every architecture, if the pairs parsed from the
input (after the per-architecture exclusion rules have discarded their
lines) carry pairwise-distinct syscall numbers, then so does the final
sorted list — the sort only permutes the pairs. -/
theorem c4_amended :
    (∀ tbl hdr a sA sB, readSyscallsLines tbl parseARMTable = .ok sA →
        readSyscallsLines hdr parseARMHeader = .ok sB →
        ((sA ++ sB).map Syscall.num).Nodup →
        buildARMPure tbl hdr = .ok a → (a.syscalls.map Syscall.num).Nodup)
    ∧ (∀ hdr a s0, readSyscallsLines hdr parseAARCH64 = .ok s0 →
        (s0.map Syscall.num).Nodup →
        buildAARCH64Pure hdr = .ok a → (a.syscalls.map Syscall.num).Nodup)
    ∧ (∀ tbl a s0, readSyscallsLines tbl parse386 = .ok s0 →
        (s0.map Syscall.num).Nodup →
        build386Pure tbl = .ok a → (a.syscalls.map Syscall.num).Nodup)
    ∧ (∀ tbl a s0, readSyscallsLines tbl parseX32 = .ok s0 →
        (s0.map Syscall.num).Nodup →
        buildX32Pure tbl = .ok a → (a.syscalls.map Syscall.num).Nodup)
    ∧ (∀ tbl a s0, readSyscallsLines tbl parseX8664 = .ok s0 →
        (s0.map Syscall.num).Nodup →
        buildX8664Pure tbl = .ok a → (a.syscalls.map Syscall.num).Nodup) := by
  refine ⟨?_, ?_, ?_, ?_, ?_⟩
  · intro tbl hdr a sA sB h1 h2 hnd hb
    unfold buildARMPure at hb
    rw [h1, h2] at hb
    injection hb with hb
    subst hb
    exact (((sortSliceGo_perm (sA ++ sB)).map Syscall.num).nodup_iff).mpr hnd
  · intro hdr a s0 h1 hnd hb
    unfold buildAARCH64Pure at hb
    rw [h1] at hb
    injection hb with hb
    subst hb
    exact (((sortSliceGo_perm s0).map Syscall.num).nodup_iff).mpr hnd
  · intro tbl a s0 h1 hnd hb
    unfold build386Pure at hb
    rw [h1] at hb
    injection hb with hb
    subst hb
    exact (((sortSliceGo_perm s0).map Syscall.num).nodup_iff).mpr hnd
  · intro tbl a s0 h1 hnd hb
    unfold buildX32Pure at hb
    rw [h1] at hb
    injection hb with hb
    subst hb
    exact (((sortSliceGo_perm s0).map Syscall.num).nodup_iff).mpr hnd
  · intro tbl a s0 h1 hnd hb
    unfold buildX8664Pure at hb
    rw [h1] at hb
    injection hb with hb
    subst hb
    exact (((sortSliceGo_perm s0).map Syscall.num).nodup_iff).mpr hnd

/-- Witness for C4 (amended) on a two-line 386 table with distinct numbers. -/
theorem c4_amended_witness :
    readSyscallsLines ["0 common a sys_a", "1 common b sys_b"] parse386
      = .ok [⟨0, "a"⟩, ⟨1, "b"⟩]
    ∧ (List.map Syscall.num [(⟨0, "a"⟩ : Syscall), ⟨1, "b"⟩]).Nodup
    ∧ build386Pure ["0 common a sys_a", "1 common b sys_b"]
      = .ok ⟨"386", [⟨0, "a"⟩, ⟨1, "b"⟩]⟩
    ∧ (List.map Syscall.num [(⟨0, "a"⟩ : Syscall), ⟨1, "b"⟩]).Nodup :=
  ⟨by decide, by decide, by decide,
    c4_amended.2.2.1 ["0 common a sys_a", "1 common b sys_b"] ⟨"386", [⟨0, "a"⟩, ⟨1, "b"⟩]⟩
      [⟨0, "a"⟩, ⟨1, "b"⟩] (by decide) (by decide) (by decide)⟩

/-- C3 fails as stated: `sort.Slice` is not a stable sort. On this 13-line
table the parsed pairs carry `(7, a)` before `(7, b)`, but in the final
list `(7, b)` comes before `(7, a)`: the first partition of pdqsort swaps
the element at the segment start with the pivot position, reordering equal
numbers. The output is still ascending. -/
theorem c3_counterexample :
    readSyscallsLines c3Lines parse386
      = .ok [⟨7, "a"⟩, ⟨7, "b"⟩, ⟨9, "c"⟩, ⟨28, "d"⟩, ⟨18, "e"⟩, ⟨8, "f"⟩, ⟨27, "g"⟩,
        ⟨17, "h"⟩, ⟨7, "i"⟩, ⟨26, "j"⟩, ⟨16, "k"⟩, ⟨6, "l"⟩, ⟨25, "m"⟩]
    ∧ build386Pure c3Lines
      = .ok ⟨"386", [⟨6, "l"⟩, ⟨7, "b"⟩, ⟨7, "a"⟩, ⟨7, "i"⟩, ⟨8, "f"⟩, ⟨9, "c"⟩, ⟨16, "k"⟩,
        ⟨17, "h"⟩, ⟨18, "e"⟩, ⟨25, "m"⟩, ⟨26, "j"⟩, ⟨27, "g"⟩, ⟨28, "d"⟩]⟩ := by
  refine ⟨by decide, by decide⟩

/-- **C3 (amended).** For every architecture, the builder's final list is the
parsed (number, name) pairs sorted ascending by syscall number — the output
is non-strictly sorted and is a permutation of the parsed pairs. The sort is
Go's `sort.Slice` (pdqsort), which is *not* stable: on the 13-line table
`c3Lines` two equal-numbered pairs come out in reversed input order. -/
theorem c3_amended :
    (∀ tbl hdr A, buildARMPure tbl hdr = .ok A →
      List.Pairwise (fun s t => s.num ≤ t.num) A.syscalls ∧
      ∃ sA sB, readSyscallsLines tbl parseARMTable = .ok sA ∧
        readSyscallsLines hdr parseARMHeader = .ok sB ∧ A.syscalls ~ sA ++ sB)
    ∧ (∀ hdr A, buildAARCH64Pure hdr = .ok A →
      List.Pairwise (fun s t => s.num ≤ t.num) A.syscalls ∧
      ∃ s, readSyscallsLines hdr parseAARCH64 = .ok s ∧ A.syscalls ~ s)
    ∧ (∀ tbl A, build386Pure tbl = .ok A →
      List.Pairwise (fun s t => s.num ≤ t.num) A.syscalls ∧
      ∃ s, readSyscallsLines tbl parse386 = .ok s ∧ A.syscalls ~ s)
    ∧ (∀ tbl A, buildX32Pure tbl = .ok A →
      List.Pairwise (fun s t => s.num ≤ t.num) A.syscalls ∧
      ∃ s, readSyscallsLines tbl parseX32 = .ok s ∧ A.syscalls ~ s)
    ∧ (∀ tbl A, buildX8664Pure tbl = .ok A →
      List.Pairwise (fun s t => s.num ≤ t.num) A.syscalls ∧
      ∃ s, readSyscallsLines tbl parseX8664 = .ok s ∧ A.syscalls ~ s) := by
  refine ⟨?_, ?_, ?_, ?_, ?_⟩
  · intro tbl hdr A h
    unfold buildARMPure at h
    cases hA : readSyscallsLines tbl parseARMTable with
    | error e =>
      rw [hA] at h
      exact Except.noConfusion h
    | ok sA =>
      rw [hA] at h
      cases hB : readSyscallsLines hdr parseARMHeader with
      | error e =>
        rw [hB] at h
        exact Except.noConfusion h
      | ok sB =>
        rw [hB] at h
        cases h
        exact ⟨sortSliceGo_sorted _, sA, sB, rfl, rfl, sortSliceGo_perm _⟩
  · intro hdr A h
    unfold buildAARCH64Pure at h
    cases hA : readSyscallsLines hdr parseAARCH64 with
    | error e =>
      rw [hA] at h
      exact Except.noConfusion h
    | ok s =>
      rw [hA] at h
      cases h
      exact ⟨sortSliceGo_sorted _, s, rfl, sortSliceGo_perm _⟩
  · intro tbl A h
    unfold build386Pure at h
    cases hA : readSyscallsLines tbl parse386 with
    | error e =>
      rw [hA] at h
      exact Except.noConfusion h
    | ok s =>
      rw [hA] at h
      cases h
      exact ⟨sortSliceGo_sorted _, s, rfl, sortSliceGo_perm _⟩
  · intro tbl A h
    unfold buildX32Pure at h
    cases hA : readSyscallsLines tbl parseX32 with
    | error e =>
      rw [hA] at h
      exact Except.noConfusion h
    | ok s =>
      rw [hA] at h
      cases h
      exact ⟨sortSliceGo_sorted _, s, rfl, sortSliceGo_perm _⟩
  · intro tbl A h
    unfold buildX8664Pure at h
    cases hA : readSyscallsLines tbl parseX8664 with
    | error e =>
      rw [hA] at h
      exact Except.noConfusion h
    | ok s =>
      rw [hA] at h
      cases h
      exact ⟨sortSliceGo_sorted _, s, rfl, sortSliceGo_perm _⟩

/-- Witness for `c3_amended`: on a concrete three-line x32 table the builder
succeeds and the claim's conclusion holds for the concrete output. -/
theorem c3_amended_witness :
    buildX32Pure ["2 x32 ignored sys_ignored", "3 common c sys_c", "1 common b sys_b"] =
      .ok ⟨"X32", [⟨1, "b"⟩, ⟨2, "ignored"⟩, ⟨3, "c"⟩]⟩ ∧
    (List.Pairwise (fun s t => s.num ≤ t.num)
        (Arch.mk "X32" [⟨1, "b"⟩, ⟨2, "ignored"⟩, ⟨3, "c"⟩]).syscalls ∧
      ∃ s, readSyscallsLines
          ["2 x32 ignored sys_ignored", "3 common c sys_c", "1 common b sys_b"]
          parseX32 = .ok s ∧
        (Arch.mk "X32" [⟨1, "b"⟩, ⟨2, "ignored"⟩, ⟨3, "c"⟩]).syscalls ~ s) :=
  ⟨by decide, c3_amended.2.2.2.1 _ _ (by decide)⟩
